import Mathlib

/-!
# A shallow embedding of `sjtu::list` (src/list.hpp)

The C++ source implements a doubly-linked list with two permanent sentinel
nodes (`head`, `tail`).  Nodes live on the C++ heap and are addressed by
pointers; iterators are (owner-list pointer, node pointer) pairs.

The embedding models the heap explicitly:

* node addresses are natural numbers;
* the heap is a partial map `Nat → Option (Node T)`;
* `new` allocates at a fresh address (a counter, mirroring the guarantee
  that `new` never returns the address of a live object);
* `delete` removes the address from the map;
* reading or writing through a pointer that is not a live allocation — and
  dereferencing a null pointer — is undefined behaviour in C++; such an
  access yields `Option.none` for the whole operation.  A thrown exception
  (`invalid_iterator` / `container_is_empty`) is a defined outcome and is
  modelled by `some (Except.error e)`.

Every operation is translated statement by statement from src/list.hpp;
pointer reads are re-performed exactly where the C++ code re-reads them.
Unbounded C++ `while` loops are modelled with an explicit fuel parameter;
exhausting the fuel (which cannot happen in any state satisfying the
structural invariant) also yields `none`.
-/

namespace SjtuList

/-- One list node (`list<T>::node`): two neighbour links and an owned value
pointer, `nullptr`/`none` for the sentinels. -/
structure Node (T : Type) where
  prev : Option Nat
  next : Option Nat
  val : Option T
deriving DecidableEq, Repr

/-- The C++ heap restricted to `node` objects: a partial map from addresses. -/
abbrev Heap (T : Type) := Nat → Option (Node T)

/-- Overwrite address `i` with node `nd`. -/
def Heap.set {T : Type} (h : Heap T) (i : Nat) (nd : Node T) : Heap T :=
  fun j => if j = i then some nd else h j

/-- `delete` at address `i`: the allocation disappears. -/
def Heap.del {T : Type} (h : Heap T) (i : Nat) : Heap T :=
  fun j => if j = i then none else h j

/-- Allocation state: the heap plus the next fresh address. -/
structure State (T : Type) where
  heap : Heap T
  fresh : Nat

/-- The fields of one `list<T>` object: its identity (the C++ address of the
list object itself, used by iterators' `owner` pointers), the addresses of the
two sentinels, and the stored count `sz`. -/
structure LMeta where
  id : Nat
  head : Nat
  tail : Nat
  sz : Nat
deriving DecidableEq, Repr

/-- An `iterator` / `const_iterator`: both C++ classes carry exactly a node
pointer `cur` and an owner-list pointer `owner`, and all their operator bodies
are textually identical, so one Lean type models both. -/
structure Iter where
  cur : Option Nat
  owner : Option Nat
deriving DecidableEq, Repr

/-- The two exception types of the container (`invalid_iterator`,
`container_is_empty`). -/
inductive Err where
  | invalidIterator
  | containerIsEmpty
deriving DecidableEq, Repr

variable {T : Type}

/-- Write the `prev` field of the node at `i`; `none` if `i` is not live. -/
def writePrev (s : State T) (i : Nat) (x : Option Nat) : Option (State T) :=
  (s.heap i).map fun nd => { s with heap := s.heap.set i { nd with prev := x } }

/-- Write the `next` field of the node at `i`; `none` if `i` is not live. -/
def writeNext (s : State T) (i : Nat) (x : Option Nat) : Option (State T) :=
  (s.heap i).map fun nd => { s with heap := s.heap.set i { nd with next := x } }

/-- Write the value pointer of the node at `i`; `none` if `i` is not live. -/
def writeVal (s : State T) (i : Nat) (x : Option T) : Option (State T) :=
  (s.heap i).map fun nd => { s with heap := s.heap.set i { nd with val := x } }

/-- `new node(...)`: allocate at the fresh address. -/
def alloc (s : State T) (nd : Node T) : State T × Nat :=
  (⟨s.heap.set s.fresh nd, s.fresh + 1⟩, s.fresh)

/-- `delete` the node at address `i`. -/
def free (s : State T) (i : Nat) : State T :=
  { s with heap := s.heap.del i }

/-! ## Iterator operations

Each operation takes the `LMeta` of the list object the iterator's `owner`
pointer refers to (the C++ code dereferences `owner` for `owner->head`,
`owner->tail`, `owner->sz`); callers pass the meta of that owner whenever
`owner` is non-null, mirroring the pointer dereference. -/

/-- `operator++` of `iterator` and `const_iterator` (the state transition
shared by the pre- and post-increment forms):
`if (owner == nullptr || cur == nullptr || cur == owner->tail) throw
invalid_iterator(); cur = cur->next;`. -/
def incr (h : Heap T) (L : LMeta) (it : Iter) : Option (Except Err Iter) :=
  match it.owner, it.cur with
  | none, _ => some (.error .invalidIterator)
  | some _, none => some (.error .invalidIterator)
  | some o, some c =>
    if c = L.tail then some (.error .invalidIterator)
    else
      match h c with
      | none => none
      | some nd => some (.ok ⟨nd.next, some o⟩)

/-- `operator--` of `iterator` and `const_iterator` (the state transition
shared by the pre- and post-decrement forms): null checks, then
`cur == owner->head` is refused, `cur == owner->tail` retreats to
`owner->tail->prev` when `sz != 0`, `cur->prev == owner->head` is refused,
otherwise `cur = cur->prev`. -/
def decr (h : Heap T) (L : LMeta) (it : Iter) : Option (Except Err Iter) :=
  match it.owner, it.cur with
  | none, _ => some (.error .invalidIterator)
  | some _, none => some (.error .invalidIterator)
  | some o, some c =>
    if c = L.head then some (.error .invalidIterator)
    else if c = L.tail then
      if L.sz = 0 then some (.error .invalidIterator)
      else
        match h L.tail with
        | none => none
        | some tn => some (.ok ⟨tn.prev, some o⟩)
    else
      match h c with
      | none => none
      | some nd =>
        if nd.prev = some L.head then some (.error .invalidIterator)
        else some (.ok ⟨nd.prev, some o⟩)

/-- Post-increment `it++`: returns the old value and mutates to `incr`'s
result (same error conditions as pre-increment). -/
def incrPost (h : Heap T) (L : LMeta) (it : Iter) : Option (Except Err (Iter × Iter)) :=
  (incr h L it).map fun r => r.map fun it' => (it, it')

/-- Post-decrement `it--`: returns the old value and mutates to `decr`'s
result (same error conditions as pre-decrement). -/
def decrPost (h : Heap T) (L : LMeta) (it : Iter) : Option (Except Err (Iter × Iter)) :=
  (decr h L it).map fun r => r.map fun it' => (it, it')

/-- `operator*` (and `operator->`) of both iterator kinds:
`if (owner == nullptr || cur == nullptr || cur->val == nullptr) throw
invalid_iterator(); return *(cur->val);`. -/
def deref (h : Heap T) (it : Iter) : Option (Except Err T) :=
  match it.owner, it.cur with
  | none, _ => some (.error .invalidIterator)
  | some _, none => some (.error .invalidIterator)
  | some _, some c =>
    match h c with
    | none => none
    | some nd =>
      match nd.val with
      | none => some (.error .invalidIterator)
      | some v => some (.ok v)

/-- `operator==` of both iterator kinds, in all four const/non-const
pairings: `return cur == rhs.cur;` — a pure pointer comparison, never
consulting `owner` and never failing (`operator!=` is its negation). -/
def iterEq (a b : Iter) : Bool :=
  decide (a.cur = b.cur)

/-! ## List construction -/

/-- The default constructor `list()`: `head = new node(); tail = new node();
head->next = tail; head->prev = nullptr; tail->prev = head;
tail->next = nullptr; sz = 0;`.  `lid` is the address of the list object
itself (the identity iterators' `owner` pointers compare against). -/
def mkList (s : State T) (lid : Nat) : State T × LMeta :=
  let a1 := alloc s (Node.mk none none none)
  let a2 := alloc a1.1 (Node.mk none none none)
  let h1 := a2.1.heap.set a1.2 (Node.mk none (some a2.2) none)
  let h2 := h1.set a2.2 (Node.mk (some a1.2) none none)
  ({ a2.1 with heap := h2 }, LMeta.mk lid a1.2 a2.2 0)

/-- `begin()` / `cbegin()`: `iterator(this, sz ? head->next : tail)` — reads
`head->next` (a dereference of the head sentinel) only when `sz` is nonzero. -/
def beginIter (s : State T) (L : LMeta) : Option Iter :=
  if L.sz ≠ 0 then
    (s.heap L.head).map fun hn => ⟨hn.next, some L.id⟩
  else some ⟨some L.tail, some L.id⟩

/-- `end()` / `cend()`: `iterator(this, tail)`. -/
def endIter (L : LMeta) : Iter :=
  ⟨some L.tail, some L.id⟩

/-- `empty()`: `sz == 0`. -/
def emptyOp (L : LMeta) : Bool :=
  decide (L.sz = 0)

/-- `size()`: `sz`. -/
def sizeOp (L : LMeta) : Nat :=
  L.sz

/-- `front()`: `if (sz == 0) throw container_is_empty(); return
*(head->next->val);`. -/
def frontOp (s : State T) (L : LMeta) : Option (Except Err T) :=
  if L.sz = 0 then some (.error .containerIsEmpty)
  else
    match s.heap L.head with
    | none => none
    | some hn =>
      match hn.next with
      | none => none
      | some f =>
        match s.heap f with
        | none => none
        | some fn =>
          match fn.val with
          | none => none
          | some v => some (.ok v)

/-- `back()`: `if (sz == 0) throw container_is_empty(); return
*(tail->prev->val);`. -/
def backOp (s : State T) (L : LMeta) : Option (Except Err T) :=
  if L.sz = 0 then some (.error .containerIsEmpty)
  else
    match s.heap L.tail with
    | none => none
    | some tn =>
      match tn.prev with
      | none => none
      | some b =>
        match s.heap b with
        | none => none
        | some bn =>
          match bn.val with
          | none => none
          | some v => some (.ok v)

/-! ## Mutating list operations -/

/-- `insert(pos, value)`:
`if (pos.owner != this || pos.cur == nullptr) throw invalid_iterator();`
then `nd = new node(value); nd->prev = p->prev; nd->next = p;
p->prev->next = nd; p->prev = nd; ++sz; return iterator(this, nd);`.
Pointer reads are re-performed exactly where the C++ statements read them. -/
def listInsert (s : State T) (L : LMeta) (pos : Iter) (v : T) :
    Option (Except Err (State T × LMeta × Iter)) :=
  if pos.owner ≠ some L.id then some (.error .invalidIterator)
  else
    match pos.cur with
    | none => some (.error .invalidIterator)
    | some p =>
      Option.map Except.ok <| do
        let a := alloc s (Node.mk none none (some v))
        let s1 := a.1
        let nid := a.2
        let pn1 ← s1.heap p
        let s2 ← writePrev s1 nid pn1.prev
        let s3 ← writeNext s2 nid (some p)
        let pn2 ← s3.heap p
        let pp ← pn2.prev
        let s4 ← writeNext s3 pp (some nid)
        let s5 ← writePrev s4 p (some nid)
        pure (s5, { L with sz := L.sz + 1 }, (⟨some nid, some L.id⟩ : Iter))

/-- `erase(pos)`: owner/null check (`invalid_iterator`), then the `sz == 0`
check (`container_is_empty`), then `p == tail || p->val == nullptr`
(`invalid_iterator`); then `nxt = p->next; p->prev->next = p->next;
p->next->prev = p->prev; delete p; --sz; return iterator(this, nxt);`. -/
def listErase (s : State T) (L : LMeta) (pos : Iter) :
    Option (Except Err (State T × LMeta × Iter)) :=
  if pos.owner ≠ some L.id then some (.error .invalidIterator)
  else
    match pos.cur with
    | none => some (.error .invalidIterator)
    | some p =>
      if L.sz = 0 then some (.error .containerIsEmpty)
      else if p = L.tail then some (.error .invalidIterator)
      else
        match s.heap p with
        | none => none
        | some pn =>
          match pn.val with
          | none => some (.error .invalidIterator)
          | some _ =>
            Option.map Except.ok <| do
              let nxt := pn.next
              let pp ← pn.prev
              let s1 ← writeNext s pp pn.next
              let pn2 ← s1.heap p
              let nx2 ← pn2.next
              let s2 ← writePrev s1 nx2 pn2.prev
              let s3 := free s2 p
              pure (s3, { L with sz := L.sz - 1 }, (⟨nxt, some L.id⟩ : Iter))

/-- `push_back(value)`: `insert(end(), value)` (the returned iterator is
discarded). -/
def pushBack (s : State T) (L : LMeta) (v : T) : Option (Except Err (State T × LMeta)) :=
  (listInsert s L (endIter L) v).map fun r => r.map fun x => (x.1, x.2.1)

/-- `pop_back()`: `if (sz == 0) throw container_is_empty();
iterator it(this, tail->prev); erase(it);`. -/
def popBack (s : State T) (L : LMeta) : Option (Except Err (State T × LMeta)) :=
  if L.sz = 0 then some (.error .containerIsEmpty)
  else
    match s.heap L.tail with
    | none => none
    | some tn =>
      (listErase s L ⟨tn.prev, some L.id⟩).map fun r => r.map fun x => (x.1, x.2.1)

/-- `push_front(value)`: `insert(begin(), value)`. -/
def pushFront (s : State T) (L : LMeta) (v : T) : Option (Except Err (State T × LMeta)) :=
  match beginIter s L with
  | none => none
  | some b => (listInsert s L b v).map fun r => r.map fun x => (x.1, x.2.1)

/-- `pop_front()`: `if (sz == 0) throw container_is_empty();
iterator it(this, head->next); erase(it);`. -/
def popFront (s : State T) (L : LMeta) : Option (Except Err (State T × LMeta)) :=
  if L.sz = 0 then some (.error .containerIsEmpty)
  else
    match s.heap L.head with
    | none => none
    | some hn =>
      (listErase s L ⟨hn.next, some L.id⟩).map fun r => r.map fun x => (x.1, x.2.1)

/-- The `while (p != tail) { n = p->next; delete p; p = n; }` loop of
`clear()`.  The fuel bounds the number of iterations; it never runs out on
an invariant-satisfying list. -/
def clearLoop (fuel : Nat) (s : State T) (tl : Nat) (p : Option Nat) : Option (State T) :=
  match fuel with
  | 0 => none
  | fuel + 1 =>
    if p = some tl then some s
    else
      match p with
      | none => none
      | some pi =>
        match s.heap pi with
        | none => none
        | some pn => clearLoop fuel (free s pi) tl pn.next

/-- `clear()`: delete every interior node, then `head->next = tail;
tail->prev = head; sz = 0;`. -/
def clearOp (s : State T) (L : LMeta) : Option (State T × LMeta) :=
  match s.heap L.head with
  | none => none
  | some hn => do
    let s1 ← clearLoop (L.sz + 1) s L.tail hn.next
    let s2 ← writeNext s1 L.head (some L.tail)
    let s3 ← writePrev s2 L.tail (some L.head)
    pure (s3, { L with sz := 0 })

/-- The `for (p = other.head->next; p != other.tail; p = p->next)
push_back(*(p->val));` loop shared by the copy constructor and the
assignment operator.  `p->next` is re-read after the `push_back`, exactly as
the C++ loop does. -/
def copyLoop (fuel : Nat) (s : State T) (L : LMeta) (srcTail : Nat) (p : Option Nat) :
    Option (Except Err (State T × LMeta)) :=
  match fuel with
  | 0 => none
  | fuel + 1 =>
    if p = some srcTail then some (.ok (s, L))
    else
      match p with
      | none => none
      | some pi =>
        match s.heap pi with
        | none => none
        | some pn =>
          match pn.val with
          | none => none
          | some v =>
            match pushBack s L v with
            | none => none
            | some (.error e) => some (.error e)
            | some (.ok x) =>
              match x.1.heap pi with
              | none => none
              | some pn2 => copyLoop fuel x.1 x.2 srcTail pn2.next

/-- The copy constructor `list(const list &other)`: default-construct the
sentinels, then push back a copy of every value of `other` in order. -/
def copyList (s : State T) (lid : Nat) (src : LMeta) : Option (Except Err (State T × LMeta)) :=
  let m := mkList s lid
  match m.1.heap src.head with
  | none => none
  | some hn => copyLoop (src.sz + 1) m.1 m.2 src.tail hn.next

/-- `operator=`: `if (this == &other) return *this; clear();` then the same
push-back loop as the copy constructor. -/
def assignOp (s : State T) (dst : LMeta) (src : LMeta) : Option (Except Err (State T × LMeta)) :=
  if dst.id = src.id then some (.ok (s, dst))
  else
    match clearOp s dst with
    | none => none
    | some x =>
      match x.1.heap src.head with
      | none => none
      | some hn => copyLoop (src.sz + 1) x.1 x.2 src.tail hn.next

/-! ## Structural algorithms -/

/-- The value-swapping loop of `reverse()`:
`for (i = 0; i < sz / 2; ++i) { T *tmp = l->val; l->val = r->val;
r->val = tmp; l = l->next; r = r->prev; }`.  `count` is the remaining number
of iterations (`sz / 2` at the start). -/
def revLoop (count : Nat) (s : State T) (l r : Option Nat) : Option (State T) :=
  match count with
  | 0 => some s
  | count + 1 =>
    match l, r with
    | some li, some ri =>
      match s.heap li, s.heap ri with
      | some ln, some rn => do
        let tmp := ln.val
        let s1 ← writeVal s li rn.val
        let s2 ← writeVal s1 ri tmp
        match s2.heap li, s2.heap ri with
        | some ln2, some rn2 => revLoop count s2 ln2.next rn2.prev
        | _, _ => none
      | _, _ => none
    | _, _ => none

/-- `reverse()`: `if (sz <= 1) return; l = head->next; r = tail->prev;` then
the swap loop.  Only `val` pointers are exchanged; no link is written and
`sz` is untouched, so only the heap changes. -/
def reverseOp (s : State T) (L : LMeta) : Option (State T) :=
  if L.sz ≤ 1 then some s
  else
    match s.heap L.head, s.heap L.tail with
    | some hn, some tn => revLoop (L.sz / 2) s hn.next tn.prev
    | _, _ => none

/-- The inner loop of `unique()`:
`while (n != tail && !(*(p->val) != *(n->val))) { del = n; n = n->next;
del->prev->next = del->next; del->next->prev = del->prev; delete del;
--sz; }`.  `p->val` is re-read on every iteration, as the C++ condition
does.  Returns the updated state, the final `n`, and the updated `sz`. -/
def uniqueInner [DecidableEq T] (fuel : Nat) (s : State T) (tl : Nat) (p : Nat) (n : Option Nat) (sz : Nat) :
    Option (State T × Option Nat × Nat) :=
  match fuel with
  | 0 => none
  | fuel + 1 =>
    if n = some tl then some (s, n, sz)
    else
      match n with
      | none => none
      | some ni =>
        match s.heap p with
        | none => none
        | some pn =>
          match pn.val with
          | none => none
          | some pv =>
            match s.heap ni with
            | none => none
            | some nn =>
              match nn.val with
              | none => none
              | some nv =>
                if !decide (pv ≠ nv) then
                  match nn.prev with
                  | none => none
                  | some dp => do
                    let s1 ← writeNext s dp nn.next
                    match s1.heap ni with
                    | none => none
                    | some dn2 =>
                      match dn2.next with
                      | none => none
                      | some dx => do
                        let s2 ← writePrev s1 dx dn2.prev
                        uniqueInner fuel (free s2 ni) tl p nn.next (sz - 1)
                else some (s, n, sz)

/-- The outer loop of `unique()`: `while (p != tail) { n = p->next;
⟨inner loop⟩; p = n; }`. -/
def uniqueOuter [DecidableEq T] (fuel ifuel : Nat) (s : State T) (tl : Nat) (p : Option Nat) (sz : Nat) :
    Option (State T × Nat) :=
  match fuel with
  | 0 => none
  | fuel + 1 =>
    if p = some tl then some (s, sz)
    else
      match p with
      | none => none
      | some pi =>
        match s.heap pi with
        | none => none
        | some pn =>
          match uniqueInner ifuel s tl pi pn.next sz with
          | none => none
          | some x => uniqueOuter fuel ifuel x.1 tl x.2.1 x.2.2

/-- `unique()`: `if (sz <= 1) return;` then the scan from `head->next`.
The run test is literally `!(a != b)`, the negation of the value type's
inequality operator. -/
def uniqueOp [DecidableEq T] (s : State T) (L : LMeta) : Option (State T × LMeta) :=
  if L.sz ≤ 1 then some (s, L)
  else
    match s.heap L.head with
    | none => none
    | some hn =>
      match uniqueOuter (L.sz + 1) (L.sz + 1) s L.tail hn.next L.sz with
      | none => none
      | some x => some (x.1, { L with sz := x.2 })

/-- The collection loop of `sort()`: `for (p = head->next; p != tail;
p = p->next) arr[i++] = p;` gathering the interior node pointers in chain
order. -/
def collectLoop (fuel : Nat) (h : Heap T) (tl : Nat) (p : Option Nat) : Option (List Nat) :=
  match fuel with
  | 0 => none
  | fuel + 1 =>
    if p = some tl then some []
    else
      match p with
      | none => none
      | some pi =>
        match h pi with
        | none => none
        | some pn => (collectLoop fuel h tl pn.next).map fun rest => pi :: rest

/-- The comparator `sort()` passes to the external routine:
`[](node *const &a, node *const &b){ return *(a->val) < *(b->val); }`,
dereferencing both node pointers and their value pointers. -/
def nodeLt [LT T] [DecidableRel (α := T) (· < ·)] (h : Heap T) (a b : Nat) : Option Bool :=
  match h a, h b with
  | some an, some bn =>
    match an.val, bn.val with
    | some av, some bv => some (decide (av < bv))
    | _, _ => none
  | _, _ => none

/-- Modelled from the spec: `sjtu::sort` (src includes `algorithm.hpp`,
which is not part of this repository's sources) — "a generic sort routine
taking a contiguous mutable range of element handles and a strict-weak-
ordering comparator, performing an in-place comparison sort with no
stability requirement".  Insertion step of an insertion sort, with the
comparator in the `Option` monad (a comparator call that dereferences a
dead pointer makes the whole sort undefined). -/
def insertSorted (cmp : Nat → Nat → Option Bool) (x : Nat) : List Nat → Option (List Nat)
  | [] => some [x]
  | y :: rest => do
    let b ← cmp x y
    if b then pure (x :: y :: rest)
    else (insertSorted cmp x rest).map fun l => y :: l

/-- Modelled from the spec: the comparison sort itself (see
`insertSorted`); any permutation-producing comparison sort satisfies the
collaborator contract, an insertion sort is used here. -/
def sortIds (cmp : Nat → Nat → Option Bool) : List Nat → Option (List Nat)
  | [] => some []
  | x :: rest => do
    let sorted ← sortIds cmp rest
    insertSorted cmp x sorted

/-- The relink loop of `sort()`: `head->next = arr[0]; arr[0]->prev = head;`
followed by `arr[k-1]->next = arr[k]; arr[k]->prev = arr[k-1];` for each
`k`, expressed with the previous node as accumulator. -/
def relinkLoop (s : State T) (a : Nat) : List Nat → Option (State T)
  | [] => some s
  | b :: rest => do
    let s1 ← writeNext s a (some b)
    let s2 ← writePrev s1 b (some a)
    relinkLoop s2 b rest

/-- `sort()`: collect the interior node pointers into an array, sort the
array with the external routine and the value comparator, then rewrite the
chain links in array order (`arr[sz-1]->next = tail; tail->prev =
arr[sz-1];` at the end).  No node is allocated or destroyed. -/
def sortOp [LT T] [DecidableRel (α := T) (· < ·)] (s : State T) (L : LMeta) :
    Option (State T) :=
  if L.sz ≤ 1 then some s
  else
    match s.heap L.head with
    | none => none
    | some hn =>
      match collectLoop (L.sz + 1) s.heap L.tail hn.next with
      | none => none
      | some ids =>
        if ids.length = L.sz then
          match sortIds (nodeLt s.heap) ids with
          | none => none
          | some arr =>
            match arr with
            | [] => none
            | a0 :: rest => do
              let s1 ← relinkLoop s L.head (a0 :: rest)
              let last := (a0 :: rest).getLastD a0
              let s2 ← writeNext s1 last (some L.tail)
              let s3 ← writePrev s2 L.tail (some last)
              pure s3
        else none

/-- The main loop of `merge(other)`:
`while (p1 != tail && p2 != other.tail)` — splice `p2` before `p1` when
`*(p2->val) < *(p1->val)` (strict), else advance `p1`.  The six splice
statements are performed in source order with pointer re-reads where the
C++ code re-reads.  Returns the state, the two updated counts, and the
final `p1`, `p2`. -/
def mergeLoop [LT T] [DecidableRel (α := T) (· < ·)] (fuel : Nat) (s : State T)
    (ta tb : Nat) (szA szB : Nat) (p1 p2 : Option Nat) :
    Option (State T × Nat × Nat × Option Nat × Option Nat) :=
  match fuel with
  | 0 => none
  | fuel + 1 =>
    if p1 = some ta ∨ p2 = some tb then some (s, szA, szB, p1, p2)
    else
      match p1, p2 with
      | some i1, some i2 =>
        match s.heap i1, s.heap i2 with
        | some n1, some n2 =>
          match n1.val, n2.val with
          | some v1, some v2 =>
            if decide (v2 < v1) then
              match n2.prev with
              | none => none
              | some dp => do
                let nn2 := n2.next
                let s1 ← writeNext s dp n2.next
                let m2 ← s1.heap i2
                let nx ← m2.next
                let s2 ← writePrev s1 nx m2.prev
                let m1 ← s2.heap i1
                let s3 ← writePrev s2 i2 m1.prev
                let s4 ← writeNext s3 i2 (some i1)
                let m1b ← s4.heap i1
                let pp ← m1b.prev
                let s5 ← writeNext s4 pp (some i2)
                let s6 ← writePrev s5 i1 (some i2)
                mergeLoop fuel s6 ta tb (szA + 1) (szB - 1) p1 nn2
            else
              mergeLoop fuel s ta tb szA szB n1.next p2
          | _, _ => none
        | _, _ => none
      | _, _ => none

/-- The counting loop of `merge`'s tail splice:
`for (q = first; ; q = q->next) { ++moved; if (q == last) break; }`. -/
def countLoop (fuel : Nat) (h : Heap T) (q : Option Nat) (last : Option Nat) (acc : Nat) :
    Option Nat :=
  match fuel with
  | 0 => none
  | fuel + 1 =>
    match q with
    | none => none
    | some qi =>
      if some qi = last then some (acc + 1)
      else
        match h qi with
        | none => none
        | some qn => countLoop fuel h qn.next last (acc + 1)

/-- `merge(other)`: `if (this == &other || other.sz == 0) return;` then the
main loop from `head->next` / `other.head->next`, then, when `other` is not
exhausted, the remainder splice: read `last = other.tail->prev`, detach
`other`'s chain, count the moved nodes, and attach `[first, last]` before
`tail`. -/
def mergeOp [LT T] [DecidableRel (α := T) (· < ·)] (s : State T) (A B : LMeta) :
    Option (State T × LMeta × LMeta) :=
  if A.id = B.id ∨ B.sz = 0 then some (s, A, B)
  else
    match s.heap A.head, s.heap B.head with
    | some ha, some hb =>
      match mergeLoop (A.sz + B.sz + 1) s A.tail B.tail A.sz B.sz ha.next hb.next with
      | none => none
      | some (s1, szA, szB, _p1, p2) =>
        if p2 ≠ some B.tail then
          match p2 with
          | none => none
          | some fi =>
            match s1.heap B.tail with
            | none => none
            | some tbn => do
              let last := tbn.prev
              let s2 ← writeNext s1 B.head (some B.tail)
              let s3 ← writePrev s2 B.tail (some B.head)
              let moved ← countLoop (szB + 1) s3.heap (some fi) last 0
              match last with
              | none => none
              | some li => do
                let s4 ← writeNext s3 li (some A.tail)
                let tan ← s4.heap A.tail
                let s5 ← writePrev s4 fi tan.prev
                let tan2 ← s5.heap A.tail
                let tp ← tan2.prev
                let s6 ← writeNext s5 tp (some fi)
                let s7 ← writePrev s6 A.tail (some li)
                pure (s7, { A with sz := szA + moved }, { B with sz := szB - moved })
        else some (s1, { A with sz := szA }, { B with sz := szB })
    | _, _ => none

/-! ## Client-side iteration

Models the canonical `for (it = begin(); it != end(); ++it) use(*it);`
client loop: compare with `end()` via `operator==`, dereference, and
pre-increment. -/

/-- Collect the values seen when iterating from `it` until `operator==`
with `end()` holds, dereferencing and incrementing as a client would. -/
def iterToEnd (h : Heap T) (L : LMeta) : Nat → Iter → Option (List T)
  | 0, _ => none
  | fuel + 1, it =>
    if iterEq it (endIter L) then some []
    else
      match deref h it with
      | some (.ok v) =>
        match incr h L it with
        | some (.ok it') => (iterToEnd h L fuel it').map fun vs => v :: vs
        | _ => none
      | _ => none

/-! ## The structural invariant

`InvWith s L l` says the abstract content of the list `L` in state `s` is
the sequence `l` of (node address, value) pairs: the chain
`head :: addresses of l ++ [tail]` is doubly linked with back-links
mirroring forward-links, `head.prev` and `tail.next` are absent, the
sentinels hold no value, every interior node holds its value, the stored
count equals the number of interior nodes, and every node of the chain was
allocated below the allocator's fresh counter (the C++ guarantee that `new`
never returns a live address). -/

/-- `a` and `b` are doubly linked: `a->next == b` and `b->prev == a`
(both nodes live). -/
def links (h : Heap T) (a b : Nat) : Prop :=
  (h a).bind Node.next = some b ∧ (h b).bind Node.prev = some a

instance {h : Heap T} : DecidableRel (links h) := fun a b =>
  decidable_of_iff (((h a).bind Node.next = some b) ∧ ((h b).bind Node.prev = some a)) Iff.rfl

/-- The full pointer chain of list `L` with interior content `l`. -/
def ptrList (L : LMeta) (l : List (Nat × T)) : List Nat :=
  L.head :: l.map Prod.fst ++ [L.tail]

/-- Every pair's node is live and holds exactly the pair's value. -/
def HasVals (h : Heap T) (l : List (Nat × T)) : Prop :=
  ∀ q ∈ l, (h q.1).map Node.val = some (some q.2)

/-- The structural invariant of one list, with its abstract content `l`
made explicit. -/
def InvWith (s : State T) (L : LMeta) (l : List (Nat × T)) : Prop :=
  (ptrList L l).Nodup ∧
  List.Chain' (links s.heap) (ptrList L l) ∧
  (s.heap L.head).map Node.prev = some none ∧
  (s.heap L.head).map Node.val = some none ∧
  (s.heap L.tail).map Node.next = some none ∧
  (s.heap L.tail).map Node.val = some none ∧
  HasVals s.heap l ∧
  L.sz = l.length ∧
  ∀ i ∈ ptrList L l, i < s.fresh

/-- The structural invariant of one list (content existentially hidden):
clauses (1)-(3) of the spec's List invariant plus allocator consistency. -/
def Inv (s : State T) (L : LMeta) : Prop :=
  ∃ l, InvWith s L l

/-! ## Content-level abstractions of `unique()`

`unique()`'s inner loop deletes the maximal prefix of nodes whose value
equals the fixed reference value `v` (the test is `!(a != b)` exactly as
in the code); `dropRun v l` is what remains of the suffix, `runOf v l`
what gets deleted. -/

def dropRun [DecidableEq T] (v : T) : List (Nat × T) → List (Nat × T)
  | [] => []
  | q :: rest => if !decide (v ≠ q.2) then dropRun v rest else q :: rest

/-- The maximal prefix of pairs whose value equals `v` (the nodes the
inner loop of `unique()` destroys). -/
def runOf [DecidableEq T] (v : T) : List (Nat × T) → List (Nat × T)
  | [] => []
  | q :: rest => if !decide (v ≠ q.2) then q :: runOf v rest else []

/-- Content surviving `unique()`'s scan when the most recent kept value is
`v`: drop pairs equal to `v`; on the first differing pair keep it and
continue with it as the new reference. -/
def uniqueAux [DecidableEq T] (v : T) : List (Nat × T) → List (Nat × T)
  | [] => []
  | q :: rest => if !decide (v ≠ q.2) then uniqueAux v rest else q :: uniqueAux q.2 rest

/-- Content surviving `unique()`: keep the first pair, then scan with it
as the reference value. -/
def uniqueScan [DecidableEq T] : List (Nat × T) → List (Nat × T)
  | [] => []
  | q :: rest => q :: uniqueAux q.2 rest

/-! ## Content-level abstractions of `merge()`

The main loop of `merge` splices the head of `other` before the current
`this`-node exactly when its value is strictly less (`*(p2->val) <
*(p1->val)`), otherwise advances on `this`; it stops when either side is
exhausted.  `mergeLoopAbs` is the content of `this` built by the loop
(`other`'s leftover not yet appended), `mergeLeft` the leftover of
`other` when the loop stops.  `mergeAbs` is the full merged content
after the remainder splice. -/

def mergeLoopAbs [LT T] [DecidableRel (α := T) (· < ·)] :
    List (Nat × T) → List (Nat × T) → List (Nat × T)
  | [], _ => []
  | a :: la, [] => a :: la
  | a :: la, b :: lb =>
    if b.2 < a.2 then b :: mergeLoopAbs (a :: la) lb
    else a :: mergeLoopAbs la (b :: lb)
termination_by la lb => la.length + lb.length

/-- The leftover of `other` when the main loop of `merge` stops. -/
def mergeLeft [LT T] [DecidableRel (α := T) (· < ·)] :
    List (Nat × T) → List (Nat × T) → List (Nat × T)
  | [], lb => lb
  | _ :: _, [] => []
  | a :: la, b :: lb =>
    if b.2 < a.2 then mergeLeft (a :: la) lb
    else mergeLeft la (b :: lb)
termination_by la lb => la.length + lb.length

/-- The full merged content of `this` after `merge` completes. -/
def mergeAbs [LT T] [DecidableRel (α := T) (· < ·)] :
    List (Nat × T) → List (Nat × T) → List (Nat × T)
  | [], lb => lb
  | a :: la, [] => a :: la
  | a :: la, b :: lb =>
    if b.2 < a.2 then b :: mergeAbs (a :: la) lb
    else a :: mergeAbs la (b :: lb)
termination_by la lb => la.length + lb.length

/-- The heap produced by the six splice writes of `merge`'s main loop
(detach the `other`-node `β` between `Bh` and `F`, link it in between
`P` and `Q`), in the exact write order of the code. -/
def spliceHeap (h : Heap T) (Bh F β P Q : Nat) (hB nF nb pnP nQ : Node T) : Heap T :=
  (((((h.set Bh { hB with next := some F }).set F
      { nF with prev := some Bh }).set β { nb with prev := some P }).set β
      { { nb with prev := some P } with next := some Q }).set P
      { pnP with next := some β }).set Q { nQ with prev := some β }

/-- The address of the node right before the seam of a split `l1 ++ l2`:
the last address of `l1`, or the head sentinel. -/
def backPtr (d : Nat) (l : List (Nat × T)) : Nat :=
  (l.map Prod.fst).getLastD d

/-- The address of the node right after the seam: the first address of
`l2`, or the tail sentinel. -/
def frontPtr (l : List (Nat × T)) (d : Nat) : Nat :=
  match l with
  | [] => d
  | q :: _ => q.1

/-- The heaps agree at `i` on liveness and the forward link. -/
def nextAgrees (h h' : Heap T) (i : Nat) : Prop :=
  (h' i).map Node.next = (h i).map Node.next

/-- The heaps agree at `i` on liveness and the back link. -/
def prevAgrees (h h' : Heap T) (i : Nat) : Prop :=
  (h' i).map Node.prev = (h i).map Node.prev

/-- The heaps agree at `i` on liveness and the held value. -/
def valAgrees (h h' : Heap T) (i : Nat) : Prop :=
  (h' i).map Node.val = (h i).map Node.val

/-- The client loop that pushes each value of `vs` in turn with
`push_back`. -/
def pushMany (s : State T) (L : LMeta) : List T → Option (Except Err (State T × LMeta))
  | [] => some (.ok (s, L))
  | v :: vs =>
    match pushBack s L v with
    | none => none
    | some (.error e) => some (.error e)
    | some (.ok x) => pushMany x.1 x.2 vs

/-- A one-sided link: `a->next == b` with `a` live. -/
def nextLink (h : Heap T) (a b : Nat) : Prop :=
  (h a).bind Node.next = some b

/-! ## Concrete stores exercising the specifications -/

/-- A concrete two-node store: list 0 has head 0, tail 1 and nodes 2, 3
both holding 5. -/
def exHeap : Heap Nat := fun i =>
  if i = 0 then some ⟨none, some 2, none⟩
  else if i = 1 then some ⟨some 3, none, none⟩
  else if i = 2 then some ⟨some 0, some 3, some 5⟩
  else if i = 3 then some ⟨some 2, some 1, some 5⟩
  else none

def exState : State Nat := ⟨exHeap, 4⟩

def exList : LMeta := ⟨0, 0, 1, 2⟩

/-- An empty concrete list: head 0, tail 1, no interior node. -/
def exEmptyHeap : Heap Nat := fun i =>
  if i = 0 then some ⟨none, some 1, none⟩
  else if i = 1 then some ⟨some 0, none, none⟩
  else none

def exEmptyState : State Nat := ⟨exEmptyHeap, 2⟩

def exEmptyList : LMeta := ⟨0, 0, 1, 0⟩

/-- Two disjoint one-element lists in one store, for `merge`. -/
def exMergeHeap : Heap Nat := fun i =>
  if i = 0 then some ⟨none, some 2, none⟩
  else if i = 1 then some ⟨some 2, none, none⟩
  else if i = 2 then some ⟨some 0, some 1, some 1⟩
  else if i = 4 then some ⟨none, some 6, none⟩
  else if i = 5 then some ⟨some 6, none, none⟩
  else if i = 6 then some ⟨some 4, some 5, some 2⟩
  else none

def exMergeState : State Nat := ⟨exMergeHeap, 7⟩

def exListA : LMeta := ⟨0, 0, 1, 1⟩

def exListB : LMeta := ⟨1, 4, 5, 1⟩

/-! ## Heap lemmas -/

theorem Heap.set_same (h : Heap T) (i : Nat) (nd : Node T) : (h.set i nd) i = some nd :=
  if_pos rfl

theorem Heap.set_ne (h : Heap T) {i j : Nat} {nd : Node T} (hne : j ≠ i) :
    (h.set i nd) j = h j :=
  if_neg hne

theorem Heap.del_same (h : Heap T) (i : Nat) : (h.del i) i = none :=
  if_pos rfl

theorem Heap.del_ne (h : Heap T) {i j : Nat} (hne : j ≠ i) : (h.del i) j = h j :=
  if_neg hne

theorem writePrev_eq (s : State T) {i : Nat} {nd : Node T} (hi : s.heap i = some nd)
    (x : Option Nat) :
    writePrev s i x = some { s with heap := s.heap.set i { nd with prev := x } } := by
  simp [writePrev, hi]

theorem writeNext_eq (s : State T) {i : Nat} {nd : Node T} (hi : s.heap i = some nd)
    (x : Option Nat) :
    writeNext s i x = some { s with heap := s.heap.set i { nd with next := x } } := by
  simp [writeNext, hi]

theorem writeVal_eq (s : State T) {i : Nat} {nd : Node T} (hi : s.heap i = some nd)
    (x : Option T) :
    writeVal s i x = some { s with heap := s.heap.set i { nd with val := x } } := by
  simp [writeVal, hi]

/-! ## Link and chain lemmas -/

theorem links_next_unique {h : Heap T} {a b c : Nat} (h1 : links h a b) (h2 : links h a c) :
    b = c := by
  have := h1.1.symm.trans h2.1
  exact Option.some_injective _ this

theorem links_prev_unique {h : Heap T} {a b c : Nat} (h1 : links h a c) (h2 : links h b c) :
    a = b := by
  have := h1.2.symm.trans h2.2
  exact Option.some_injective _ this

/-- Pairwise preservation of links between members of a path preserves the
chain property. -/
theorem chain'_links_mono {h h' : Heap T} :
    ∀ {p : List Nat}, (∀ a b, a ∈ p → b ∈ p → links h a b → links h' a b) →
      List.Chain' (links h) p → List.Chain' (links h') p
  | [], _, _ => List.chain'_nil
  | [a], _, _ => List.chain'_singleton a
  | a :: b :: rest, hmono, hch => by
    rw [List.chain'_cons] at hch ⊢
    refine ⟨hmono a b (by simp) (by simp) hch.1, ?_⟩
    exact chain'_links_mono (fun x y hx hy => hmono x y (List.mem_cons_of_mem a hx)
      (List.mem_cons_of_mem a hy)) hch.2

theorem mem_ptrList_head (L : LMeta) (l : List (Nat × T)) : L.head ∈ ptrList L l := by
  simp [ptrList]

theorem mem_ptrList_tail (L : LMeta) (l : List (Nat × T)) : L.tail ∈ ptrList L l := by
  simp [ptrList]

theorem mem_ptrList_of_mem {l : List (Nat × T)} {q : Nat × T} (L : LMeta) (hq : q ∈ l) :
    q.1 ∈ ptrList L l := by
  have hm : q.1 ∈ l.map Prod.fst := List.mem_map_of_mem Prod.fst hq
  simp [ptrList, hm]

/-- A state change that leaves the heap on the chain untouched and does not
lower the fresh counter preserves the invariant. -/
theorem invWith_frame {s s' : State T} {L : LMeta} {l : List (Nat × T)}
    (hagree : ∀ i ∈ ptrList L l, s'.heap i = s.heap i)
    (hfresh : s.fresh ≤ s'.fresh) (hI : InvWith s L l) : InvWith s' L l := by
  obtain ⟨hnd, hch, hhp, hhv, htn, htv, hvals, hsz, hfr⟩ := hI
  refine ⟨hnd, ?_, ?_, ?_, ?_, ?_, ?_, hsz, ?_⟩
  · refine chain'_links_mono (fun a b ha hb hl => ?_) hch
    exact ⟨(hagree a ha).symm ▸ hl.1, (hagree b hb).symm ▸ hl.2⟩
  · rw [hagree _ (mem_ptrList_head L l)]; exact hhp
  · rw [hagree _ (mem_ptrList_head L l)]; exact hhv
  · rw [hagree _ (mem_ptrList_tail L l)]; exact htn
  · rw [hagree _ (mem_ptrList_tail L l)]; exact htv
  · intro q hq; rw [hagree _ (mem_ptrList_of_mem L hq)]; exact hvals q hq
  · intro i hi; exact lt_of_lt_of_le (hfr i hi) hfresh

theorem getLast?_cons_eq (a : Nat) (l : List Nat) : (a :: l).getLast? = some (l.getLastD a) := by
  induction l generalizing a with
  | nil => rfl
  | cons b t ih => rw [List.getLast?_cons_cons, ih b, List.getLastD_cons]

/-- The two nodes at the seam of any split of the content are linked. -/
theorem invWith_links_at {s : State T} {L : LMeta} (l1 l2 : List (Nat × T))
    (hI : InvWith s L (l1 ++ l2)) :
    links s.heap (backPtr L.head l1) (frontPtr l2 L.tail) := by
  obtain ⟨-, hch, -⟩ := hI
  have hsplit : ptrList L (l1 ++ l2) =
      (L.head :: l1.map Prod.fst) ++ (l2.map Prod.fst ++ [L.tail]) := by
    simp [ptrList]
  rw [hsplit, List.chain'_append] at hch
  refine hch.2.2 _ ?_ _ ?_
  · rw [getLast?_cons_eq]; rfl
  · cases l2 <;> rfl

theorem bind_next_some {h : Heap T} {a b : Nat} (hl : (h a).bind Node.next = some b) :
    ∃ nd, h a = some nd ∧ nd.next = some b := by
  cases hh : h a with
  | none => rw [hh] at hl; exact absurd hl (by simp)
  | some nd => rw [hh] at hl; exact ⟨nd, rfl, hl⟩

theorem bind_prev_some {h : Heap T} {a b : Nat} (hl : (h b).bind Node.prev = some a) :
    ∃ nd, h b = some nd ∧ nd.prev = some a := by
  cases hh : h b with
  | none => rw [hh] at hl; exact absurd hl (by simp)
  | some nd => rw [hh] at hl; exact ⟨nd, rfl, hl⟩

theorem map_val_some {h : Heap T} {a : Nat} {w : Option T}
    (hl : (h a).map Node.val = some w) : ∃ nd, h a = some nd ∧ nd.val = w := by
  cases hh : h a with
  | none => rw [hh] at hl; exact absurd hl (by simp)
  | some nd => rw [hh] at hl; exact ⟨nd, rfl, by simpa using hl⟩

theorem getLastD_mem (l : List Nat) (d : Nat) : l.getLastD d ∈ d :: l := by
  induction l generalizing d with
  | nil => simp
  | cons b t ih =>
    rw [List.getLastD_cons]
    exact List.mem_cons_of_mem d (ih b)

theorem backPtr_mem (L : LMeta) (l1 l2 : List (Nat × T)) :
    backPtr L.head l1 ∈ ptrList L (l1 ++ l2) := by
  rcases List.mem_cons.mp (getLastD_mem (l1.map Prod.fst) L.head) with h | h
  · rw [backPtr, h]; exact mem_ptrList_head L _
  · rw [backPtr]
    have hm : (l1.map Prod.fst).getLastD L.head ∈ (l1 ++ l2).map Prod.fst := by
      rw [List.map_append]; exact List.mem_append_left _ h
    show _ ∈ L.head :: ((l1 ++ l2).map Prod.fst ++ [L.tail])
    exact List.mem_cons_of_mem _ (List.mem_append_left _ hm)

theorem frontPtr_mem (L : LMeta) (l1 l2 : List (Nat × T)) :
    frontPtr l2 L.tail ∈ ptrList L (l1 ++ l2) := by
  cases l2 with
  | nil => exact mem_ptrList_tail L _
  | cons q t =>
    simp [frontPtr, ptrList]

theorem nextAgrees_bind_eq {h h' : Heap T} {i : Nat} (ha : nextAgrees h h' i) :
    (h' i).bind Node.next = (h i).bind Node.next := by
  unfold nextAgrees at ha
  cases h1 : h' i <;> cases h2 : h i <;> rw [h1, h2] at ha <;> simp_all

theorem prevAgrees_bind_eq {h h' : Heap T} {i : Nat} (ha : prevAgrees h h' i) :
    (h' i).bind Node.prev = (h i).bind Node.prev := by
  unfold prevAgrees at ha
  cases h1 : h' i <;> cases h2 : h i <;> rw [h1, h2] at ha <;> simp_all

theorem agrees_of_heap_eq {h h' : Heap T} {i : Nat} (he : h' i = h i) :
    nextAgrees h h' i ∧ prevAgrees h h' i ∧ valAgrees h h' i :=
  ⟨by rw [nextAgrees, he], by rw [prevAgrees, he], by rw [valAgrees, he]⟩

/-- A chain survives a heap change that keeps the forward links of all
non-final members and the back links of all non-initial members. -/
theorem chain'_links_step {h h' : Heap T} : ∀ {q : List Nat},
    (∀ i ∈ q.dropLast, nextAgrees h h' i) → (∀ i ∈ q.tail, prevAgrees h h' i) →
    List.Chain' (links h) q → List.Chain' (links h') q
  | [], _, _, _ => List.chain'_nil
  | [a], _, _, _ => List.chain'_singleton a
  | a :: b :: rest, hn, hp, hch => by
    rw [List.chain'_cons] at hch ⊢
    refine ⟨⟨?_, ?_⟩, ?_⟩
    · rw [nextAgrees_bind_eq (hn a (by simp))]; exact hch.1.1
    · rw [prevAgrees_bind_eq (hp b (by simp))]; exact hch.1.2
    · refine chain'_links_step (fun i hi => ?_) (fun i hi => ?_) hch.2
      · exact hn i (by simpa using Or.inr (by simpa using hi))
      · exact hp i (List.mem_cons_of_mem b hi)

theorem getLast_not_mem_dropLast {l : List Nat} (hl : l ≠ []) (hnd : l.Nodup) :
    l.getLast hl ∉ l.dropLast := by
  intro hmem
  have hdec : l.dropLast ++ [l.getLast hl] = l := List.dropLast_append_getLast hl
  have := hnd
  rw [← hdec, List.nodup_append] at this
  exact this.2.2 hmem (List.mem_singleton_self _)

theorem Heap.set_set_same (h : Heap T) (i : Nat) (a b : Node T) :
    (h.set i a).set i b = h.set i b := by
  funext j
  by_cases hj : j = i <;> simp [Heap.set, hj]

/-- Success specification of `insert`: with a valid position (the node at
the seam of any split of the content, the tail sentinel included), a node
holding a copy of the value is allocated and linked in right before the
position, the count grows by one, and the returned iterator references the
new node.  No other live address changes. -/
theorem listInsert_spec {s : State T} {L : LMeta} (l1 l2 : List (Nat × T)) {v : T}
    (hI : InvWith s L (l1 ++ l2)) :
    ∃ s', listInsert s L ⟨some (frontPtr l2 L.tail), some L.id⟩ v =
        some (.ok (s', { L with sz := L.sz + 1 }, ⟨some s.fresh, some L.id⟩)) ∧
      InvWith s' { L with sz := L.sz + 1 } (l1 ++ (s.fresh, v) :: l2) ∧
      s'.fresh = s.fresh + 1 ∧
      ∀ j, j ∉ ptrList L (l1 ++ l2) → j < s.fresh → s'.heap j = s.heap j := by
  obtain ⟨hnd, hch, hhp, hhv, htn, htv, hvals, hsz, hfr⟩ := hI
  have hseam := invWith_links_at l1 l2
    ⟨hnd, hch, hhp, hhv, htn, htv, hvals, hsz, hfr⟩
  obtain ⟨bn, hbp, hbn⟩ := bind_next_some hseam.1
  obtain ⟨pn, hfpn, hpn⟩ := bind_prev_some hseam.2
  have hbpm : backPtr L.head l1 ∈ ptrList L (l1 ++ l2) := backPtr_mem L l1 l2
  have hfpm : frontPtr l2 L.tail ∈ ptrList L (l1 ++ l2) := frontPtr_mem L l1 l2
  have hbpf : backPtr L.head l1 ≠ s.fresh := Nat.ne_of_lt (hfr _ hbpm)
  have hfpf : frontPtr l2 L.tail ≠ s.fresh := Nat.ne_of_lt (hfr _ hfpm)
  have hsplit : ptrList L (l1 ++ l2) =
      (L.head :: l1.map Prod.fst) ++ (l2.map Prod.fst ++ [L.tail]) := by
    simp [ptrList]
  have hnds : (L.head :: l1.map Prod.fst).Nodup ∧ (l2.map Prod.fst ++ [L.tail]).Nodup ∧
      (L.head :: l1.map Prod.fst).Disjoint (l2.map Prod.fst ++ [L.tail]) := by
    rw [hsplit] at hnd; exact List.nodup_append.mp hnd
  have hbppre : backPtr L.head l1 ∈ L.head :: l1.map Prod.fst := getLastD_mem _ _
  have hfppost : frontPtr l2 L.tail ∈ l2.map Prod.fst ++ [L.tail] := by
    cases l2 with
    | nil => simp [frontPtr]
    | cons q t => simp [frontPtr]
  have hbpfp : backPtr L.head l1 ≠ frontPtr l2 L.tail :=
    fun he => hnds.2.2 hbppre (he ▸ hfppost)
  have hpregl : (L.head :: l1.map Prod.fst).getLast? = some (backPtr L.head l1) := by
    rw [getLast?_cons_eq]; rfl
  have hposthd : (l2.map Prod.fst ++ [L.tail]).head? = some (frontPtr l2 L.tail) := by
    cases l2 <;> rfl
  have hprem : ∀ x ∈ L.head :: l1.map Prod.fst, x ∈ ptrList L (l1 ++ l2) := by
    intro x hx; rw [hsplit]; exact List.mem_append_left _ hx
  have hpostm : ∀ x ∈ l2.map Prod.fst ++ [L.tail], x ∈ ptrList L (l1 ++ l2) := by
    intro x hx; rw [hsplit]; exact List.mem_append_right _ hx
  -- the five heap writes of the success path
  set nd0 : Node T := Node.mk none none (some v) with hnd0
  set nd1 : Node T := Node.mk (some (backPtr L.head l1)) none (some v) with hnd1
  set nd2 : Node T :=
    Node.mk (some (backPtr L.head l1)) (some (frontPtr l2 L.tail)) (some v) with hnd2
  set h5 : Heap T :=
    ((((s.heap.set s.fresh nd0).set s.fresh nd1).set s.fresh nd2).set (backPtr L.head l1)
      { bn with next := some s.fresh }).set (frontPtr l2 L.tail)
      { pn with prev := some s.fresh } with hh5
  have hS5fp : h5 (frontPtr l2 L.tail) = some { pn with prev := some s.fresh } :=
    Heap.set_same _ _ _
  have hS5bp : h5 (backPtr L.head l1) = some { bn with next := some s.fresh } := by
    rw [hh5, Heap.set_ne _ hbpfp, Heap.set_same]
  have hS5f : h5 s.fresh = some nd2 := by
    rw [hh5, Heap.set_ne _ (Ne.symm hfpf), Heap.set_ne _ (Ne.symm hbpf), Heap.set_same]
  have hS5other : ∀ j, j ≠ frontPtr l2 L.tail → j ≠ backPtr L.head l1 → j ≠ s.fresh →
      h5 j = s.heap j := by
    intro j h1 h2 h3
    rw [hh5, Heap.set_ne _ h1, Heap.set_ne _ h2, Heap.set_ne _ h3, Heap.set_ne _ h3,
      Heap.set_ne _ h3]
  have hNA : ∀ i, i ≠ backPtr L.head l1 → i ≠ s.fresh → nextAgrees s.heap h5 i := by
    intro i h1 h2
    by_cases h3 : i = frontPtr l2 L.tail
    · subst h3; unfold nextAgrees; rw [hS5fp, hfpn]; rfl
    · exact (agrees_of_heap_eq (hS5other i h3 h1 h2)).1
  have hPA : ∀ i, i ≠ frontPtr l2 L.tail → i ≠ s.fresh → prevAgrees s.heap h5 i := by
    intro i h1 h2
    by_cases h3 : i = backPtr L.head l1
    · subst h3; unfold prevAgrees; rw [hS5bp, hbp]; rfl
    · exact (agrees_of_heap_eq (hS5other i h1 h3 h2)).2.1
  have hVA : ∀ i, i ≠ s.fresh → valAgrees s.heap h5 i := by
    intro i h2
    by_cases h3 : i = frontPtr l2 L.tail
    · subst h3; unfold valAgrees; rw [hS5fp, hfpn]; rfl
    · by_cases h4 : i = backPtr L.head l1
      · subst h4; unfold valAgrees; rw [hS5bp, hbp]; rfl
      · exact (agrees_of_heap_eq (hS5other i h3 h4 h2)).2.2
  refine ⟨⟨h5, s.fresh + 1⟩, ?_, ?_, rfl, ?_⟩
  · -- evaluate the operation
    have e1 : (s.heap.set s.fresh nd0) (frontPtr l2 L.tail) = some pn := by
      rw [Heap.set_ne _ hfpf, hfpn]
    have e2 : (s.heap.set s.fresh nd0) s.fresh = some nd0 := Heap.set_same _ _ _
    have e3 : ((s.heap.set s.fresh nd0).set s.fresh nd1) s.fresh = some nd1 :=
      Heap.set_same _ _ _
    have e4 : (((s.heap.set s.fresh nd0).set s.fresh nd1).set s.fresh nd2)
        (frontPtr l2 L.tail) = some pn := by
      rw [Heap.set_ne _ hfpf, Heap.set_ne _ hfpf, Heap.set_ne _ hfpf, hfpn]
    have e5 : (((s.heap.set s.fresh nd0).set s.fresh nd1).set s.fresh nd2)
        (backPtr L.head l1) = some bn := by
      rw [Heap.set_ne _ hbpf, Heap.set_ne _ hbpf, Heap.set_ne _ hbpf, hbp]
    have e6 : ((((s.heap.set s.fresh nd0).set s.fresh nd1).set s.fresh nd2).set
        (backPtr L.head l1) { bn with next := some s.fresh }) (frontPtr l2 L.tail) =
        some pn := by
      rw [Heap.set_ne _ (Ne.symm hbpfp), e4]
    simp only [listInsert]
    rw [if_neg (by simp)]
    simp only [alloc, writePrev, writeNext, e1, e2, e3, e4, e5, e6, hpn,
      Option.bind_eq_bind, Option.some_bind, Option.map_some', Option.pure_def]
  · -- the invariant for the grown content
    have hsplit2 : ptrList { L with sz := L.sz + 1 } (l1 ++ (s.fresh, v) :: l2) =
        (L.head :: l1.map Prod.fst) ++ s.fresh :: (l2.map Prod.fst ++ [L.tail]) := by
      simp [ptrList]
    have hfnotold : s.fresh ∉ (L.head :: l1.map Prod.fst) ++ (l2.map Prod.fst ++ [L.tail]) := by
      intro hmem
      exact absurd (hfr s.fresh (by rw [hsplit]; exact hmem)) (lt_irrefl _)
    have hchparts := List.chain'_append.mp (by rw [hsplit] at hch; exact hch)
    have hbplast : backPtr L.head l1 ∉ (L.head :: l1.map Prod.fst).dropLast := by
      have hne : (L.head :: l1.map Prod.fst) ≠ [] := by simp
      have : (L.head :: l1.map Prod.fst).getLast hne = backPtr L.head l1 := by
        have := List.getLast?_eq_getLast_of_ne_nil hne
        rw [hpregl] at this
        exact (Option.some_injective _ this.symm)
      rw [← this]
      exact getLast_not_mem_dropLast hne hnds.1
    have hfpfirst : frontPtr l2 L.tail ∉ (l2.map Prod.fst ++ [L.tail]).tail := by
      have hcons := List.cons_head?_tail (by rw [hposthd]; exact rfl)
      intro hmem
      have := hnds.2.1
      rw [← hcons] at this
      exact (List.nodup_cons.mp this).1 hmem
    refine ⟨?_, ?_, ?_, ?_, ?_, ?_, ?_, ?_, ?_⟩
    · -- Nodup
      rw [hsplit2, List.nodup_middle, List.nodup_cons]
      exact ⟨hfnotold, by rw [← hsplit]; exact hnd⟩
    · -- Chain'
      show List.Chain' (links h5) (ptrList { L with sz := L.sz + 1 } (l1 ++ (s.fresh, v) :: l2))
      rw [hsplit2]
      refine List.chain'_split.mpr ⟨?_, ?_⟩
      · refine List.chain'_append.mpr ⟨?_, List.chain'_singleton _, ?_⟩
        · refine chain'_links_step (fun i hi => ?_) (fun i hi => ?_) hchparts.1
          · refine hNA i (fun he => hbplast (he ▸ hi)) ?_
            exact Nat.ne_of_lt (hfr _ (hprem _ (List.dropLast_subset _ hi)))
          · have him : i ∈ L.head :: l1.map Prod.fst := List.tail_subset _ hi
            refine hPA i (fun he => hnds.2.2 him (he ▸ hfppost)) ?_
            exact Nat.ne_of_lt (hfr _ (hprem _ him))
        · intro x hx y hy
          rw [hpregl, Option.mem_some_iff] at hx
          simp only [List.head?_cons, Option.mem_some_iff] at hy
          subst hx
          subst hy
          constructor
          · rw [hS5bp]; rfl
          · rw [hS5f, hnd2]; rfl
      · refine List.chain'_cons'.mpr ⟨?_, ?_⟩
        · intro y hy
          rw [hposthd, Option.mem_some_iff] at hy
          subst hy
          constructor
          · rw [hS5f, hnd2]; rfl
          · rw [hS5fp]; rfl
        · refine chain'_links_step (fun i hi => ?_) (fun i hi => ?_) hchparts.2.1
          · have him : i ∈ l2.map Prod.fst ++ [L.tail] := List.dropLast_subset _ hi
            refine hNA i (fun he => hnds.2.2 hbppre (he ▸ him)) ?_
            exact Nat.ne_of_lt (hfr _ (hpostm _ him))
          · have him : i ∈ l2.map Prod.fst ++ [L.tail] := List.tail_subset _ hi
            refine hPA i (fun he => hfpfirst (he ▸ hi)) ?_
            exact Nat.ne_of_lt (hfr _ (hpostm _ him))
    · -- head.prev
      have h1 : L.head ≠ frontPtr l2 L.tail :=
        fun he => hnds.2.2 (List.mem_cons_self _ _) (he ▸ hfppost)
      have h2 : L.head ≠ s.fresh := Nat.ne_of_lt (hfr _ (mem_ptrList_head L _))
      show (h5 L.head).map Node.prev = some none
      rw [hPA L.head h1 h2]; exact hhp
    · -- head.val
      have h2 : L.head ≠ s.fresh := Nat.ne_of_lt (hfr _ (mem_ptrList_head L _))
      show (h5 L.head).map Node.val = some none
      rw [hVA L.head h2]; exact hhv
    · -- tail.next
      have h1 : L.tail ≠ backPtr L.head l1 := by
        intro he
        exact hnds.2.2 (he ▸ hbppre) (List.mem_append_right _ (List.mem_singleton_self _))
      have h2 : L.tail ≠ s.fresh := Nat.ne_of_lt (hfr _ (mem_ptrList_tail L _))
      show (h5 L.tail).map Node.next = some none
      rw [hNA L.tail h1 h2]; exact htn
    · -- tail.val
      have h2 : L.tail ≠ s.fresh := Nat.ne_of_lt (hfr _ (mem_ptrList_tail L _))
      show (h5 L.tail).map Node.val = some none
      rw [hVA L.tail h2]; exact htv
    · -- values
      intro q hq
      rcases List.mem_append.mp hq with hq1 | hq2
      · have hold : q ∈ l1 ++ l2 := List.mem_append_left _ hq1
        have h2 : q.1 ≠ s.fresh := Nat.ne_of_lt (hfr _ (mem_ptrList_of_mem L hold))
        show (h5 q.1).map Node.val = some (some q.2)
        rw [hVA q.1 h2]; exact hvals q hold
      · rcases List.mem_cons.mp hq2 with hq3 | hq4
        · subst hq3
          show (h5 s.fresh).map Node.val = some (some v)
          rw [hS5f, hnd2]; rfl
        · have hold : q ∈ l1 ++ l2 := List.mem_append_right _ hq4
          have h2 : q.1 ≠ s.fresh := Nat.ne_of_lt (hfr _ (mem_ptrList_of_mem L hold))
          show (h5 q.1).map Node.val = some (some q.2)
          rw [hVA q.1 h2]; exact hvals q hold
    · -- count
      show L.sz + 1 = (l1 ++ (s.fresh, v) :: l2).length
      rw [hsz]; simp; omega
    · -- freshness
      intro i hi
      rw [hsplit2] at hi
      show i < s.fresh + 1
      rcases List.mem_append.mp hi with hi1 | hi2
      · exact Nat.lt_succ_of_lt (hfr _ (hprem _ hi1))
      · rcases List.mem_cons.mp hi2 with hi3 | hi4
        · omega
        · exact Nat.lt_succ_of_lt (hfr _ (hpostm _ hi4))
  · -- frame
    intro j hj hjf
    exact hS5other j (fun he => hj (he ▸ hfpm)) (fun he => hj (he ▸ hbpm))
      (Nat.ne_of_lt hjf)

theorem backPtr_concat (d : Nat) (l : List (Nat × T)) (q : Nat × T) :
    backPtr d (l ++ [q]) = q.1 := by
  unfold backPtr; rw [List.map_append]; simp

/-- Heap surgery of unlinking an interior node: setting the predecessor's
next and the successor's prev past `p` and freeing `p` preserves the
invariant on the shrunk content, with a frame on all other addresses.
Shared by `erase` and the deletion step of `unique`. -/
theorem unlink_spec {s : State T} {L : LMeta} {l1 l2 : List (Nat × T)} {p : Nat} {w : T}
    (bn fn : Node T)
    (hI : InvWith s L (l1 ++ (p, w) :: l2))
    (hbp : s.heap (backPtr L.head l1) = some bn)
    (hfp : s.heap (frontPtr l2 L.tail) = some fn) :
    InvWith ⟨((s.heap.set (backPtr L.head l1)
          { bn with next := some (frontPtr l2 L.tail) }).set
        (frontPtr l2 L.tail) { fn with prev := some (backPtr L.head l1) }).del p, s.fresh⟩
      { L with sz := L.sz - 1 } (l1 ++ l2) ∧
    (((s.heap.set (backPtr L.head l1)
          { bn with next := some (frontPtr l2 L.tail) }).set
        (frontPtr l2 L.tail) { fn with prev := some (backPtr L.head l1) }).del p) p = none ∧
    ∀ j, j ≠ p → j ∉ ptrList L (l1 ++ (p, w) :: l2) →
      (((s.heap.set (backPtr L.head l1)
            { bn with next := some (frontPtr l2 L.tail) }).set
          (frontPtr l2 L.tail) { fn with prev := some (backPtr L.head l1) }).del p) j =
        s.heap j := by
  obtain ⟨hnd, hch, hhp, hhv, htn, htv, hvals, hsz, hfr⟩ := hI
  -- split and distinctness
  have hsplitE : ptrList L (l1 ++ (p, w) :: l2) =
      (L.head :: l1.map Prod.fst) ++ p :: (l2.map Prod.fst ++ [L.tail]) := by
    simp [ptrList]
  have hndE : (L.head :: l1.map Prod.fst).Nodup ∧ (p :: (l2.map Prod.fst ++ [L.tail])).Nodup ∧
      (L.head :: l1.map Prod.fst).Disjoint (p :: (l2.map Prod.fst ++ [L.tail])) := by
    rw [hsplitE] at hnd; exact List.nodup_append.mp hnd
  have hppost : p ∉ l2.map Prod.fst ++ [L.tail] := (List.nodup_cons.mp hndE.2.1).1
  have hbppre : backPtr L.head l1 ∈ L.head :: l1.map Prod.fst := getLastD_mem _ _
  have hfppost : frontPtr l2 L.tail ∈ l2.map Prod.fst ++ [L.tail] := by
    cases l2 with
    | nil => simp [frontPtr]
    | cons q t => simp [frontPtr]
  have hbpp : backPtr L.head l1 ≠ p :=
    fun he => hndE.2.2 hbppre (he ▸ List.mem_cons_self _ _)
  have hfpp : frontPtr l2 L.tail ≠ p := fun he => hppost (he ▸ hfppost)
  have hbpfp : backPtr L.head l1 ≠ frontPtr l2 L.tail :=
    fun he => hndE.2.2 hbppre (he ▸ List.mem_cons_of_mem _ hfppost)
  have hptail : p ≠ L.tail := by
    intro he
    exact hppost (he ▸ List.mem_append_right _ (List.mem_singleton_self _))
  have hpregl : (L.head :: l1.map Prod.fst).getLast? = some (backPtr L.head l1) := by
    rw [getLast?_cons_eq]; rfl
  have hposthd : (l2.map Prod.fst ++ [L.tail]).head? = some (frontPtr l2 L.tail) := by
    cases l2 <;> rfl
  have hprem : ∀ x ∈ L.head :: l1.map Prod.fst, x ∈ ptrList L (l1 ++ (p, w) :: l2) := by
    intro x hx; rw [hsplitE]; exact List.mem_append_left _ hx
  have hpostm : ∀ x ∈ l2.map Prod.fst ++ [L.tail], x ∈ ptrList L (l1 ++ (p, w) :: l2) := by
    intro x hx; rw [hsplitE]; exact List.mem_append_right _ (List.mem_cons_of_mem _ hx)
  -- the final heap
  set h3 : Heap T :=
    ((s.heap.set (backPtr L.head l1) { bn with next := some (frontPtr l2 L.tail) }).set
      (frontPtr l2 L.tail) { fn with prev := some (backPtr L.head l1) }).del p with hh3
  have hS3bp : h3 (backPtr L.head l1) =
      some { bn with next := some (frontPtr l2 L.tail) } := by
    rw [hh3, Heap.del_ne _ hbpp, Heap.set_ne _ hbpfp, Heap.set_same]
  have hS3fp : h3 (frontPtr l2 L.tail) =
      some { fn with prev := some (backPtr L.head l1) } := by
    rw [hh3, Heap.del_ne _ hfpp, Heap.set_same]
  have hS3p : h3 p = none := Heap.del_same _ _
  have hS3other : ∀ j, j ≠ p → j ≠ frontPtr l2 L.tail → j ≠ backPtr L.head l1 →
      h3 j = s.heap j := by
    intro j h1 h2 h3x
    rw [hh3, Heap.del_ne _ h1, Heap.set_ne _ h2, Heap.set_ne _ h3x]
  have hNA : ∀ i, i ≠ backPtr L.head l1 → i ≠ p → nextAgrees s.heap h3 i := by
    intro i h1 h2
    by_cases h4 : i = frontPtr l2 L.tail
    · subst h4; unfold nextAgrees; rw [hS3fp, hfp]; rfl
    · exact (agrees_of_heap_eq (hS3other i h2 h4 h1)).1
  have hPA : ∀ i, i ≠ frontPtr l2 L.tail → i ≠ p → prevAgrees s.heap h3 i := by
    intro i h1 h2
    by_cases h4 : i = backPtr L.head l1
    · subst h4; unfold prevAgrees; rw [hS3bp, hbp]; rfl
    · exact (agrees_of_heap_eq (hS3other i h2 h1 h4)).2.1
  have hVA : ∀ i, i ≠ p → valAgrees s.heap h3 i := by
    intro i h2
    by_cases h3x : i = frontPtr l2 L.tail
    · subst h3x; unfold valAgrees; rw [hS3fp, hfp]; rfl
    · by_cases h4 : i = backPtr L.head l1
      · subst h4; unfold valAgrees; rw [hS3bp, hbp]; rfl
      · exact (agrees_of_heap_eq (hS3other i h2 h3x h4)).2.2
  refine ⟨?_, hS3p, ?_⟩
  · -- the invariant for the shrunk content
    have hsplit2 : ptrList { L with sz := L.sz - 1 } (l1 ++ l2) =
        (L.head :: l1.map Prod.fst) ++ (l2.map Prod.fst ++ [L.tail]) := by
      simp [ptrList]
    have hchparts :
        List.Chain' (links s.heap) ((L.head :: l1.map Prod.fst) ++ [p]) ∧
        List.Chain' (links s.heap) (p :: (l2.map Prod.fst ++ [L.tail])) := by
      rw [hsplitE] at hch
      exact List.chain'_split.mp hch
    have hbplast : backPtr L.head l1 ∉ (L.head :: l1.map Prod.fst).dropLast := by
      have hne : (L.head :: l1.map Prod.fst) ≠ [] := by simp
      have heq : (L.head :: l1.map Prod.fst).getLast hne = backPtr L.head l1 := by
        have := List.getLast?_eq_getLast_of_ne_nil hne
        rw [hpregl] at this
        exact (Option.some_injective _ this.symm)
      rw [← heq]
      exact getLast_not_mem_dropLast hne hndE.1
    have hfpfirst : frontPtr l2 L.tail ∉ (l2.map Prod.fst ++ [L.tail]).tail := by
      have hcons := List.cons_head?_tail (by rw [hposthd]; exact rfl)
      intro hmem
      have hndpost := (List.nodup_cons.mp hndE.2.1).2
      rw [← hcons] at hndpost
      exact (List.nodup_cons.mp hndpost).1 hmem
    refine ⟨?_, ?_, ?_, ?_, ?_, ?_, ?_, ?_, ?_⟩
    · -- Nodup
      rw [hsplit2]
      have hsub : List.Sublist
          ((L.head :: l1.map Prod.fst) ++ (l2.map Prod.fst ++ [L.tail]))
          ((L.head :: l1.map Prod.fst) ++ p :: (l2.map Prod.fst ++ [L.tail])) :=
        List.Sublist.append_left (List.sublist_cons_self _ _) _
      exact (hsplitE ▸ hnd).sublist hsub
    · -- Chain'
      show List.Chain' (links h3) (ptrList { L with sz := L.sz - 1 } (l1 ++ l2))
      rw [hsplit2]
      refine List.chain'_append.mpr ⟨?_, ?_, ?_⟩
      · refine chain'_links_step (fun i hi => ?_) (fun i hi => ?_)
          ((List.chain'_append.mp hchparts.1).1)
        · refine hNA i (fun he => hbplast (he ▸ hi)) ?_
          intro he
          exact hndE.2.2 (List.dropLast_subset _ hi) (he ▸ List.mem_cons_self _ _)
        · have him : i ∈ L.head :: l1.map Prod.fst := List.tail_subset _ hi
          refine hPA i (fun he => hndE.2.2 him (he ▸ List.mem_cons_of_mem _ hfppost)) ?_
          exact fun he => hndE.2.2 him (he ▸ List.mem_cons_self _ _)
      · refine chain'_links_step (fun i hi => ?_) (fun i hi => ?_)
          ((List.chain'_cons'.mp hchparts.2).2)
        · have him : i ∈ l2.map Prod.fst ++ [L.tail] := List.dropLast_subset _ hi
          exact hNA i (fun he => hndE.2.2 hbppre (he ▸ List.mem_cons_of_mem _ him))
            (fun he => hppost (he ▸ him))
        · have him : i ∈ l2.map Prod.fst ++ [L.tail] := List.tail_subset _ hi
          exact hPA i (fun he => hfpfirst (he ▸ hi)) (fun he => hppost (he ▸ him))
      · intro x hx y hy
        rw [hpregl, Option.mem_some_iff] at hx
        rw [hposthd, Option.mem_some_iff] at hy
        subst hx
        subst hy
        constructor
        · rw [hS3bp]; rfl
        · rw [hS3fp]; rfl
    · -- head.prev
      have h1 : L.head ≠ frontPtr l2 L.tail :=
        fun he => hndE.2.2 (List.mem_cons_self _ _) (he ▸ List.mem_cons_of_mem _ hfppost)
      have h2 : L.head ≠ p :=
        fun he => hndE.2.2 (List.mem_cons_self _ _) (he ▸ List.mem_cons_self _ _)
      show (h3 L.head).map Node.prev = some none
      rw [hPA L.head h1 h2]; exact hhp
    · -- head.val
      have h2 : L.head ≠ p :=
        fun he => hndE.2.2 (List.mem_cons_self _ _) (he ▸ List.mem_cons_self _ _)
      show (h3 L.head).map Node.val = some none
      rw [hVA L.head h2]; exact hhv
    · -- tail.next
      have h1 : L.tail ≠ backPtr L.head l1 := by
        intro he
        exact hndE.2.2 (he ▸ hbppre) (List.mem_cons_of_mem _
          (List.mem_append_right _ (List.mem_singleton_self _)))
      show (h3 L.tail).map Node.next = some none
      rw [hNA L.tail h1 (Ne.symm hptail)]; exact htn
    · -- tail.val
      show (h3 L.tail).map Node.val = some none
      rw [hVA L.tail (Ne.symm hptail)]; exact htv
    · -- values
      intro q hq
      have hq1 : q.1 ≠ p := by
        rcases List.mem_append.mp hq with hql | hqr
        · exact fun he => hndE.2.2 (List.mem_cons_of_mem _
            (List.mem_map_of_mem Prod.fst hql)) (he ▸ List.mem_cons_self _ _)
        · exact fun he => hppost (he ▸ List.mem_append_left _
            (List.mem_map_of_mem Prod.fst hqr))
      have hold : q ∈ l1 ++ (p, w) :: l2 := by
        rcases List.mem_append.mp hq with hql | hqr
        · exact List.mem_append_left _ hql
        · exact List.mem_append_right _ (List.mem_cons_of_mem _ hqr)
      show (h3 q.1).map Node.val = some (some q.2)
      rw [hVA q.1 hq1]; exact hvals q hold
    · -- count
      show L.sz - 1 = (l1 ++ l2).length
      rw [hsz]; simp
    · -- freshness
      intro i hi
      rw [hsplit2] at hi
      show i < s.fresh
      rcases List.mem_append.mp hi with hi1 | hi2
      · exact hfr _ (hprem _ hi1)
      · exact hfr _ (hpostm _ hi2)
  · -- frame
    intro j hjp hj
    exact hS3other j hjp (fun he => hj (he ▸ hpostm _ hfppost))
      (fun he => hj (he ▸ hprem _ hbppre))

/-- Success specification of `erase`: erasing the interior node at any
split of the content unlinks and destroys it, decrements the count, and
returns an iterator to the node that followed (the tail sentinel, i.e.
`end()`, when it was the last).  No other live address changes. -/
theorem listErase_spec {s : State T} {L : LMeta} (l1 l2 : List (Nat × T)) {p : Nat} {w : T}
    (hI : InvWith s L (l1 ++ (p, w) :: l2)) :
    ∃ s', listErase s L ⟨some p, some L.id⟩ =
        some (.ok (s', { L with sz := L.sz - 1 },
          ⟨some (frontPtr l2 L.tail), some L.id⟩)) ∧
      InvWith s' { L with sz := L.sz - 1 } (l1 ++ l2) ∧
      s'.fresh = s.fresh ∧ s'.heap p = none ∧
      ∀ j, j ≠ p → j ∉ ptrList L (l1 ++ (p, w) :: l2) → s'.heap j = s.heap j := by
  obtain ⟨hnd, hch, hhp, hhv, htn, htv, hvals, hsz, hfr⟩ := hI
  have hImk : InvWith s L (l1 ++ (p, w) :: l2) :=
    ⟨hnd, hch, hhp, hhv, htn, htv, hvals, hsz, hfr⟩
  have hseam1 : links s.heap (backPtr L.head l1) p :=
    invWith_links_at l1 ((p, w) :: l2) hImk
  have hassoc : l1 ++ (p, w) :: l2 = (l1 ++ [(p, w)]) ++ l2 := by simp
  have hseam2 : links s.heap p (frontPtr l2 L.tail) := by
    have h := invWith_links_at (l1 ++ [(p, w)]) l2 (hassoc ▸ hImk)
    rwa [backPtr_concat] at h
  obtain ⟨bn, hbp, hbnn⟩ := bind_next_some hseam1.1
  obtain ⟨pnn, hp, hpprev⟩ := bind_prev_some hseam1.2
  have hpnext : pnn.next = some (frontPtr l2 L.tail) := by
    have := hseam2.1; rw [hp] at this; simpa using this
  obtain ⟨fn, hfp, hfnp⟩ := bind_prev_some hseam2.2
  have hsplitE : ptrList L (l1 ++ (p, w) :: l2) =
      (L.head :: l1.map Prod.fst) ++ p :: (l2.map Prod.fst ++ [L.tail]) := by
    simp [ptrList]
  have hndE : (L.head :: l1.map Prod.fst).Nodup ∧ (p :: (l2.map Prod.fst ++ [L.tail])).Nodup ∧
      (L.head :: l1.map Prod.fst).Disjoint (p :: (l2.map Prod.fst ++ [L.tail])) := by
    rw [hsplitE] at hnd; exact List.nodup_append.mp hnd
  have hppost : p ∉ l2.map Prod.fst ++ [L.tail] := (List.nodup_cons.mp hndE.2.1).1
  have hbppre : backPtr L.head l1 ∈ L.head :: l1.map Prod.fst := getLastD_mem _ _
  have hfppost : frontPtr l2 L.tail ∈ l2.map Prod.fst ++ [L.tail] := by
    cases l2 with
    | nil => simp [frontPtr]
    | cons q t => simp [frontPtr]
  have hbpp : backPtr L.head l1 ≠ p :=
    fun he => hndE.2.2 hbppre (he ▸ List.mem_cons_self _ _)
  have hbpfp : backPtr L.head l1 ≠ frontPtr l2 L.tail :=
    fun he => hndE.2.2 hbppre (he ▸ List.mem_cons_of_mem _ hfppost)
  have hptail : p ≠ L.tail := by
    intro he
    exact hppost (he ▸ List.mem_append_right _ (List.mem_singleton_self _))
  have hpval : pnn.val = some w := by
    have := hvals (p, w) (List.mem_append_right _ (List.mem_cons_self _ _))
    rw [hp] at this; simpa using this
  have hsz0 : L.sz ≠ 0 := by rw [hsz]; simp
  obtain ⟨hinv, hpnone, hframe⟩ := unlink_spec bn fn hImk hbp hfp
  refine ⟨⟨_, s.fresh⟩, ?_, hinv, rfl, hpnone, hframe⟩
  have e1 : (s.heap.set (backPtr L.head l1)
      { bn with next := some (frontPtr l2 L.tail) }) p = some pnn := by
    rw [Heap.set_ne _ (Ne.symm hbpp), hp]
  have e2 : (s.heap.set (backPtr L.head l1)
      { bn with next := some (frontPtr l2 L.tail) }) (frontPtr l2 L.tail) = some fn := by
    rw [Heap.set_ne _ (Ne.symm hbpfp), hfp]
  simp only [listErase]
  rw [if_neg (by simp)]
  simp only [if_neg hsz0, if_neg hptail, hp, hbp, hpval, hpprev, hpnext, e1, e2,
    writePrev, writeNext, free, Option.bind_eq_bind, Option.some_bind,
    Option.map_some', Option.pure_def]

/-! ## Error paths and iterator-operation specifications -/

theorem listInsert_err_owner {s : State T} {L : LMeta} {pos : Iter} {v : T}
    (ho : pos.owner ≠ some L.id) :
    listInsert s L pos v = some (.error .invalidIterator) := by
  simp only [listInsert]
  rw [if_pos ho]

theorem listInsert_err_null {s : State T} {L : LMeta} {pos : Iter} {v : T}
    (hc : pos.cur = none) :
    listInsert s L pos v = some (.error .invalidIterator) := by
  by_cases ho : pos.owner ≠ some L.id
  · simp only [listInsert]; rw [if_pos ho]
  · simp only [listInsert]; rw [if_neg ho, hc]

/-- `insert` with a correctly owned iterator whose node is no longer a live
allocation: the owner/null checks pass and the code dereferences freed
memory — undefined behaviour, not a reported error. -/
theorem listInsert_ub {s : State T} {L : LMeta} {c : Nat} {v : T}
    (hheap : s.heap c = none) (hcf : c ≠ s.fresh) :
    listInsert s L ⟨some c, some L.id⟩ v = none := by
  simp only [listInsert]
  rw [if_neg (by simp)]
  have e1 : (s.heap.set s.fresh (Node.mk none none (some v))) c = none := by
    rw [Heap.set_ne _ hcf, hheap]
  simp only [alloc, e1, Option.bind_eq_bind, Option.none_bind, Option.map_none']

theorem listErase_err_owner {s : State T} {L : LMeta} {pos : Iter}
    (ho : pos.owner ≠ some L.id) :
    listErase s L pos = some (.error .invalidIterator) := by
  simp only [listErase]
  rw [if_pos ho]

theorem listErase_err_null {s : State T} {L : LMeta} {pos : Iter}
    (hc : pos.cur = none) :
    listErase s L pos = some (.error .invalidIterator) := by
  by_cases ho : pos.owner ≠ some L.id
  · simp only [listErase]; rw [if_pos ho]
  · simp only [listErase]; rw [if_neg ho, hc]

/-- With a correctly owned, non-null position, the `sz == 0` check comes
next: `erase` on an empty list reports `container_is_empty`. -/
theorem listErase_err_empty {s : State T} {L : LMeta} {pos : Iter} {c : Nat}
    (ho : pos.owner = some L.id) (hc : pos.cur = some c) (hsz : L.sz = 0) :
    listErase s L pos = some (.error .containerIsEmpty) := by
  simp only [listErase]
  rw [if_neg (by simp [ho]), hc]
  simp only [if_pos hsz]

/-- `erase(end())` on a non-empty list: `invalid_iterator`. -/
theorem listErase_err_tail {s : State T} {L : LMeta} (hsz : L.sz ≠ 0) :
    listErase s L ⟨some L.tail, some L.id⟩ = some (.error .invalidIterator) := by
  simp only [listErase]
  rw [if_neg (by simp)]
  simp [if_neg hsz]

/-- `erase` at the head sentinel of a non-empty list: the sentinel holds no
value, so `invalid_iterator`. -/
theorem listErase_err_head {s : State T} {L : LMeta} {hn : Node T}
    (hsz : L.sz ≠ 0) (hht : L.head ≠ L.tail)
    (hh : s.heap L.head = some hn) (hhval : hn.val = none) :
    listErase s L ⟨some L.head, some L.id⟩ = some (.error .invalidIterator) := by
  simp only [listErase]
  rw [if_neg (by simp)]
  simp only [if_neg hsz, if_neg hht, hh, hhval]

theorem incr_err_unattached (h : Heap T) (L : LMeta) {it : Iter} (ho : it.owner = none) :
    incr h L it = some (.error .invalidIterator) := by
  unfold incr
  rw [ho]

theorem incr_err_null (h : Heap T) (L : LMeta) (o : Nat) :
    incr h L ⟨none, some o⟩ = some (.error .invalidIterator) := rfl

theorem incr_err_end (h : Heap T) (L : LMeta) (o : Nat) :
    incr h L ⟨some L.tail, some o⟩ = some (.error .invalidIterator) := by
  unfold incr
  simp

/-- Increment on an iterator whose node has been freed (and is not a
sentinel): the null/tail checks pass and `cur->next` reads freed memory —
undefined behaviour, not a reported error. -/
theorem incr_ub (h : Heap T) (L : LMeta) {c : Nat} (o : Nat)
    (hct : c ≠ L.tail) (hc : h c = none) :
    incr h L ⟨some c, some o⟩ = none := by
  unfold incr
  simp [hct, hc]

theorem decr_err_unattached (h : Heap T) (L : LMeta) {it : Iter} (ho : it.owner = none) :
    decr h L it = some (.error .invalidIterator) := by
  unfold decr
  rw [ho]

theorem decr_err_null (h : Heap T) (L : LMeta) (o : Nat) :
    decr h L ⟨none, some o⟩ = some (.error .invalidIterator) := rfl

/-- Decrement on the head-sentinel boundary: refused. -/
theorem decr_err_head (h : Heap T) (L : LMeta) (o : Nat) :
    decr h L ⟨some L.head, some o⟩ = some (.error .invalidIterator) := by
  unfold decr
  simp

/-- Decrement on an iterator whose node has been freed (not a sentinel):
`cur->prev` reads freed memory — undefined behaviour. -/
theorem decr_ub (h : Heap T) (L : LMeta) {c : Nat} (o : Nat)
    (hch : c ≠ L.head) (hct : c ≠ L.tail) (hc : h c = none) :
    decr h L ⟨some c, some o⟩ = none := by
  unfold decr
  simp [hch, hct, hc]

theorem deref_err_unattached (h : Heap T) {it : Iter} (ho : it.owner = none) :
    deref h it = some (.error .invalidIterator) := by
  unfold deref
  rw [ho]

theorem deref_err_null (h : Heap T) (o : Nat) :
    deref h ⟨none, some o⟩ = some (.error .invalidIterator) := rfl

theorem backPtr_eq_getLast {l : List (Nat × T)} (hne : l ≠ []) : ∀ d : Nat,
    backPtr d l = (l.getLast hne).1 := by
  induction l with
  | nil => exact absurd rfl hne
  | cons q t ih =>
    intro d
    cases t with
    | nil => rfl
    | cons r u =>
      have h1 : backPtr d (q :: r :: u) = backPtr q.1 (r :: u) := by
        unfold backPtr; rw [List.map_cons, List.getLastD_cons]
      rw [h1, List.getLast_cons (by simp)]
      exact ih (by simp) q.1

theorem invWith_head_ne_tail {s : State T} {L : LMeta} {l : List (Nat × T)}
    (hI : InvWith s L l) : L.head ≠ L.tail := by
  have hnd := hI.1
  have hparts := List.nodup_append.mp (show ((L.head :: l.map Prod.fst) ++ [L.tail]).Nodup
    from hnd)
  exact fun he => hparts.2.2 (List.mem_cons_self _ _) (he ▸ List.mem_singleton_self _)

theorem invWith_mem_ne {s : State T} {L : LMeta} {l : List (Nat × T)}
    (hI : InvWith s L l) {q : Nat × T} (hq : q ∈ l) : q.1 ≠ L.head ∧ q.1 ≠ L.tail := by
  have hnd := hI.1
  have hparts := List.nodup_append.mp (show ((L.head :: l.map Prod.fst) ++ [L.tail]).Nodup
    from hnd)
  have hm : q.1 ∈ l.map Prod.fst := List.mem_map_of_mem Prod.fst hq
  constructor
  · exact fun he => (List.nodup_cons.mp hparts.1).1 (he ▸ hm)
  · intro he
    exact hparts.2.2 (List.mem_cons_of_mem _ hm) (he ▸ List.mem_singleton_self _)

/-- Decrement of `end()` on a non-empty list succeeds and yields the last
element. -/
theorem decr_end_ok {s : State T} {L : LMeta} {l : List (Nat × T)}
    (hI : InvWith s L l) (hne : l ≠ []) :
    decr s.heap L (endIter L) = some (.ok ⟨some (l.getLast hne).1, some L.id⟩) := by
  have hI' : InvWith s L (l ++ []) := by rw [List.append_nil]; exact hI
  have hseam : links s.heap (backPtr L.head l) L.tail :=
    invWith_links_at l [] hI'
  obtain ⟨tn, htl, htp⟩ := bind_prev_some hseam.2
  have hht : L.tail ≠ L.head := Ne.symm (invWith_head_ne_tail hI)
  have hsz0 : L.sz ≠ 0 := by
    rw [hI.2.2.2.2.2.2.2.1]
    simpa using hne
  show decr s.heap L ⟨some L.tail, some L.id⟩ = _
  unfold decr
  rw [backPtr_eq_getLast hne] at htp
  simp [hht, hsz0, htl, htp]

/-- Decrement of `end()` on an empty list: refused. -/
theorem decr_err_end_empty (h : Heap T) {L : LMeta} (o : Nat)
    (hht : L.tail ≠ L.head) (hsz : L.sz = 0) :
    decr h L ⟨some L.tail, some o⟩ = some (.error .invalidIterator) := by
  unfold decr
  simp [hht, hsz]

/-- Decrement from the logical first element: refused. -/
theorem decr_err_first {s : State T} {L : LMeta} {q : Nat × T} {l' : List (Nat × T)}
    (hI : InvWith s L (q :: l')) (o : Nat) :
    decr s.heap L ⟨some q.1, some o⟩ = some (.error .invalidIterator) := by
  have hne := invWith_mem_ne hI (List.mem_cons_self q l')
  have hseam : links s.heap L.head q.1 :=
    invWith_links_at [] (q :: l') hI
  obtain ⟨qn, hqh, hqp⟩ := bind_prev_some hseam.2
  unfold decr
  simp [hne.1, hne.2, hqh, hqp]

/-- Increment from an interior node advances to the next node (the tail
sentinel after the last element). -/
theorem incr_ok {s : State T} {L : LMeta} (l1 l2 : List (Nat × T)) {q : Nat × T}
    (hI : InvWith s L (l1 ++ q :: l2)) :
    incr s.heap L ⟨some q.1, some L.id⟩ =
      some (.ok ⟨some (frontPtr l2 L.tail), some L.id⟩) := by
  have hq : q ∈ l1 ++ q :: l2 := List.mem_append_right _ (List.mem_cons_self _ _)
  have hne := invWith_mem_ne hI hq
  have hassoc : l1 ++ q :: l2 = (l1 ++ [q]) ++ l2 := by simp
  have hseam : links s.heap q.1 (frontPtr l2 L.tail) := by
    have h := invWith_links_at (l1 ++ [q]) l2 (hassoc ▸ hI)
    rwa [backPtr_concat] at h
  obtain ⟨qn, hqh, hqn⟩ := bind_next_some hseam.1
  unfold incr
  simp only [if_neg hne.2, hqh, hqn]

/-- Dereference of an interior node yields its value, for any non-null
owner. -/
theorem deref_ok {s : State T} {L : LMeta} {l : List (Nat × T)} {q : Nat × T} (o : Nat)
    (hI : InvWith s L l) (hq : q ∈ l) :
    deref s.heap ⟨some q.1, some o⟩ = some (.ok q.2) := by
  obtain ⟨qn, hqh, hqv⟩ := map_val_some (hI.2.2.2.2.2.2.1 q hq)
  unfold deref
  simp [hqh, hqv]

/-- Dereference of `end()` (the tail sentinel holds no value): refused. -/
theorem deref_err_tail {s : State T} {L : LMeta} {l : List (Nat × T)}
    (hI : InvWith s L l) (o : Nat) :
    deref s.heap ⟨some L.tail, some o⟩ = some (.error .invalidIterator) := by
  obtain ⟨tn, htl, htv⟩ := map_val_some hI.2.2.2.2.2.1
  unfold deref
  simp [htl, htv]

/-- The default constructor produces an empty invariant-satisfying list;
previously live addresses are untouched. -/
theorem mkList_spec (s : State T) (lid : Nat) :
    InvWith (mkList s lid).1 (mkList s lid).2 [] ∧
    (mkList s lid).1.fresh = s.fresh + 2 ∧
    (mkList s lid).2 = LMeta.mk lid s.fresh (s.fresh + 1) 0 ∧
    ∀ j, j < s.fresh → (mkList s lid).1.heap j = s.heap j := by
  have hne : s.fresh ≠ s.fresh + 1 := by omega
  have hm1 : (mkList s lid).1.heap s.fresh = some (Node.mk none (some (s.fresh + 1)) none) := by
    show (_ : Heap T) s.fresh = _
    simp only [mkList, alloc]
    rw [Heap.set_ne _ hne, Heap.set_same]
  have hm2 : (mkList s lid).1.heap (s.fresh + 1) =
      some (Node.mk (some s.fresh) none none) := by
    show (_ : Heap T) (s.fresh + 1) = _
    simp only [mkList, alloc]
    rw [Heap.set_same]
  refine ⟨⟨?_, ?_, ?_, ?_, ?_, ?_, ?_, rfl, ?_⟩, rfl, rfl, ?_⟩
  · show (List.Nodup [s.fresh, s.fresh + 1])
    simp [hne]
  · show List.Chain' (links (mkList s lid).1.heap) [s.fresh, s.fresh + 1]
    refine List.chain'_cons.mpr ⟨⟨?_, ?_⟩, List.chain'_singleton _⟩
    · rw [hm1]; rfl
    · rw [hm2]; rfl
  · show ((mkList s lid).1.heap s.fresh).map Node.prev = some none
    rw [hm1]; rfl
  · show ((mkList s lid).1.heap s.fresh).map Node.val = some none
    rw [hm1]; rfl
  · show ((mkList s lid).1.heap (s.fresh + 1)).map Node.next = some none
    rw [hm2]; rfl
  · show ((mkList s lid).1.heap (s.fresh + 1)).map Node.val = some none
    rw [hm2]; rfl
  · intro q hq; exact absurd hq (List.not_mem_nil q)
  · intro i hi
    have hi2 : i ∈ [s.fresh, s.fresh + 1] := hi
    show i < s.fresh + 2
    rcases List.mem_cons.mp hi2 with h1 | h1
    · omega
    · rcases List.mem_cons.mp h1 with h2 | h2
      · omega
      · exact absurd h2 (List.not_mem_nil i)
  · intro j hj
    have h1 : j ≠ s.fresh := Nat.ne_of_lt hj
    have h2 : j ≠ s.fresh + 1 := by omega
    show (_ : Heap T) j = s.heap j
    simp only [mkList, alloc]
    rw [Heap.set_ne _ h2, Heap.set_ne _ h1, Heap.set_ne _ h2, Heap.set_ne _ h1]

/-! ## push_back, begin, and client iteration -/

/-- `push_back` appends a node holding the value at the tail of the chain. -/
theorem pushBack_spec {s : State T} {L : LMeta} {l : List (Nat × T)} {v : T}
    (hI : InvWith s L l) :
    ∃ s', pushBack s L v = some (.ok (s', { L with sz := L.sz + 1 })) ∧
      InvWith s' { L with sz := L.sz + 1 } (l ++ [(s.fresh, v)]) ∧
      s'.fresh = s.fresh + 1 ∧
      ∀ j, j ∉ ptrList L l → j < s.fresh → s'.heap j = s.heap j := by
  have hI' : InvWith s L (l ++ []) := by rw [List.append_nil]; exact hI
  obtain ⟨s', heq, hinv, hfr, hfree⟩ := listInsert_spec l [] (v := v) hI'
  have hiter : (⟨some (frontPtr ([] : List (Nat × T)) L.tail), some L.id⟩ : Iter) =
      endIter L := rfl
  refine ⟨s', ?_, hinv, hfr, ?_⟩
  · unfold pushBack
    rw [← hiter, heq]
    rfl
  · have hpeq : ptrList L (l ++ []) = ptrList L l := by rw [List.append_nil]
    intro j hj hlt
    exact hfree j (hpeq ▸ hj) hlt

/-- A sequence of `push_back`s always succeeds, grows the count by the
number of pushes, and appends exactly the pushed values, in order, to the
content. -/
theorem pushMany_spec : ∀ (vs : List T) {s : State T} {L : LMeta} {l : List (Nat × T)},
    InvWith s L l →
    ∃ s' pl, pushMany s L vs = some (.ok (s', { L with sz := L.sz + vs.length })) ∧
      InvWith s' { L with sz := L.sz + vs.length } (l ++ pl) ∧
      pl.map Prod.snd = vs := by
  intro vs
  induction vs with
  | nil =>
    intro s L l hI
    exact ⟨s, [], by simp [pushMany], by simpa using hI, rfl⟩
  | cons v vs ih =>
    intro s L l hI
    obtain ⟨s1, heq1, hinv1, -, -⟩ := pushBack_spec (v := v) hI
    obtain ⟨s2, pl, heq2, hinv2, hmap⟩ := ih hinv1
    have hrec : ({ L with sz := L.sz + (v :: vs).length } : LMeta) =
        LMeta.mk L.id L.head L.tail (L.sz + 1 + vs.length) := by
      simp
      omega
    refine ⟨s2, (s.fresh, v) :: pl, ?_, ?_, by simp [hmap]⟩
    · show pushMany s L (v :: vs) = _
      unfold pushMany
      rw [heq1]
      show pushMany s1 (LMeta.mk L.id L.head L.tail (L.sz + 1)) vs = _
      rw [heq2, hrec]
    · have h2 : l ++ [(s.fresh, v)] ++ pl = l ++ (s.fresh, v) :: pl := by simp
      rw [hrec]
      rw [h2] at hinv2
      exact hinv2

/-- `begin()` references the first interior node (the tail sentinel when
the list is empty). -/
theorem beginIter_spec {s : State T} {L : LMeta} {l : List (Nat × T)}
    (hI : InvWith s L l) :
    beginIter s L = some ⟨some (frontPtr l L.tail), some L.id⟩ := by
  cases l with
  | nil =>
    have hsz : L.sz = 0 := by rw [hI.2.2.2.2.2.2.2.1]; rfl
    unfold beginIter
    simp [hsz, frontPtr]
  | cons q t =>
    have hsz : L.sz ≠ 0 := by rw [hI.2.2.2.2.2.2.2.1]; simp
    have hseam : links s.heap L.head (frontPtr (q :: t) L.tail) :=
      invWith_links_at [] (q :: t) hI
    obtain ⟨hn, hh, hhn⟩ := bind_next_some hseam.1
    unfold beginIter
    simp [hsz, hh, hhn]

/-- Iterating from the seam of any split to `end()` yields the values of
the split's right part, in order. -/
theorem iterToEnd_spec {s : State T} {L : LMeta} :
    ∀ (l2 l1 : List (Nat × T)) (fuel : Nat),
    InvWith s L (l1 ++ l2) → l2.length < fuel →
    iterToEnd s.heap L fuel ⟨some (frontPtr l2 L.tail), some L.id⟩ =
      some (l2.map Prod.snd) := by
  intro l2
  induction l2 with
  | nil =>
    intro l1 fuel hI hfuel
    match fuel, hfuel with
    | fuel + 1, _ =>
      unfold iterToEnd
      have : iterEq ⟨some (frontPtr ([] : List (Nat × T)) L.tail), some L.id⟩ (endIter L) =
          true := by
        unfold iterEq endIter frontPtr
        simp
      rw [this]
      simp
  | cons q t ih =>
    intro l1 fuel hI hfuel
    match fuel, hfuel with
    | fuel + 1, hfuel =>
      have hq : q ∈ l1 ++ q :: t := List.mem_append_right _ (List.mem_cons_self _ _)
      have hne := invWith_mem_ne hI hq
      unfold iterToEnd
      have heq : iterEq ⟨some (frontPtr (q :: t) L.tail), some L.id⟩ (endIter L) = false := by
        unfold iterEq endIter frontPtr
        simp [hne.2]
      rw [heq]
      have hassoc : l1 ++ q :: t = (l1 ++ [q]) ++ t := by simp
      have hIassoc := hassoc ▸ hI
      have hfp : frontPtr (q :: t) L.tail = q.1 := rfl
      rw [hfp]
      simp only [Bool.false_eq_true, if_false, deref_ok L.id hI hq,
        incr_ok l1 t hI]
      rw [ih (l1 ++ [q]) fuel hIassoc (by simpa using Nat.lt_of_succ_lt_succ hfuel)]
      rfl

/-! ## pop_back, push_front, pop_front, clear -/

theorem chain'_mono_mem {R S : Nat → Nat → Prop} : ∀ {p : List Nat},
    (∀ a b, a ∈ p → b ∈ p → R a b → S a b) → List.Chain' R p → List.Chain' S p
  | [], _, _ => List.chain'_nil
  | [a], _, _ => List.chain'_singleton a
  | a :: b :: rest, hmono, hch => by
    rw [List.chain'_cons] at hch ⊢
    refine ⟨hmono a b (by simp) (by simp) hch.1, ?_⟩
    exact chain'_mono_mem (fun x y hx hy => hmono x y (List.mem_cons_of_mem a hx)
      (List.mem_cons_of_mem a hy)) hch.2

theorem popBack_err (s : State T) {L : LMeta} (hsz : L.sz = 0) :
    popBack s L = some (.error .containerIsEmpty) := by
  unfold popBack
  rw [if_pos hsz]

theorem popFront_err (s : State T) {L : LMeta} (hsz : L.sz = 0) :
    popFront s L = some (.error .containerIsEmpty) := by
  unfold popFront
  rw [if_pos hsz]

/-- `pop_back` on a non-empty list erases the last node. -/
theorem popBack_spec {s : State T} {L : LMeta} {l : List (Nat × T)} {q : Nat × T}
    (hI : InvWith s L (l ++ [q])) :
    ∃ s', popBack s L = some (.ok (s', { L with sz := L.sz - 1 })) ∧
      InvWith s' { L with sz := L.sz - 1 } l ∧ s'.fresh = s.fresh ∧ s'.heap q.1 = none := by
  have hI' : InvWith s L ((l ++ [q]) ++ []) := by rw [List.append_nil]; exact hI
  have hseam : links s.heap q.1 L.tail := by
    have h := invWith_links_at (l ++ [q]) [] hI'
    rwa [backPtr_concat] at h
  obtain ⟨tn, htl, htp⟩ := bind_prev_some hseam.2
  have hsz0 : L.sz ≠ 0 := by
    rw [hI.2.2.2.2.2.2.2.1]; simp
  obtain ⟨s', heq, hinv, hfr, hfree, -⟩ := listErase_spec l [] hI
  rw [List.append_nil] at hinv
  refine ⟨s', ?_, hinv, hfr, hfree⟩
  unfold popBack
  rw [if_neg hsz0]
  simp only [htl, htp, heq, Option.map_some']
  rfl

/-- `pop_front` on a non-empty list erases the first node. -/
theorem popFront_spec {s : State T} {L : LMeta} {l : List (Nat × T)} {q : Nat × T}
    (hI : InvWith s L (q :: l)) :
    ∃ s', popFront s L = some (.ok (s', { L with sz := L.sz - 1 })) ∧
      InvWith s' { L with sz := L.sz - 1 } l ∧ s'.fresh = s.fresh ∧ s'.heap q.1 = none := by
  have hseam : links s.heap L.head q.1 :=
    invWith_links_at [] (q :: l) hI
  obtain ⟨hn, hh, hhn⟩ := bind_next_some hseam.1
  have hsz0 : L.sz ≠ 0 := by
    rw [hI.2.2.2.2.2.2.2.1]; simp
  obtain ⟨s', heq, hinv, hfr, hfree, -⟩ := listErase_spec [] l hI
  refine ⟨s', ?_, hinv, hfr, hfree⟩
  unfold popFront
  rw [if_neg hsz0]
  simp only [hh, hhn, heq, Option.map_some']
  rfl

/-- `push_front` prepends a node holding the value. -/
theorem pushFront_spec {s : State T} {L : LMeta} {l : List (Nat × T)} {v : T}
    (hI : InvWith s L l) :
    ∃ s', pushFront s L v = some (.ok (s', { L with sz := L.sz + 1 })) ∧
      InvWith s' { L with sz := L.sz + 1 } ((s.fresh, v) :: l) ∧
      s'.fresh = s.fresh + 1 := by
  obtain ⟨s', heq, hinv, hfr, -⟩ := listInsert_spec [] l (v := v) hI
  refine ⟨s', ?_, hinv, hfr⟩
  unfold pushFront
  simp only [beginIter_spec hI, heq, Option.map_some']
  rfl

/-- The deletion loop of `clear()`: frees every node of the suffix chain
and touches nothing else. -/
theorem clearLoop_spec : ∀ (l2 : List (Nat × T)) {s : State T} {tl : Nat} (fuel : Nat),
    List.Chain' (nextLink s.heap) (l2.map Prod.fst ++ [tl]) →
    tl ∉ l2.map Prod.fst → (l2.map Prod.fst).Nodup → l2.length < fuel →
    ∃ s', clearLoop fuel s tl (some (frontPtr l2 tl)) = some s' ∧
      s'.fresh = s.fresh ∧ (∀ q ∈ l2, s'.heap q.1 = none) ∧
      ∀ j, j ∉ l2.map Prod.fst → s'.heap j = s.heap j := by
  intro l2
  induction l2 with
  | nil =>
    intro s tl fuel hch htl hnd hfuel
    match fuel, hfuel with
    | fuel + 1, _ =>
      refine ⟨s, ?_, rfl, by simp, fun j hj => rfl⟩
      unfold clearLoop
      simp [frontPtr]
  | cons q rest ih =>
    intro s tl fuel hch htl hnd hfuel
    match fuel, hfuel with
    | fuel + 1, hfuel =>
      have hqtl : q.1 ≠ tl := by
        intro he; exact htl (he ▸ List.mem_cons_self _ _ : tl ∈ (q :: rest).map Prod.fst)
      have hch1 : List.Chain' (nextLink s.heap) (q.1 :: (rest.map Prod.fst ++ [tl])) := hch
      have hlink : nextLink s.heap q.1 (frontPtr rest tl) := by
        have := (List.chain'_cons'.mp hch1).1
        refine this _ ?_
        cases rest <;> rfl
      obtain ⟨pn, hq, hqn⟩ := bind_next_some hlink
      have hndrest : (rest.map Prod.fst).Nodup := (List.nodup_cons.mp hnd).2
      have hqrest : q.1 ∉ rest.map Prod.fst := (List.nodup_cons.mp hnd).1
      have hch2 : List.Chain' (nextLink (free s q.1).heap) (rest.map Prod.fst ++ [tl]) := by
        refine chain'_mono_mem (fun a b ha _ hl => ?_) (List.chain'_cons'.mp hch1).2
        have haq : a ≠ q.1 := by
          rcases List.mem_append.mp ha with h1 | h1
          · exact fun he => hqrest (he ▸ h1)
          · rcases List.mem_singleton.mp h1 with h2
            exact fun he => hqtl (he ▸ h2)
        unfold nextLink at hl ⊢
        show ((s.heap.del q.1) a).bind Node.next = _
        rw [Heap.del_ne _ haq]
        exact hl
      obtain ⟨s', hloop, hfr, hdel, hframe⟩ :=
        ih (s := free s q.1) fuel hch2 (fun hm => htl (List.mem_cons_of_mem _ hm))
          hndrest (Nat.lt_of_succ_lt_succ hfuel)
      refine ⟨s', ?_, hfr, ?_, ?_⟩
      · show clearLoop (fuel + 1) s tl (some (frontPtr (q :: rest) tl)) = some s'
        unfold clearLoop
        have hfp : frontPtr (q :: rest) tl = q.1 := rfl
        rw [hfp, if_neg (by simpa using hqtl)]
        simp only [hq, hqn]
        exact hloop
      · intro r hr
        rcases List.mem_cons.mp hr with h1 | h1
        · rw [h1, hframe q.1 hqrest]
          show (s.heap.del q.1) q.1 = none
          exact Heap.del_same _ _
        · exact hdel r h1
      · intro j hj
        have hjq : j ≠ q.1 := fun he => hj (he ▸ List.mem_cons_self _ _)
        have hjrest : j ∉ rest.map Prod.fst := fun hm => hj (List.mem_cons_of_mem _ hm)
        rw [hframe j hjrest]
        show (s.heap.del q.1) j = s.heap j
        exact Heap.del_ne _ hjq

/-- `clear()` destroys every interior node, relinks the sentinels to each
other, and zeroes the count; the invariant holds for the empty content. -/
theorem clearOp_spec {s : State T} {L : LMeta} {l : List (Nat × T)}
    (hI : InvWith s L l) :
    ∃ s', clearOp s L = some (s', { L with sz := 0 }) ∧
      InvWith s' { L with sz := 0 } [] ∧ s'.fresh = s.fresh ∧
      (∀ q ∈ l, s'.heap q.1 = none) ∧
      ∀ j, j ∉ ptrList L l → s'.heap j = s.heap j := by
  obtain ⟨hnd, hch, hhp, hhv, htn, htv, hvals, hsz, hfrr⟩ := hI
  have hI2 : InvWith s L l := ⟨hnd, hch, hhp, hhv, htn, htv, hvals, hsz, hfrr⟩
  have hht : L.head ≠ L.tail := invWith_head_ne_tail hI2
  have hndp := List.nodup_append.mp (show ((L.head :: l.map Prod.fst) ++ [L.tail]).Nodup
    from hnd)
  have hheadnotin : L.head ∉ l.map Prod.fst := (List.nodup_cons.mp hndp.1).1
  have htailnotin : L.tail ∉ l.map Prod.fst := by
    intro hm
    exact hndp.2.2 (List.mem_cons_of_mem _ hm) (List.mem_singleton_self _)
  have hndl : (l.map Prod.fst).Nodup := (List.nodup_cons.mp hndp.1).2
  obtain ⟨hn, hh0, hhn⟩ := bind_next_some (invWith_links_at [] l hI2).1
  have hh : s.heap L.head = some hn := hh0
  have hchain2 : List.Chain' (nextLink s.heap) (l.map Prod.fst ++ [L.tail]) := by
    have h1 : List.Chain' (links s.heap) (L.head :: (l.map Prod.fst ++ [L.tail])) := hch
    have h2 := (List.chain'_cons'.mp h1).2
    exact chain'_mono_mem (fun a b _ _ hl => hl.1) h2
  obtain ⟨s1, hloop, hfr1, hdel1, hframe1⟩ :=
    clearLoop_spec l (L.sz + 1) hchain2 htailnotin hndl (by rw [hsz]; omega)
  have hh1 : s1.heap L.head = some hn := by rw [hframe1 _ hheadnotin]; exact hh
  obtain ⟨tn, htl, -⟩ := map_val_some htv
  have ht1 : s1.heap L.tail = some tn := by rw [hframe1 _ htailnotin]; exact htl
  have hh2 : ({ s1 with heap := s1.heap.set L.head { hn with next := some L.tail } } :
      State T).heap L.tail = some tn := by
    show (s1.heap.set L.head { hn with next := some L.tail }) L.tail = some tn
    rw [Heap.set_ne _ (Ne.symm hht)]; exact ht1
  refine ⟨⟨(s1.heap.set L.head { hn with next := some L.tail }).set L.tail
    { tn with prev := some L.head }, s1.fresh⟩, ?_, ?_, hfr1, ?_, ?_⟩
  · unfold clearOp
    simp only [hh, hhn, hloop, writeNext_eq s1 hh1, writePrev_eq _ hh2,
      Option.bind_eq_bind, Option.some_bind, Option.pure_def]
  · have hfh : (s1.heap.set L.head { hn with next := some L.tail }).set L.tail
        { tn with prev := some L.head } L.head = some { hn with next := some L.tail } := by
      rw [Heap.set_ne _ hht, Heap.set_same]
    have hft : (s1.heap.set L.head { hn with next := some L.tail }).set L.tail
        { tn with prev := some L.head } L.tail = some { tn with prev := some L.head } :=
      Heap.set_same _ _ _
    have hhprev : hn.prev = none := by
      have := hhp; rw [hh] at this; simpa using this
    have hhval : hn.val = none := by
      have := hhv; rw [hh] at this; simpa using this
    have htnext : tn.next = none := by
      have := htn; rw [htl] at this; simpa using this
    have htval : tn.val = none := by
      have := htv; rw [htl] at this; simpa using this
    refine ⟨?_, ?_, ?_, ?_, ?_, ?_, ?_, rfl, ?_⟩
    · show List.Nodup [L.head, L.tail]
      simp [hht]
    · show List.Chain' (links ((s1.heap.set L.head { hn with next := some L.tail }).set
        L.tail { tn with prev := some L.head })) [L.head, L.tail]
      refine List.chain'_cons.mpr ⟨⟨?_, ?_⟩, List.chain'_singleton _⟩
      · rw [hfh]; rfl
      · rw [hft]; rfl
    · show (((s1.heap.set L.head { hn with next := some L.tail }).set
        L.tail { tn with prev := some L.head }) L.head).map Node.prev = some none
      rw [hfh]; simp [hhprev]
    · show (((s1.heap.set L.head { hn with next := some L.tail }).set
        L.tail { tn with prev := some L.head }) L.head).map Node.val = some none
      rw [hfh]; simp [hhval]
    · show (((s1.heap.set L.head { hn with next := some L.tail }).set
        L.tail { tn with prev := some L.head }) L.tail).map Node.next = some none
      rw [hft]; simp [htnext]
    · show (((s1.heap.set L.head { hn with next := some L.tail }).set
        L.tail { tn with prev := some L.head }) L.tail).map Node.val = some none
      rw [hft]; simp [htval]
    · intro q hq; exact absurd hq (List.not_mem_nil q)
    · intro i hi
      have hi2 : i ∈ [L.head, L.tail] := hi
      show i < s1.fresh
      rw [hfr1]
      rcases List.mem_cons.mp hi2 with h1 | h1
      · exact h1 ▸ hfrr _ (mem_ptrList_head L l)
      · rcases List.mem_cons.mp h1 with h2 | h2
        · exact h2 ▸ hfrr _ (mem_ptrList_tail L l)
        · exact absurd h2 (List.not_mem_nil i)
  · intro q hq
    have hq1 : q.1 ≠ L.head := (invWith_mem_ne hI2 hq).1
    have hq2 : q.1 ≠ L.tail := (invWith_mem_ne hI2 hq).2
    show ((s1.heap.set L.head _).set L.tail _) q.1 = none
    rw [Heap.set_ne _ hq2, Heap.set_ne _ hq1]
    exact hdel1 q hq
  · intro j hj
    have hjh : j ≠ L.head := fun he => hj (he ▸ mem_ptrList_head L l)
    have hjt : j ≠ L.tail := fun he => hj (he ▸ mem_ptrList_tail L l)
    have hjl : j ∉ l.map Prod.fst := by
      intro hm
      exact hj (List.mem_cons_of_mem _ (List.mem_append_left _ hm) :
        j ∈ L.head :: (l.map Prod.fst ++ [L.tail]))
    show ((s1.heap.set L.head _).set L.tail _) j = s.heap j
    rw [Heap.set_ne _ hjt, Heap.set_ne _ hjh]
    exact hframe1 j hjl

/-! ## Copy construction and assignment -/

theorem mem_ptrList_append {L : LMeta} {ld : List (Nat × T)} {x : Nat × T} {a : Nat}
    (ha : a ∈ ptrList L (ld ++ [x])) : a ∈ ptrList L ld ∨ a = x.1 := by
  simp only [ptrList, List.map_append, List.mem_cons, List.mem_append, List.map_cons,
    List.mem_singleton] at ha ⊢
  tauto

/-- The push-back loop of copy construction / assignment: pushes a copy of
every value of the source suffix onto the destination, leaving the source
untouched. -/
theorem copyLoop_spec : ∀ (l2 l1 : List (Nat × T)) (s : State T)
    (src dst : LMeta) (ld : List (Nat × T)) (fuel : Nat),
    InvWith s src (l1 ++ l2) → InvWith s dst ld →
    List.Disjoint (ptrList src (l1 ++ l2)) (ptrList dst ld) →
    l2.length < fuel →
    ∃ s' pl, copyLoop fuel s dst src.tail (some (frontPtr l2 src.tail)) =
        some (.ok (s', { dst with sz := dst.sz + l2.length })) ∧
      InvWith s' { dst with sz := dst.sz + l2.length } (ld ++ pl) ∧
      pl.map Prod.snd = l2.map Prod.snd ∧
      InvWith s' src (l1 ++ l2) ∧
      s.fresh ≤ s'.fresh ∧
      List.Disjoint (ptrList src (l1 ++ l2)) (ptrList dst (ld ++ pl)) := by
  intro l2
  induction l2 with
  | nil =>
    intro l1 s src dst ld fuel hsrcI hdstI hdisj hfuel
    match fuel, hfuel with
    | fuel + 1, _ =>
      refine ⟨s, [], ?_, by simpa using hdstI, rfl, hsrcI, le_refl _, by simpa using hdisj⟩
      unfold copyLoop
      simp [frontPtr]
  | cons q rest ih =>
    intro l1 s src dst ld fuel hsrcI hdstI hdisj hfuel
    match fuel, hfuel with
    | fuel + 1, hfuel =>
      have hq : q ∈ l1 ++ q :: rest := List.mem_append_right _ (List.mem_cons_self _ _)
      have hne := invWith_mem_ne hsrcI hq
      obtain ⟨pn, hqh, hqv⟩ := map_val_some (hsrcI.2.2.2.2.2.2.1 q hq)
      have hassoc : l1 ++ q :: rest = (l1 ++ [q]) ++ rest := by simp
      have hpnext : pn.next = some (frontPtr rest src.tail) := by
        have hseam := (invWith_links_at (l1 ++ [q]) rest
          (hassoc ▸ hsrcI)).1
        rw [backPtr_concat, hqh] at hseam
        simpa using hseam
      obtain ⟨s1, heq1, hinv1, hfr1, hframe1⟩ := pushBack_spec (v := q.2) hdstI
      have hagree : ∀ i ∈ ptrList src (l1 ++ q :: rest), s1.heap i = s.heap i := by
        intro i hi
        exact hframe1 i (fun hm => hdisj hi hm) (hsrcI.2.2.2.2.2.2.2.2 i hi)
      have hsrc1 : InvWith s1 src (l1 ++ q :: rest) :=
        invWith_frame hagree (by omega) hsrcI
      have hdisj1 : List.Disjoint (ptrList src ((l1 ++ [q]) ++ rest))
          (ptrList { dst with sz := dst.sz + 1 } (ld ++ [(s.fresh, q.2)])) := by
        intro a ha hb
        have ha' : a ∈ ptrList src (l1 ++ q :: rest) := by rw [hassoc]; exact ha
        have hb' : a ∈ ptrList dst (ld ++ [(s.fresh, q.2)]) := hb
        rcases mem_ptrList_append hb' with h1 | h1
        · exact hdisj ha' h1
        · have := hsrcI.2.2.2.2.2.2.2.2 a ha'
          omega
      obtain ⟨s2, pl, heq2, hinv2, hmap, hsrc2, hfr2, hdisj2⟩ :=
        ih (l1 ++ [q]) s1 src { dst with sz := dst.sz + 1 }
          (ld ++ [(s.fresh, q.2)]) fuel (hassoc ▸ hsrc1) hinv1 hdisj1
          (Nat.lt_of_succ_lt_succ hfuel)
      have hq1 : s1.heap q.1 = some pn := by
        rw [hagree q.1 (mem_ptrList_of_mem src hq)]
        exact hqh
      have hrec : ({ dst with sz := dst.sz + (q :: rest).length } : LMeta) =
          LMeta.mk dst.id dst.head dst.tail (dst.sz + 1 + rest.length) := by
        simp
        omega
      refine ⟨s2, (s.fresh, q.2) :: pl, ?_, ?_, by simp [hmap], hassoc ▸ hsrc2,
        by omega, ?_⟩
      · show copyLoop (fuel + 1) s dst src.tail (some (frontPtr (q :: rest) src.tail)) = _
        unfold copyLoop
        have hfp : frontPtr (q :: rest) src.tail = q.1 := rfl
        rw [hfp, if_neg (by simpa using hne.2)]
        simp only [hqh, hqv, heq1, hq1, hpnext]
        rw [heq2, hrec]
      · rw [hrec]
        have h2 : (ld ++ [(s.fresh, q.2)]) ++ pl = ld ++ (s.fresh, q.2) :: pl := by simp
        rw [h2] at hinv2
        exact hinv2
      · have h2 : (ld ++ [(s.fresh, q.2)]) ++ pl = ld ++ (s.fresh, q.2) :: pl := by simp
        rw [h2] at hdisj2
        intro a ha hb
        exact hdisj2 (hassoc ▸ ha) hb

/-- The copy constructor: a fresh list whose values equal the source's, in
order, built from freshly allocated nodes; the source is untouched. -/
theorem copyList_spec {s : State T} {src : LMeta} {ls : List (Nat × T)} (lid : Nat)
    (hI : InvWith s src ls) :
    ∃ s' dst pl, copyList s lid src = some (.ok (s', dst)) ∧
      dst.id = lid ∧ dst.sz = ls.length ∧
      InvWith s' dst pl ∧ pl.map Prod.snd = ls.map Prod.snd ∧
      InvWith s' src ls ∧
      List.Disjoint (ptrList src ls) (ptrList dst pl) := by
  obtain ⟨hmkI, hmkf, hmkL, hmkframe⟩ := mkList_spec s lid
  have hsrc1 : InvWith (mkList s lid).1 src ls := by
    refine invWith_frame (fun i hi => hmkframe i (hI.2.2.2.2.2.2.2.2 i hi)) ?_ hI
    rw [hmkf]; omega
  have hdisj : List.Disjoint (ptrList src ls)
      (ptrList (mkList s lid).2 ([] : List (Nat × T))) := by
    intro a ha hb
    have h1 := hI.2.2.2.2.2.2.2.2 a ha
    have hb2 : a ∈ [s.fresh, s.fresh + 1] := by rw [hmkL] at hb; exact hb
    rcases List.mem_cons.mp hb2 with h2 | h2
    · omega
    · rcases List.mem_cons.mp h2 with h3 | h3
      · omega
      · exact absurd h3 (List.not_mem_nil a)
  have hsrc1' : InvWith (mkList s lid).1 src ([] ++ ls) := hsrc1
  obtain ⟨hn, hh, hhn⟩ := bind_next_some (invWith_links_at [] ls hsrc1).1
  have hh' : (mkList s lid).1.heap src.head = some hn := hh
  obtain ⟨s2, pl, heq, hinv, hmap, hsrc2, -, hdisj2⟩ :=
    copyLoop_spec ls [] (mkList s lid).1 src (mkList s lid).2 []
      (src.sz + 1) hsrc1' hmkI (by simpa using hdisj)
      (by rw [hI.2.2.2.2.2.2.2.1]; omega)
  refine ⟨s2, { (mkList s lid).2 with sz := (mkList s lid).2.sz + ls.length }, pl, ?_,
    ?_, ?_, by simpa using hinv, by simpa using hmap, hsrc2, by simpa using hdisj2⟩
  · simp only [copyList, hh', hhn]
    exact heq
  · rw [hmkL]
  · rw [hmkL]; simp

theorem assignOp_self (s : State T) {dst src : LMeta} (h : dst.id = src.id) :
    assignOp s dst src = some (.ok (s, dst)) := by
  unfold assignOp
  rw [if_pos h]

/-- Assignment between distinct lists: the destination is cleared and then
filled with copies of the source's values, in order; the source is
untouched. -/
theorem assignOp_spec {s : State T} {dst src : LMeta} {ldst lsrc : List (Nat × T)}
    (hI : InvWith s dst ldst) (hJ : InvWith s src lsrc) (hid : dst.id ≠ src.id)
    (hdisj : List.Disjoint (ptrList src lsrc) (ptrList dst ldst)) :
    ∃ s' pl, assignOp s dst src = some (.ok (s', { dst with sz := lsrc.length })) ∧
      InvWith s' { dst with sz := lsrc.length } pl ∧
      pl.map Prod.snd = lsrc.map Prod.snd ∧
      InvWith s' src lsrc := by
  obtain ⟨s1, heq1, hinv1, hfr1, -, hframe1⟩ := clearOp_spec hI
  have hsrc1 : InvWith s1 src lsrc := by
    refine invWith_frame (fun i hi => hframe1 i (fun hm => hdisj hi hm)) (by omega) hJ
  have hdisj1 : List.Disjoint (ptrList src lsrc)
      (ptrList { dst with sz := 0 } ([] : List (Nat × T))) := by
    intro a ha hb
    have hb2 : a ∈ [dst.head, dst.tail] := hb
    rcases List.mem_cons.mp hb2 with h2 | h2
    · exact hdisj ha (h2 ▸ mem_ptrList_head dst ldst)
    · rcases List.mem_cons.mp h2 with h3 | h3
      · exact hdisj ha (h3 ▸ mem_ptrList_tail dst ldst)
      · exact absurd h3 (List.not_mem_nil a)
  have hsrc1' : InvWith s1 src ([] ++ lsrc) := hsrc1
  obtain ⟨hn, hh, hhn⟩ := bind_next_some (invWith_links_at [] lsrc hsrc1).1
  have hh' : s1.heap src.head = some hn := hh
  obtain ⟨s2, pl, heq2, hinv2, hmap, hsrc2, -, -⟩ :=
    copyLoop_spec lsrc [] s1 src { dst with sz := 0 } []
      (src.sz + 1) hsrc1' hinv1 (by simpa using hdisj1)
      (by rw [hJ.2.2.2.2.2.2.2.1]; omega)
  refine ⟨s2, pl, ?_, ?_, by simpa using hmap, by simpa using hsrc2⟩
  · unfold assignOp
    rw [if_neg hid]
    simp only [heq1, hh', hhn, heq2, Nat.zero_add]
  · show InvWith s2 (LMeta.mk dst.id dst.head dst.tail lsrc.length) pl
    have h2 : InvWith s2 (LMeta.mk dst.id dst.head dst.tail (0 + lsrc.length)) pl := by
      simpa using hinv2
    rwa [Nat.zero_add] at h2

/-! ## reverse -/

/-- A node is determined by its three fields. -/
theorem heap_eq_of_fields {h h' : Heap T} {i : Nat}
    (hp : (h' i).map Node.prev = (h i).map Node.prev)
    (hn : (h' i).map Node.next = (h i).map Node.next)
    (hv : (h' i).map Node.val = (h i).map Node.val) : h' i = h i := by
  cases h1 : h' i with
  | none => cases h2 : h i with
    | none => rfl
    | some nd => rw [h1, h2] at hp; simp at hp
  | some nd => cases h2 : h i with
    | none => rw [h1, h2] at hp; simp at hp
    | some nd2 =>
      rw [h1, h2] at hp hn hv
      simp only [Option.map_some', Option.some.injEq] at hp hn hv
      cases nd; cases nd2
      simp_all

/-- The value-swapping loop of `reverse()`: with `count = ⌊|m|/2⌋` and the
two cursors at the ends of the middle segment `m`, the loop reverses the
values held along `m` in place, touching no link and no other address. -/
theorem revLoop_spec : ∀ (count : Nat) {m : List (Nat × T)} {s : State T}
    {lp rp : Option Nat},
    count = m.length / 2 →
    (count ≠ 0 → ∃ qh t, m = qh :: t ∧ lp = some qh.1) →
    (count ≠ 0 → ∃ ql, m.getLast? = some ql ∧ rp = some ql.1) →
    List.Chain' (links s.heap) (m.map Prod.fst) →
    HasVals s.heap m → (m.map Prod.fst).Nodup →
    ∃ s', revLoop count s lp rp = some s' ∧
      s'.fresh = s.fresh ∧
      HasVals s'.heap ((m.map Prod.fst).zip ((m.map Prod.snd).reverse)) ∧
      (∀ i, (s'.heap i).map Node.prev = (s.heap i).map Node.prev ∧
            (s'.heap i).map Node.next = (s.heap i).map Node.next) ∧
      (∀ j, j ∉ m.map Prod.fst → s'.heap j = s.heap j) := by
  intro count
  induction count with
  | zero =>
    intro m s lp rp hcnt _ _ _ hvals hnd
    refine ⟨s, rfl, rfl, ?_, fun i => ⟨rfl, rfl⟩, fun j _ => rfl⟩
    match m, hcnt with
    | [], _ => intro q hq; exact absurd hq (List.not_mem_nil q)
    | [q], _ =>
      intro r hr
      rcases List.mem_singleton.mp hr with h
      subst h
      exact hvals q (List.mem_singleton_self q)
    | q1 :: q2 :: t, hcnt =>
      exfalso
      simp only [List.length_cons] at hcnt
      omega
  | succ count ih =>
    intro m s lp rp hcnt hlp hrp hch hvals hnd
    obtain ⟨q1, t, hm, hlpe⟩ := hlp (Nat.succ_ne_zero count)
    obtain ⟨q2, hgl, hrpe⟩ := hrp (Nat.succ_ne_zero count)
    have htne : t ≠ [] := by
      intro he
      rw [hm, he] at hcnt
      simp only [List.length_cons, List.length_nil] at hcnt
      omega
    obtain ⟨mid, hmid⟩ : ∃ mid, t = mid ++ [t.getLast htne] :=
      ⟨t.dropLast, (List.dropLast_append_getLast htne).symm⟩
    have hq2eq : t.getLast htne = q2 := by
      have h1 : m.getLast? = some (t.getLast htne) := by
        rw [hm]
        rw [List.getLast?_eq_getLast_of_ne_nil (by simp)]
        congr 1
        exact (List.getLast_cons htne)
      rw [hgl] at h1
      exact (Option.some_injective _ h1).symm
    rw [hq2eq] at hmid
    have hmdecomp : m = q1 :: mid ++ [q2] := by rw [hm, hmid, List.cons_append]
    clear hm hmid hgl hq2eq htne hlp hrp
    subst hmdecomp
    -- facts
    have hlen : mid.length / 2 = count := by
      simp only [List.length_cons, List.length_append, List.length_singleton,
        List.length_nil] at hcnt
      omega
    have hv1 : (s.heap q1.1).map Node.val = some (some q1.2) :=
      hvals q1 (List.mem_cons_self _ _)
    have hv2 : (s.heap q2.1).map Node.val = some (some q2.2) :=
      hvals q2 (List.mem_cons_of_mem _ (List.mem_append_right _ (List.mem_singleton_self _)))
    obtain ⟨n1, hn1, hn1v⟩ := map_val_some hv1
    obtain ⟨n2, hn2, hn2v⟩ := map_val_some hv2
    have hids : (q1 :: mid ++ [q2]).map Prod.fst =
        q1.1 :: mid.map Prod.fst ++ [q2.1] := by simp
    have hch2 : List.Chain' (links s.heap) (q1.1 :: mid.map Prod.fst ++ [q2.1]) := by
      rw [hids] at hch; exact hch
    have hnd' : (q1.1 :: mid.map Prod.fst ++ [q2.1]).Nodup := by rw [← hids]; exact hnd
    have hndparts := List.nodup_append.mp (show ((q1.1 :: mid.map Prod.fst) ++ [q2.1]).Nodup
      from hnd')
    have hq12 : q1.1 ≠ q2.1 :=
      fun he => hndparts.2.2 (List.mem_cons_self _ _) (he ▸ List.mem_singleton_self _)
    have hq1mid : q1.1 ∉ mid.map Prod.fst := (List.nodup_cons.mp hndparts.1).1
    have hq2mid : q2.1 ∉ mid.map Prod.fst := by
      intro hmm
      exact hndparts.2.2 (List.mem_cons_of_mem _ hmm) (List.mem_singleton_self _)
    -- the two value writes
    set s1 : State T := { s with heap := s.heap.set q1.1 { n1 with val := n2.val } } with hs1
    set s2 : State T :=
      { s1 with heap := s1.heap.set q2.1 { n2 with val := n1.val } } with hs2
    have hw1 : writeVal s q1.1 n2.val = some s1 := writeVal_eq s hn1 _
    have hs1q2 : s1.heap q2.1 = some n2 := by
      show (s.heap.set q1.1 _) q2.1 = some n2
      rw [Heap.set_ne _ (Ne.symm hq12)]
      exact hn2
    have hw2 : writeVal s1 q2.1 n1.val = some s2 := writeVal_eq s1 hs1q2 _
    have hs2q1 : s2.heap q1.1 = some { n1 with val := n2.val } := by
      show (s1.heap.set q2.1 _) q1.1 = _
      rw [Heap.set_ne _ hq12]
      exact Heap.set_same _ _ _
    have hs2q2 : s2.heap q2.1 = some { n2 with val := n1.val } := Heap.set_same _ _ _
    have hs2other : ∀ j, j ≠ q1.1 → j ≠ q2.1 → s2.heap j = s.heap j := by
      intro j h1 h2
      show (s1.heap.set q2.1 _) j = s.heap j
      rw [Heap.set_ne _ h2]
      show (s.heap.set q1.1 _) j = s.heap j
      rw [Heap.set_ne _ h1]
    have hlinks2 : ∀ i, (s2.heap i).map Node.prev = (s.heap i).map Node.prev ∧
        (s2.heap i).map Node.next = (s.heap i).map Node.next := by
      intro i
      by_cases h1 : i = q1.1
      · subst h1; rw [hs2q1, hn1]; exact ⟨rfl, rfl⟩
      · by_cases h2 : i = q2.1
        · subst h2; rw [hs2q2, hn2]; exact ⟨rfl, rfl⟩
        · rw [hs2other i h1 h2]; exact ⟨rfl, rfl⟩
    -- chain structure for the middle
    have hchmid : List.Chain' (links s2.heap) (mid.map Prod.fst) := by
      have h1 : List.Chain' (links s.heap) (mid.map Prod.fst) := by
        have h2 := (List.chain'_cons'.mp hch2).2
        exact (List.chain'_append.mp h2).1
      refine chain'_links_mono (fun a b _ _ hl => ?_) h1
      constructor
      · rw [nextAgrees_bind_eq ((hlinks2 a).2)]; exact hl.1
      · rw [prevAgrees_bind_eq ((hlinks2 b).1)]; exact hl.2
    have hvalsmid : HasVals s2.heap mid := by
      intro r hr
      have h1 : r.1 ≠ q1.1 := fun he => hq1mid (he ▸ List.mem_map_of_mem Prod.fst hr)
      have h2 : r.1 ≠ q2.1 := fun he => hq2mid (he ▸ List.mem_map_of_mem Prod.fst hr)
      rw [show (s2.heap r.1).map Node.val = (s.heap r.1).map Node.val from by
        rw [hs2other r.1 h1 h2]]
      exact hvals r (List.mem_cons_of_mem _ (List.mem_append_left _ hr))
    have hndmid : (mid.map Prod.fst).Nodup := (List.nodup_cons.mp hndparts.1).2
    -- the advanced cursors
    have hmidx : n1.next = some (frontPtr mid q2.1) := by
      have h1 := (List.chain'_cons'.mp hch2).1
      have h2 : (mid.map Prod.fst ++ [q2.1]).head? = some (frontPtr mid q2.1) := by
        cases mid <;> rfl
      have h3 := h1 _ h2
      have h4 := h3.1
      rw [hn1] at h4
      simpa using h4
    have hmidp : n2.prev = some (backPtr q1.1 mid) := by
      have hch3 : List.Chain' (links s.heap) ((q1.1 :: mid.map Prod.fst) ++ [q2.1]) := hch2
      have h1 := (List.chain'_append.mp hch3).2.2
      have h2 := h1 ((mid.map Prod.fst).getLastD q1.1) (by rw [getLast?_cons_eq]; rfl)
        q2.1 rfl
      have h4 := h2.2
      rw [hn2] at h4
      simpa [backPtr] using h4
    have hlpmid : count ≠ 0 → ∃ qh t2, mid = qh :: t2 ∧ n1.next = some qh.1 := by
      intro hc
      match mid, hlen with
      | [], hlen => exact absurd (by simpa using hlen.symm) hc
      | qh :: t2, _ => exact ⟨qh, t2, rfl, by rw [hmidx]; rfl⟩
    have hrpmid : count ≠ 0 → ∃ ql, mid.getLast? = some ql ∧ n2.prev = some ql.1 := by
      intro hc
      have hmidne : mid ≠ [] := by
        intro he
        rw [he] at hlen
        exact hc (by simpa using hlen.symm)
      refine ⟨mid.getLast hmidne, List.getLast?_eq_getLast_of_ne_nil hmidne, ?_⟩
      rw [hmidp, backPtr_eq_getLast hmidne]
    obtain ⟨s', hloop, hfr', hvals', hlinks', hframe'⟩ :=
      ih hlen.symm hlpmid hrpmid hchmid hvalsmid hndmid
    refine ⟨s', ?_, hfr', ?_, ?_, ?_⟩
    · -- the loop equation
      show revLoop (count + 1) s lp rp = some s'
      have hs2q1' : ((s.heap.set q1.1 { n1 with val := n2.val }).set q2.1
          { n2 with val := n1.val }) q1.1 = some { n1 with val := n2.val } := hs2q1
      have hs2q2' : ((s.heap.set q1.1 { n1 with val := n2.val }).set q2.1
          { n2 with val := n1.val }) q2.1 = some { n2 with val := n1.val } := hs2q2
      unfold revLoop
      rw [hlpe, hrpe]
      simp only [hn1, hn2, hw1, hw2, hs2q1', hs2q2', Option.bind_eq_bind, Option.some_bind]
      exact hloop
    · -- reversed values
      have hlab : (mid.map Prod.fst).length = ((mid.map Prod.snd).reverse).length := by
        simp
      have hzip : ((q1 :: mid ++ [q2]).map Prod.fst).zip
          (((q1 :: mid ++ [q2]).map Prod.snd).reverse) =
          (q1.1, q2.2) :: ((mid.map Prod.fst).zip ((mid.map Prod.snd).reverse) ++
            [(q2.1, q1.2)]) := by
        simp only [List.map_cons, List.map_append, List.map_cons, List.reverse_cons,
          List.reverse_append, List.map_nil]
        show (q1.1 :: (mid.map Prod.fst ++ [q2.1])).zip
            (([q2.2].reverse ++ (mid.map Prod.snd).reverse) ++ [q1.2]) = _
        have h4 : ([q2.2].reverse ++ (mid.map Prod.snd).reverse) ++ [q1.2] =
            q2.2 :: ((mid.map Prod.snd).reverse ++ [q1.2]) := by simp
        rw [h4]
        show (q1.1, q2.2) :: (mid.map Prod.fst ++ [q2.1]).zip
            ((mid.map Prod.snd).reverse ++ [q1.2]) = _
        rw [List.zip_append (by simp [hlab])]
        rfl
      rw [hzip]
      intro r hr
      rcases List.mem_cons.mp hr with h1 | h1
      · subst h1
        show (s'.heap q1.1).map Node.val = some (some q2.2)
        rw [hframe' q1.1 hq1mid, hs2q1]
        simp [hn2v]
      · rcases List.mem_append.mp h1 with h2 | h2
        · exact hvals' r h2
        · rcases List.mem_singleton.mp h2 with h3
          subst h3
          show (s'.heap q2.1).map Node.val = some (some q1.2)
          rw [hframe' q2.1 hq2mid, hs2q2]
          simp [hn1v]
    · -- links untouched
      intro i
      exact ⟨(hlinks' i).1.trans (hlinks2 i).1, (hlinks' i).2.trans (hlinks2 i).2⟩
    · -- frame
      intro j hj
      have h1 : j ∉ mid.map Prod.fst := by
        intro hmm
        exact hj (by
          rw [hids]
          exact List.mem_cons_of_mem _ (List.mem_append_left _ hmm))
      have h2 : j ≠ q1.1 := by
        intro he
        exact hj (by rw [hids, he]; exact List.mem_cons_self _ _)
      have h3 : j ≠ q2.1 := by
        intro he
        exact hj (by
          rw [hids, he]
          exact List.mem_cons_of_mem _ (List.mem_append_right _ (List.mem_singleton_self _)))
      rw [hframe' j h1]
      exact hs2other j h2 h3

/-- `reverse()` exchanges only held values between symmetric node pairs:
afterwards the same nodes hold the reversed value sequence, every link is
exactly as before, no address is allocated or freed, and untouched
addresses (the sentinels included) are bit-for-bit unchanged. -/
theorem reverseOp_spec {s : State T} {L : LMeta} {l : List (Nat × T)} (hI : InvWith s L l) :
    ∃ s', reverseOp s L = some s' ∧
      InvWith s' L ((l.map Prod.fst).zip ((l.map Prod.snd).reverse)) ∧
      s'.fresh = s.fresh ∧
      (∀ i, (s'.heap i).map Node.prev = (s.heap i).map Node.prev ∧
            (s'.heap i).map Node.next = (s.heap i).map Node.next) ∧
      (∀ j, j ∉ l.map Prod.fst → s'.heap j = s.heap j) := by
  obtain ⟨hnd, hch, hhp, hhv, htn, htv, hvals, hsz, hfrr⟩ := hI
  have hI2 : InvWith s L l := ⟨hnd, hch, hhp, hhv, htn, htv, hvals, hsz, hfrr⟩
  by_cases hsz1 : L.sz ≤ 1
  · refine ⟨s, ?_, ?_, rfl, fun i => ⟨rfl, rfl⟩, fun j _ => rfl⟩
    · unfold reverseOp
      rw [if_pos hsz1]
    · have hlen : l.length ≤ 1 := by rw [← hsz]; exact hsz1
      match l, hlen with
      | [], _ => exact hI2
      | [q], _ => exact hI2
  · have hlen2 : 2 ≤ l.length := by rw [← hsz]; omega
    have hlne : l ≠ [] := by
      intro he; rw [he] at hlen2; simp at hlen2
    obtain ⟨hn, hh0, hhn⟩ := bind_next_some (invWith_links_at [] l hI2).1
    have hh : s.heap L.head = some hn := hh0
    have hIapp : InvWith s L (l ++ []) := by rw [List.append_nil]; exact hI2
    obtain ⟨tn, htl0, htp⟩ := bind_prev_some (invWith_links_at l [] hIapp).2
    have htl : s.heap L.tail = some tn := htl0
    have hchint : List.Chain' (links s.heap) (l.map Prod.fst) := by
      have h1 : List.Chain' (links s.heap) (L.head :: (l.map Prod.fst ++ [L.tail])) := hch
      exact (List.chain'_append.mp (List.chain'_cons'.mp h1).2).1
    have hndint : (l.map Prod.fst).Nodup := by
      have hndp := List.nodup_append.mp (show ((L.head :: l.map Prod.fst) ++ [L.tail]).Nodup
        from hnd)
      exact (List.nodup_cons.mp hndp.1).2
    have hlp : L.sz / 2 ≠ 0 → ∃ qh t, l = qh :: t ∧ hn.next = some qh.1 := by
      intro hc
      match l, hlne with
      | q :: t, _ =>
        refine ⟨q, t, rfl, ?_⟩
        rw [hhn]; rfl
    have hrp : L.sz / 2 ≠ 0 → ∃ ql, l.getLast? = some ql ∧ tn.prev = some ql.1 := by
      intro hc
      refine ⟨l.getLast hlne, List.getLast?_eq_getLast_of_ne_nil hlne, ?_⟩
      rw [htp, backPtr_eq_getLast hlne]
    obtain ⟨s', hloop, hfr', hvals', hlinks', hframe'⟩ :=
      revLoop_spec (L.sz / 2) (m := l) (by rw [hsz]) hlp hrp hchint hvals hndint
    · refine ⟨s', ?_, ?_, hfr', hlinks', hframe'⟩
      · unfold reverseOp
        rw [if_neg hsz1, hh, htl]
        exact hloop
      · have hidseq : ((l.map Prod.fst).zip ((l.map Prod.snd).reverse)).map Prod.fst =
            l.map Prod.fst := by
          refine List.map_fst_zip _ _ ?_
          simp
        have hheadntin : L.head ∉ l.map Prod.fst := by
          have hndp := List.nodup_append.mp
            (show ((L.head :: l.map Prod.fst) ++ [L.tail]).Nodup from hnd)
          exact (List.nodup_cons.mp hndp.1).1
        have htailntin : L.tail ∉ l.map Prod.fst := by
          have hndp := List.nodup_append.mp
            (show ((L.head :: l.map Prod.fst) ++ [L.tail]).Nodup from hnd)
          exact fun hm => hndp.2.2 (List.mem_cons_of_mem _ hm) (List.mem_singleton_self _)
        have hptr : ptrList L ((l.map Prod.fst).zip ((l.map Prod.snd).reverse)) =
            ptrList L l := by
          unfold ptrList
          rw [hidseq]
        refine ⟨?_, ?_, ?_, ?_, ?_, ?_, hvals', ?_, ?_⟩
        · rw [hptr]; exact hnd
        · rw [hptr]
          refine chain'_links_mono (fun a b _ _ hl => ?_) hch
          constructor
          · rw [nextAgrees_bind_eq ((hlinks' a).2)]; exact hl.1
          · rw [prevAgrees_bind_eq ((hlinks' b).1)]; exact hl.2
        · rw [hframe' L.head hheadntin]; exact hhp
        · rw [hframe' L.head hheadntin]; exact hhv
        · rw [hframe' L.tail htailntin]; exact htn
        · rw [hframe' L.tail htailntin]; exact htv
        · rw [hsz]
          rw [List.length_zip]
          simp
        · rw [hptr, hfr']
          exact hfrr

/-! ## `unique()` -/

theorem runOf_append_dropRun [DecidableEq T] (v : T) (l : List (Nat × T)) :
    runOf v l ++ dropRun v l = l := by
  induction l with
  | nil => rfl
  | cons q rest ih =>
    by_cases h : v ≠ q.2
    · simp [runOf, dropRun, h]
    · simp [runOf, dropRun, h, ih]

theorem dropRun_length_le [DecidableEq T] (v : T) (l : List (Nat × T)) :
    (dropRun v l).length ≤ l.length := by
  induction l with
  | nil => simp [dropRun]
  | cons q rest ih =>
    by_cases h : v ≠ q.2
    · simp [dropRun, h]
    · simp only [dropRun, h, decide_False, Bool.not_false, if_pos, List.length_cons]
      exact Nat.le_succ_of_le ih

theorem uniqueAux_sublist [DecidableEq T] (v : T) (l : List (Nat × T)) :
    (uniqueAux v l).Sublist l := by
  induction l generalizing v with
  | nil => simp [uniqueAux]
  | cons q rest ih =>
    by_cases h : v ≠ q.2
    · simpa [uniqueAux, h] using (ih q.2).cons₂ q
    · simpa [uniqueAux, h] using (ih v).cons q

theorem uniqueScan_sublist [DecidableEq T] (l : List (Nat × T)) :
    (uniqueScan l).Sublist l := by
  cases l with
  | nil => simp [uniqueScan]
  | cons q rest => exact (uniqueAux_sublist q.2 rest).cons₂ q

theorem uniqueAux_eq_scan [DecidableEq T] (v : T) (l : List (Nat × T)) :
    uniqueAux v l = uniqueScan (dropRun v l) := by
  induction l generalizing v with
  | nil => rfl
  | cons q rest ih =>
    by_cases h : v ≠ q.2
    · simp [uniqueAux, dropRun, h, uniqueScan]
    · simp [uniqueAux, dropRun, h, ih]

theorem uniqueAux_map_snd [DecidableEq T] (v : T) (l : List (Nat × T)) :
    List.destutter' (· ≠ ·) v (l.map Prod.snd) = v :: (uniqueAux v l).map Prod.snd := by
  induction l generalizing v with
  | nil => simp [uniqueAux, List.destutter']
  | cons q rest ih =>
    by_cases h : v ≠ q.2
    · simp [uniqueAux, List.destutter', h, ih q.2]
    · simp [uniqueAux, List.destutter', h, ih v]

/-- The values surviving `unique()` are the destuttering (collapse of
consecutive runs of equal values) of the original value sequence. -/
theorem uniqueScan_map_snd [DecidableEq T] (l : List (Nat × T)) :
    (uniqueScan l).map Prod.snd = (l.map Prod.snd).destutter (· ≠ ·) := by
  cases l with
  | nil => rfl
  | cons q rest =>
    simp [uniqueScan, List.destutter, uniqueAux_map_snd]

theorem uniqueScan_short [DecidableEq T] (l : List (Nat × T)) (h : l.length ≤ 1) :
    uniqueScan l = l := by
  cases l with
  | nil => rfl
  | cons q rest =>
    cases rest with
    | nil => rfl
    | cons r t => simp at h

theorem dropRun_subset [DecidableEq T] (v : T) (l : List (Nat × T)) :
    ∀ r ∈ dropRun v l, r ∈ l := by
  intro r hr
  rw [← runOf_append_dropRun v l]
  exact List.mem_append_right _ hr

/-- Membership in the pointer list, element-wise. -/
theorem mem_ptrList {L : LMeta} {l : List (Nat × T)} {x : Nat} :
    x ∈ ptrList L l ↔ x = L.head ∨ (∃ r ∈ l, r.1 = x) ∨ x = L.tail := by
  constructor
  · intro hx
    rcases List.mem_append.mp hx with h | h
    · rcases List.mem_cons.mp h with h | h
      · exact Or.inl h
      · obtain ⟨r, hr, he⟩ := List.mem_map.mp h
        exact Or.inr (Or.inl ⟨r, hr, he⟩)
    · exact Or.inr (Or.inr (List.mem_singleton.mp h))
  · intro hx
    rcases hx with h | ⟨r, hr, he⟩ | h
    · exact List.mem_append_left _ (h ▸ List.mem_cons_self _ _)
    · exact List.mem_append_left _ (List.mem_cons_of_mem _ (he ▸ List.mem_map_of_mem _ hr))
    · exact List.mem_append_right _ (h ▸ List.mem_singleton_self _)

/-- The inner loop of `unique()`: starting right after the reference node
`(pk, pv)`, it destroys exactly the maximal run of following nodes whose
value equals `pv` (test `!(a != b)`), leaves `n` on the first survivor
(or the tail sentinel), and decrements the running count once per
deletion.  The invariant holds for the shrunk content and no address
outside the original chain changes. -/
theorem uniqueInner_spec [DecidableEq T] :
    ∀ (l2 : List (Nat × T)) (fuel : Nat) {s : State T} {L : LMeta}
      {l1 : List (Nat × T)} {pk : Nat} {pv : T},
    InvWith s L (l1 ++ (pk, pv) :: l2) → l2.length < fuel →
    ∃ s', uniqueInner fuel s L.tail pk (some (frontPtr l2 L.tail)) L.sz =
        some (s', some (frontPtr (dropRun pv l2) L.tail),
          L.sz - (runOf pv l2).length) ∧
      InvWith s' { L with sz := L.sz - (runOf pv l2).length }
        (l1 ++ (pk, pv) :: dropRun pv l2) ∧
      s'.fresh = s.fresh ∧
      (∀ r ∈ runOf pv l2, s'.heap r.1 = none) ∧
      ∀ j, j ∉ ptrList L (l1 ++ (pk, pv) :: l2) → s'.heap j = s.heap j := by
  intro l2
  induction l2 with
  | nil =>
    intro fuel s L l1 pk pv hI hfuel
    obtain ⟨f, rfl⟩ : ∃ f, fuel = f + 1 := ⟨fuel - 1, by omega⟩
    refine ⟨s, ?_, hI, rfl, ?_, fun j _ => rfl⟩
    · simp [uniqueInner, frontPtr, dropRun, runOf]
    · intro r hr
      simp [runOf] at hr
  | cons q rest ih =>
    intro fuel s L l1 pk pv hI hfuel
    obtain ⟨f, rfl⟩ : ∃ f, fuel = f + 1 := ⟨fuel - 1, by omega⟩
    obtain ⟨hnd, hch, hhp, hhv, htn, htv, hvals, hsz, hfr⟩ := hI
    have hImk : InvWith s L (l1 ++ (pk, pv) :: q :: rest) :=
      ⟨hnd, hch, hhp, hhv, htn, htv, hvals, hsz, hfr⟩
    have hassoc1 : l1 ++ (pk, pv) :: q :: rest = (l1 ++ [(pk, pv)]) ++ q :: rest := by simp
    have hseam1 : links s.heap pk q.1 := by
      have h := invWith_links_at (l1 ++ [(pk, pv)]) (q :: rest) (hassoc1 ▸ hImk)
      rwa [backPtr_concat] at h
    have hassoc2 : l1 ++ (pk, pv) :: q :: rest = ((l1 ++ [(pk, pv)]) ++ [q]) ++ rest := by simp
    have hseam2 : links s.heap q.1 (frontPtr rest L.tail) := by
      have h := invWith_links_at ((l1 ++ [(pk, pv)]) ++ [q]) rest (hassoc2 ▸ hImk)
      rwa [backPtr_concat] at h
    obtain ⟨pn, hp, hpnext⟩ := bind_next_some hseam1.1
    obtain ⟨nn, hq, hnprev⟩ := bind_prev_some hseam1.2
    have hnnext : nn.next = some (frontPtr rest L.tail) := by
      have := hseam2.1; rw [hq] at this; simpa using this
    obtain ⟨fn, hF, hfprev⟩ := bind_prev_some hseam2.2
    have hpval : pn.val = some pv := by
      have := hvals (pk, pv) (List.mem_append_right _ (List.mem_cons_self _ _))
      rw [hp] at this; simpa using this
    have hnval : nn.val = some q.2 := by
      have := hvals q (List.mem_append_right _
        (List.mem_cons_of_mem _ (List.mem_cons_self _ _)))
      rw [hq] at this; simpa using this
    have hqtail : q.1 ≠ L.tail :=
      (invWith_mem_ne hImk (List.mem_append_right _
        (List.mem_cons_of_mem _ (List.mem_cons_self _ _)))).2
    have hsplitE : ptrList L (l1 ++ (pk, pv) :: q :: rest) =
        (L.head :: (l1 ++ [(pk, pv)]).map Prod.fst) ++
          q.1 :: (rest.map Prod.fst ++ [L.tail]) := by
      simp [ptrList]
    have hndE := List.nodup_append.mp (hsplitE ▸ hnd)
    have hqpost : q.1 ∉ rest.map Prod.fst ++ [L.tail] := (List.nodup_cons.mp hndE.2.1).1
    have hpkpre : pk ∈ L.head :: (l1 ++ [(pk, pv)]).map Prod.fst := by simp
    have hFpost : frontPtr rest L.tail ∈ rest.map Prod.fst ++ [L.tail] := by
      cases rest with
      | nil => simp [frontPtr]
      | cons r t => simp [frontPtr]
    have hpkq : pk ≠ q.1 := fun he => hndE.2.2 hpkpre (he ▸ List.mem_cons_self _ _)
    have hpkF : pk ≠ frontPtr rest L.tail :=
      fun he => hndE.2.2 hpkpre (he ▸ List.mem_cons_of_mem _ hFpost)
    by_cases hv : pv ≠ q.2
    · -- the run ends here: the loop returns without modifying anything
      have hd : dropRun pv (q :: rest) = q :: rest := by simp [dropRun, hv]
      have hrn : runOf pv (q :: rest) = ([] : List (Nat × T)) := by simp [runOf, hv]
      refine ⟨s, ?_, ?_, rfl, ?_, fun j _ => rfl⟩
      · rw [hd, hrn]
        simp only [uniqueInner, frontPtr]
        rw [if_neg (by simpa using hqtail)]
        simp only [hp, hpval, hq, hnval]
        rw [if_neg (by simp [hv])]
        simp
      · rw [hd, hrn]
        simpa using hImk
      · intro r hr
        rw [hrn] at hr
        simp at hr
    · -- equal values: the node `q` is unlinked and destroyed, then the
      -- loop continues on `rest`
      push_neg at hv
      have hd : dropRun pv (q :: rest) = dropRun pv rest := by simp [dropRun, hv]
      have hrn : runOf pv (q :: rest) = q :: runOf pv rest := by simp [runOf, hv]
      obtain ⟨hinv, hqnone, hframe⟩ :=
        unlink_spec pn fn (hassoc1 ▸ hImk)
          (by rw [backPtr_concat]; exact hp) hF
      rw [backPtr_concat] at hinv hqnone hframe
      have hassoc3 : (l1 ++ [(pk, pv)]) ++ rest = l1 ++ (pk, pv) :: rest := by simp
      rw [hassoc3] at hinv
      obtain ⟨s', heq, hinv', hfr', hfreed', hframe'⟩ :=
        ih f (s := ⟨((s.heap.set pk { pn with next := some (frontPtr rest L.tail) }).set
            (frontPtr rest L.tail) { fn with prev := some pk }).del q.1, s.fresh⟩)
          (L := { L with sz := L.sz - 1 }) hinv (by simp at hfuel; omega)
      have heq2 : uniqueInner f
          ⟨((s.heap.set pk { pn with next := some (frontPtr rest L.tail) }).set
              (frontPtr rest L.tail) { fn with prev := some pk }).del q.1, s.fresh⟩
          L.tail pk (some (frontPtr rest L.tail)) (L.sz - 1) =
          some (s', some (frontPtr (dropRun pv rest) L.tail),
            L.sz - 1 - (runOf pv rest).length) := heq
      have hinv2 : InvWith s' { L with sz := L.sz - 1 - (runOf pv rest).length }
          (l1 ++ (pk, pv) :: dropRun pv rest) := hinv'
      have hfr2 : s'.fresh = s.fresh := hfr'
      have hframe2 : ∀ j, j ∉ ptrList { L with sz := L.sz - 1 } (l1 ++ (pk, pv) :: rest) →
          s'.heap j =
          (((s.heap.set pk { pn with next := some (frontPtr rest L.tail) }).set
              (frontPtr rest L.tail) { fn with prev := some pk }).del q.1) j := hframe'
      have harith : L.sz - 1 - (runOf pv rest).length =
          L.sz - ((runOf pv rest).length + 1) := by omega
      have hq1not : q.1 ∉ ptrList { L with sz := L.sz - 1 } (l1 ++ (pk, pv) :: rest) := by
        intro hmem
        have hmem2 : q.1 ∈ (L.head :: (l1 ++ [(pk, pv)]).map Prod.fst) ++
            (rest.map Prod.fst ++ [L.tail]) := by
          simpa [ptrList] using hmem
        rcases List.mem_append.mp hmem2 with h | h
        · exact hndE.2.2 h (List.mem_cons_self _ _)
        · exact hqpost h
      have hsub : ∀ x, x ∈ ptrList { L with sz := L.sz - 1 } (l1 ++ (pk, pv) :: rest) →
          x ∈ ptrList L (l1 ++ (pk, pv) :: q :: rest) := by
        intro x hx
        simp only [ptrList, List.map_append, List.map_cons, List.mem_cons,
          List.mem_append, List.mem_singleton] at hx ⊢
        tauto
      have hq1big : q.1 ∈ ptrList L (l1 ++ (pk, pv) :: q :: rest) :=
        mem_ptrList_of_mem L (List.mem_append_right _
          (List.mem_cons_of_mem _ (List.mem_cons_self _ _)))
      refine ⟨s', ?_, ?_, hfr2, ?_, ?_⟩
      · -- evaluation down to the recursive call, then the IH equation
        have e1 : (s.heap.set pk { pn with next := some (frontPtr rest L.tail) }) q.1 =
            some nn := by
          rw [Heap.set_ne _ (Ne.symm hpkq), hq]
        have e2 : (s.heap.set pk { pn with next := some (frontPtr rest L.tail) })
            (frontPtr rest L.tail) = some fn := by
          rw [Heap.set_ne _ (Ne.symm hpkF), hF]
        have hfq : frontPtr (q :: rest) L.tail = q.1 := rfl
        rw [hd, hrn]
        simp only [uniqueInner, hfq]
        rw [if_neg (by simpa using hqtail)]
        simp only [hp, hpval, hq, hnval]
        rw [if_pos (by simp [hv])]
        simp only [hnprev, hnnext, hp, hq, e1, e2, writePrev, writeNext, free,
          Option.bind_eq_bind, Option.some_bind, Option.map_some', Option.pure_def]
        rw [heq2, harith]
        simp
      · rw [hd, hrn]
        rw [harith] at hinv2
        have hlen : (q :: runOf pv rest).length = (runOf pv rest).length + 1 := by simp
        rw [hlen]
        exact hinv2
      · intro r hr
        rw [hrn] at hr
        rcases List.mem_cons.mp hr with hr | hr
        · subst hr
          rw [hframe2 _ hq1not]
          exact hqnone
        · exact hfreed' r hr
      · intro j hj
        have hjq : j ≠ q.1 := fun he => hj (he ▸ hq1big)
        rw [hframe2 j (fun hx => hj (hsub _ hx))]
        exact hframe j hjq (fun hx => hj (by rwa [← hassoc1] at hx))

/-- The outer loop of `unique()`: scanning the remaining content `l2`, it
keeps the first node of every run of equal consecutive values and
destroys the rest, arriving at content `l1 ++ uniqueScan l2` with the
count kept in sync. -/
theorem uniqueOuter_spec [DecidableEq T] :
    ∀ (fuel : Nat) (l2 : List (Nat × T)) (ifuel : Nat) {s : State T} {L : LMeta}
      (l1 : List (Nat × T)),
    InvWith s L (l1 ++ l2) → l2.length < fuel → l2.length < ifuel →
    ∃ s', uniqueOuter fuel ifuel s L.tail (some (frontPtr l2 L.tail)) L.sz =
        some (s', (l1 ++ uniqueScan l2).length) ∧
      InvWith s' { L with sz := (l1 ++ uniqueScan l2).length } (l1 ++ uniqueScan l2) ∧
      s'.fresh = s.fresh ∧
      (∀ r ∈ l2, r.1 ∉ (uniqueScan l2).map Prod.fst → s'.heap r.1 = none) ∧
      ∀ j, j ∉ ptrList L (l1 ++ l2) → s'.heap j = s.heap j := by
  intro fuel
  induction fuel with
  | zero =>
    intro l2 ifuel s L l1 hI hf hfi
    exact absurd hf (Nat.not_lt_zero _)
  | succ f ihf =>
    intro l2 ifuel s L l1 hI hf hfi
    obtain ⟨hnd, hch, hhp, hhv, htn, htv, hvals, hsz, hfr⟩ := hI
    have hImk : InvWith s L (l1 ++ l2) := ⟨hnd, hch, hhp, hhv, htn, htv, hvals, hsz, hfr⟩
    cases l2 with
    | nil =>
      have hsz' : L.sz = l1.length := by simpa using hsz
      have hI' : InvWith s L l1 := by simpa using hImk
      refine ⟨s, ?_, ?_, rfl, ?_, fun j _ => rfl⟩
      · simp [uniqueOuter, frontPtr, uniqueScan, hsz']
      · simp only [uniqueScan, List.append_nil]
        rw [← hsz']
        exact hI'
      · intro r hr
        exact absurd hr (List.not_mem_nil _)
    | cons q rest =>
      -- the head of the remaining content is the next reference node
      have hqmem : q ∈ l1 ++ q :: rest := List.mem_append_right _ (List.mem_cons_self _ _)
      have hqtail : q.1 ≠ L.tail := (invWith_mem_ne hImk hqmem).2
      have hseam : links s.heap q.1 (frontPtr rest L.tail) := by
        have hassoc : l1 ++ q :: rest = (l1 ++ [q]) ++ rest := by simp
        have h := invWith_links_at (l1 ++ [q]) rest (hassoc ▸ hImk)
        rwa [backPtr_concat] at h
      obtain ⟨pn0, hq0, hnext0⟩ := bind_next_some hseam.1
      -- run the inner loop on `rest`
      have hIinner : InvWith s L (l1 ++ (q.1, q.2) :: rest) := hImk
      obtain ⟨s1, Einner, hinv1, hfr1, hfreed1, hframe1⟩ :=
        uniqueInner_spec rest ifuel hIinner (by simp at hfi; omega)
      -- recurse on the survivors
      have hassoc2 : l1 ++ (q.1, q.2) :: dropRun q.2 rest =
          (l1 ++ [q]) ++ dropRun q.2 rest := by simp
      rw [hassoc2] at hinv1
      obtain ⟨s', heqO, hinvO, hfrO, hfreedO, hframeO⟩ :=
        ihf (dropRun q.2 rest) ifuel (s := s1)
          (L := { L with sz := L.sz - (runOf q.2 rest).length }) (l1 ++ [q]) hinv1
          (by have := dropRun_length_le q.2 rest; simp at hf; omega)
          (by have := dropRun_length_le q.2 rest; simp at hfi; omega)
      have heqO2 : uniqueOuter f ifuel s1 L.tail
          (some (frontPtr (dropRun q.2 rest) L.tail)) (L.sz - (runOf q.2 rest).length) =
          some (s', ((l1 ++ [q]) ++ uniqueScan (dropRun q.2 rest)).length) := heqO
      have hinvO2 : InvWith s'
          { L with sz := ((l1 ++ [q]) ++ uniqueScan (dropRun q.2 rest)).length }
          ((l1 ++ [q]) ++ uniqueScan (dropRun q.2 rest)) := hinvO
      have hfrO2 : s'.fresh = s1.fresh := hfrO
      have hframeO2 : ∀ j,
          j ∉ ptrList { L with sz := L.sz - (runOf q.2 rest).length }
            ((l1 ++ [q]) ++ dropRun q.2 rest) →
          s'.heap j = s1.heap j := hframeO
      -- the Nodup decomposition isolating the destroyed run
      have hCsplit : ptrList L (l1 ++ q :: rest) =
          ((L.head :: l1.map Prod.fst ++ [q.1]) ++ (runOf q.2 rest).map Prod.fst) ++
            ((dropRun q.2 rest).map Prod.fst ++ [L.tail]) := by
        conv_lhs => rw [← runOf_append_dropRun q.2 rest]
        simp [ptrList]
      have hndC := List.nodup_append.mp (hCsplit ▸ hnd)
      have hndPre := List.nodup_append.mp hndC.1
      -- membership transfer from the shrunk pointer list into the original
      have hsubO : ∀ x, x ∈ ptrList { L with sz := L.sz - (runOf q.2 rest).length }
          ((l1 ++ [q]) ++ dropRun q.2 rest) → x ∈ ptrList L (l1 ++ q :: rest) := by
        intro x hx
        rcases mem_ptrList.mp hx with h | ⟨r, hr, he⟩ | h
        · exact mem_ptrList.mpr (Or.inl h)
        · rcases List.mem_append.mp hr with h1 | h1
          · rcases List.mem_append.mp h1 with h2 | h2
            · exact mem_ptrList.mpr (Or.inr (Or.inl ⟨r, List.mem_append_left _ h2, he⟩))
            · have : r = q := List.mem_singleton.mp h2
              subst this
              exact mem_ptrList.mpr (Or.inr (Or.inl
                ⟨r, List.mem_append_right _ (List.mem_cons_self _ _), he⟩))
          · exact mem_ptrList.mpr (Or.inr (Or.inl
              ⟨r, List.mem_append_right _ (List.mem_cons_of_mem _
                (dropRun_subset q.2 rest r h1)), he⟩))
        · exact mem_ptrList.mpr (Or.inr (Or.inr h))
      -- a destroyed node's address is not in the shrunk pointer list
      have hrunnot : ∀ r ∈ runOf q.2 rest,
          r.1 ∉ ptrList { L with sz := L.sz - (runOf q.2 rest).length }
            ((l1 ++ [q]) ++ dropRun q.2 rest) := by
        intro r hr hmem
        have hrm : r.1 ∈ (runOf q.2 rest).map Prod.fst := List.mem_map_of_mem _ hr
        rcases mem_ptrList.mp hmem with h | ⟨rr, hrr, he⟩ | h
        · exact hndPre.2.2 (List.mem_append_left _ (h ▸ List.mem_cons_self _ _)) hrm
        · rcases List.mem_append.mp hrr with h1 | h1
          · rcases List.mem_append.mp h1 with h2 | h2
            · exact hndPre.2.2 (List.mem_append_left _ (List.mem_cons_of_mem _
                (he ▸ List.mem_map_of_mem _ h2))) hrm
            · have : rr = q := List.mem_singleton.mp h2
              subst this
              exact hndPre.2.2 (List.mem_append_right _
                (he ▸ List.mem_singleton_self _)) hrm
          · exact hndC.2.2 (List.mem_append_right _ hrm)
              (List.mem_append_left _ (he ▸ List.mem_map_of_mem _ h1))
        · exact hndC.2.2 (List.mem_append_right _ hrm)
            (List.mem_append_right _ (h ▸ List.mem_singleton_self _))
      refine ⟨s', ?_, ?_, ?_, ?_, ?_⟩
      · -- evaluation down to the recursive call
        have hfq : frontPtr (q :: rest) L.tail = q.1 := rfl
        simp only [uniqueOuter, hfq]
        rw [if_neg (by simpa using hqtail)]
        simp only [hq0, hnext0, Einner]
        rw [heqO2, ← uniqueAux_eq_scan]
        simp [uniqueScan]
      · have hcontent : (l1 ++ [q]) ++ uniqueScan (dropRun q.2 rest) =
            l1 ++ uniqueScan (q :: rest) := by
          rw [← uniqueAux_eq_scan]
          simp [uniqueScan]
        rw [hcontent] at hinvO2
        exact hinvO2
      · rw [hfrO2, hfr1]
      · -- destroyed nodes
        intro r hr hnotin
        rcases List.mem_cons.mp hr with hr | hr
        · -- `r = q` is kept, contradiction with `hnotin`
          subst hr
          exact absurd (by simp [uniqueScan]) hnotin
        · have hr' : r ∈ runOf q.2 rest ++ dropRun q.2 rest := by
            rw [runOf_append_dropRun]; exact hr
          rcases List.mem_append.mp hr' with h1 | h1
          · rw [hframeO2 _ (hrunnot r h1)]
            exact hfreed1 r h1
          · refine hfreedO r h1 ?_
            intro hmem
            refine hnotin ?_
            rw [← uniqueAux_eq_scan] at hmem
            simp only [uniqueScan, List.map_cons]
            exact List.mem_cons_of_mem _ hmem
      · -- frame
        intro j hj
        rw [hframeO2 j (fun hx => hj (hsubO _ hx))]
        exact hframe1 j hj

/-- `unique()`: keeps only the first node of each maximal run of equal
consecutive values (equality tested as the negation of `!=`), destroys
the rest, keeps the count in sync, and is a no-op for counts 0 and 1. -/
theorem uniqueOp_spec [DecidableEq T] {s : State T} {L : LMeta} {l : List (Nat × T)}
    (hI : InvWith s L l) :
    ∃ s', uniqueOp s L = some (s', { L with sz := (uniqueScan l).length }) ∧
      InvWith s' { L with sz := (uniqueScan l).length } (uniqueScan l) ∧
      s'.fresh = s.fresh ∧
      (∀ r ∈ l, r.1 ∉ (uniqueScan l).map Prod.fst → s'.heap r.1 = none) ∧
      ∀ j, j ∉ ptrList L l → s'.heap j = s.heap j := by
  obtain ⟨hnd, hch, hhp, hhv, htn, htv, hvals, hsz, hfr⟩ := hI
  have hImk : InvWith s L l := ⟨hnd, hch, hhp, hhv, htn, htv, hvals, hsz, hfr⟩
  by_cases hsz1 : L.sz ≤ 1
  · have hscan : uniqueScan l = l := uniqueScan_short l (by rw [← hsz]; exact hsz1)
    refine ⟨s, ?_, ?_, rfl, ?_, fun j _ => rfl⟩
    · rw [hscan, ← hsz]
      simp [uniqueOp, hsz1]
    · rw [hscan, ← hsz]
      exact hImk
    · intro r hr hn
      refine absurd ?_ hn
      rw [hscan]
      exact List.mem_map_of_mem _ hr
  · have hI0 : InvWith s L ([] ++ l) := hImk
    have hseam : links s.heap L.head (frontPtr l L.tail) :=
      invWith_links_at [] l hI0
    obtain ⟨hn2, hh2, hnext2⟩ := bind_next_some hseam.1
    obtain ⟨s', Eouter, hinvO, hfrO, hfreedO, hframeO⟩ :=
      uniqueOuter_spec (L.sz + 1) l (L.sz + 1) [] hI0
        (by rw [← hsz]; omega) (by rw [← hsz]; omega)
    have Eouter2 : uniqueOuter (L.sz + 1) (L.sz + 1) s L.tail
        (some (frontPtr l L.tail)) L.sz = some (s', (uniqueScan l).length) := Eouter
    have hinv2 : InvWith s' { L with sz := (uniqueScan l).length } (uniqueScan l) := hinvO
    have hfreed2 : ∀ r ∈ l, r.1 ∉ (uniqueScan l).map Prod.fst → s'.heap r.1 = none :=
      hfreedO
    have hframe2 : ∀ j, j ∉ ptrList L l → s'.heap j = s.heap j := hframeO
    refine ⟨s', ?_, hinv2, hfrO, hfreed2, hframe2⟩
    simp only [uniqueOp]
    rw [if_neg hsz1]
    simp only [hh2, hnext2, Eouter2]

/-! ## `sort()` -/

theorem bind_prev_of_map {h : Heap T} {b : Nat} {x : Option Nat}
    (hm : (h b).map Node.prev = some x) : (h b).bind Node.prev = x := by
  cases hh : h b with
  | none => rw [hh] at hm; simp at hm
  | some nd =>
    rw [hh] at hm
    simp only [Option.map_some', Option.some_inj] at hm
    simp [hm]

theorem bind_next_of_map {h : Heap T} {b : Nat} {x : Option Nat}
    (hm : (h b).map Node.next = some x) : (h b).bind Node.next = x := by
  cases hh : h b with
  | none => rw [hh] at hm; simp at hm
  | some nd =>
    rw [hh] at hm
    simp only [Option.map_some', Option.some_inj] at hm
    simp [hm]

/-- The collection loop of `sort()` gathers the interior addresses in
chain order without touching the heap. -/
theorem collectLoop_spec : ∀ (l2 l1 : List (Nat × T)) {s : State T}
    {L : LMeta} (fuel : Nat),
    InvWith s L (l1 ++ l2) → l2.length < fuel →
    collectLoop fuel s.heap L.tail (some (frontPtr l2 L.tail)) = some (l2.map Prod.fst) := by
  intro l2
  induction l2 with
  | nil =>
    intro l1 s L fuel hI hf
    obtain ⟨f, rfl⟩ : ∃ f, fuel = f + 1 := ⟨fuel - 1, by omega⟩
    simp [collectLoop, frontPtr]
  | cons q rest ih =>
    intro l1 s L fuel hI hf
    obtain ⟨f, rfl⟩ : ∃ f, fuel = f + 1 := ⟨fuel - 1, by omega⟩
    have hqtail : q.1 ≠ L.tail :=
      (invWith_mem_ne hI (List.mem_append_right _ (List.mem_cons_self _ _))).2
    have hseam : links s.heap q.1 (frontPtr rest L.tail) := by
      have hassoc : l1 ++ q :: rest = (l1 ++ [q]) ++ rest := by simp
      have h := invWith_links_at (l1 ++ [q]) rest (hassoc ▸ hI)
      rwa [backPtr_concat] at h
    obtain ⟨nn, hq, hnext⟩ := bind_next_some hseam.1
    have hrec := ih (l1 ++ [q]) f
      (by rw [show (l1 ++ [q]) ++ rest = l1 ++ q :: rest by simp]; exact hI)
      (by simp at hf; omega)
    have hfq : frontPtr (q :: rest) L.tail = q.1 := rfl
    simp only [collectLoop, hfq]
    rw [if_neg (by simpa using hqtail)]
    simp only [hq, hnext, hrec, Option.map_some', List.map_cons]

/-- A permutation of the addresses of a pair list lifts to a permutation
of the pairs themselves. -/
theorem perm_map_fst_lift : ∀ (arr : List Nat) (l : List (Nat × T)),
    arr.Perm (l.map Prod.fst) →
    ∃ l' : List (Nat × T), l'.Perm l ∧ l'.map Prod.fst = arr := by
  intro arr
  induction arr with
  | nil =>
    intro l hp
    have h0 : l.map Prod.fst = [] := hp.symm.eq_nil
    rw [List.map_eq_nil_iff.mp h0]
    exact ⟨[], List.Perm.refl _, rfl⟩
  | cons a arr' ih =>
    intro l hp
    have ha : a ∈ l.map Prod.fst := hp.subset (List.mem_cons_self _ _)
    obtain ⟨r, hrmem, hr1⟩ := List.mem_map.mp ha
    obtain ⟨pre, suf, rfl⟩ := List.append_of_mem hrmem
    have hp2 : (a :: arr').Perm (a :: (pre.map Prod.fst ++ suf.map Prod.fst)) := by
      refine hp.trans ?_
      rw [List.map_append, List.map_cons, hr1]
      exact List.perm_middle
    have hp3 : arr'.Perm ((pre ++ suf).map Prod.fst) := by
      rw [List.map_append]
      exact hp2.cons_inv
    obtain ⟨l'', hperm'', hmap''⟩ := ih (pre ++ suf) hp3
    refine ⟨r :: l'', ?_, ?_⟩
    · exact (hperm''.cons r).trans List.perm_middle.symm
    · rw [List.map_cons, hmap'', hr1]

/-- One insertion step of the modelled comparison sort succeeds and
permutes when the comparator answers on every needed pair. -/
theorem insertSorted_perm {cmp : Nat → Nat → Option Bool} (x : Nat) :
    ∀ (ys : List Nat), (∀ y ∈ ys, ∃ b, cmp x y = some b) →
    ∃ out, insertSorted cmp x ys = some out ∧ out.Perm (x :: ys) := by
  intro ys
  induction ys with
  | nil => intro _; exact ⟨[x], rfl, List.Perm.refl _⟩
  | cons y rest ih =>
    intro htot
    obtain ⟨b, hb⟩ := htot y (List.mem_cons_self _ _)
    cases b with
    | false =>
      obtain ⟨out', ho', hp'⟩ := ih (fun z hz => htot z (List.mem_cons_of_mem _ hz))
      refine ⟨y :: out', ?_, ?_⟩
      · simp [insertSorted, hb, ho']
      · exact (hp'.cons y).trans (List.Perm.swap _ _ _)
    | true =>
      refine ⟨x :: y :: rest, ?_, List.Perm.refl _⟩
      simp [insertSorted, hb]

/-- The modelled comparison sort succeeds and returns a permutation when
the comparator answers on every pair of inputs. -/
theorem sortIds_perm {cmp : Nat → Nat → Option Bool} :
    ∀ (ids : List Nat), (∀ a ∈ ids, ∀ b ∈ ids, ∃ r, cmp a b = some r) →
    ∃ out, sortIds cmp ids = some out ∧ out.Perm ids := by
  intro ids
  induction ids with
  | nil => intro _; exact ⟨[], rfl, List.Perm.refl _⟩
  | cons x rest ih =>
    intro htot
    obtain ⟨sorted, hs, hps⟩ :=
      ih (fun a ha b hb => htot a (List.mem_cons_of_mem _ ha) b (List.mem_cons_of_mem _ hb))
    obtain ⟨out, ho, hpo⟩ := insertSorted_perm x sorted
      (fun y hy => htot x (List.mem_cons_self _ _) y (List.mem_cons_of_mem _ (hps.subset hy)))
    refine ⟨out, ?_, hpo.trans (hps.cons x)⟩
    simp [sortIds, hs, ho]

/-- The relink loop of `sort()`: starting from the node `a`, it rewrites
the forward and backward links to follow the array order `ids`, touching
no value and no address outside `a :: ids`, and leaving `a`'s prev and
the last node's next as they were. -/
theorem relinkLoop_spec : ∀ (ids : List Nat) (s : State T) (a : Nat) (an : Node T),
    s.heap a = some an →
    (∀ x ∈ ids, ∃ nd, s.heap x = some nd) →
    (a :: ids).Nodup →
    ∃ s', relinkLoop s a ids = some s' ∧ s'.fresh = s.fresh ∧
      List.Chain' (links s'.heap) (a :: ids) ∧
      (∀ j, j ∉ a :: ids → s'.heap j = s.heap j) ∧
      (∀ j, (s'.heap j).map Node.val = (s.heap j).map Node.val) ∧
      (s'.heap a).map Node.prev = (s.heap a).map Node.prev ∧
      (s'.heap (ids.getLastD a)).map Node.next =
        (s.heap (ids.getLastD a)).map Node.next := by
  intro ids
  induction ids with
  | nil =>
    intro s a an ha hlive hnd
    exact ⟨s, rfl, rfl, List.chain'_singleton _, fun j _ => rfl, fun j => rfl, rfl, rfl⟩
  | cons b rest ih =>
    intro s a an ha hlive hnd
    obtain ⟨bn, hb⟩ := hlive b (List.mem_cons_self _ _)
    have hab : a ≠ b := by
      have h1 := (List.nodup_cons.mp hnd).1
      exact fun he => h1 (he ▸ List.mem_cons_self _ _)
    have hanotin : a ∉ b :: rest := (List.nodup_cons.mp hnd).1
    have hnd' : (b :: rest).Nodup := (List.nodup_cons.mp hnd).2
    have hs1b : (s.heap.set a { an with next := some b }) b = some bn := by
      rw [Heap.set_ne _ (Ne.symm hab), hb]
    have hlive' : ∀ x ∈ rest, ∃ nd,
        ((s.heap.set a { an with next := some b }).set b { bn with prev := some a }) x =
          some nd := by
      intro x hx
      have hxb : x ≠ b := fun he => (List.nodup_cons.mp hnd').1 (he ▸ hx)
      have hxa : x ≠ a := fun he => hanotin (he ▸ List.mem_cons_of_mem _ hx)
      rw [Heap.set_ne _ hxb, Heap.set_ne _ hxa]
      exact hlive x (List.mem_cons_of_mem _ hx)
    obtain ⟨s', heq, hfr, hchain, hframe, hvalsP, hprevb, hlastn⟩ :=
      ih ⟨(s.heap.set a { an with next := some b }).set b { bn with prev := some a },
          s.fresh⟩
        b { bn with prev := some a } (Heap.set_same _ _ _) hlive' hnd'
    have hval2 : ∀ j, (((s.heap.set a { an with next := some b }).set b
        { bn with prev := some a }) j).map Node.val = (s.heap j).map Node.val := by
      intro j
      by_cases hjb : j = b
      · subst hjb; rw [Heap.set_same, hb]; rfl
      · rw [Heap.set_ne _ hjb]
        by_cases hja : j = a
        · subst hja; rw [Heap.set_same, ha]; rfl
        · rw [Heap.set_ne _ hja]
    have hs'a : s'.heap a = some { an with next := some b } := by
      rw [hframe a hanotin]
      show (s.heap.set a { an with next := some b }).set b { bn with prev := some a } a =
        some { an with next := some b }
      rw [Heap.set_ne _ hab, Heap.set_same]
    refine ⟨s', ?_, hfr, ?_, ?_, ?_, ?_, ?_⟩
    · show relinkLoop s a (b :: rest) = some s'
      simp only [relinkLoop, Option.bind_eq_bind]
      rw [writeNext_eq s ha]
      simp only [Option.some_bind]
      rw [writePrev_eq _ (show ({ s with heap := s.heap.set a { an with next := some b } } :
        State T).heap b = some bn from hs1b)]
      simp only [Option.some_bind]
      exact heq
    · refine List.chain'_cons.mpr ⟨?_, hchain⟩
      constructor
      · rw [hs'a]; rfl
      · refine bind_prev_of_map ?_
        rw [hprevb]
        show Option.map Node.prev ((s.heap.set a { an with next := some b }).set b
          { bn with prev := some a } b) = some (some a)
        rw [Heap.set_same]
        rfl
    · intro j hj
      have hj1 : j ∉ b :: rest := fun he => hj (List.mem_cons_of_mem _ he)
      have hja : j ≠ a := fun he => hj (he ▸ List.mem_cons_self _ _)
      have hjb : j ≠ b := fun he => hj1 (he ▸ List.mem_cons_self _ _)
      rw [hframe j hj1]
      show (s.heap.set a { an with next := some b }).set b { bn with prev := some a } j =
        s.heap j
      rw [Heap.set_ne _ hjb, Heap.set_ne _ hja]
    · intro j
      rw [hvalsP j]
      show Option.map Node.val ((s.heap.set a { an with next := some b }).set b
        { bn with prev := some a } j) = Option.map Node.val (s.heap j)
      exact hval2 j
    · rw [hs'a, ha]; rfl
    · rw [List.getLastD_cons]
      rw [hlastn]
      show Option.map Node.next ((s.heap.set a { an with next := some b }).set b
          { bn with prev := some a } (rest.getLastD b)) =
        Option.map Node.next (s.heap (rest.getLastD b))
      rcases List.mem_cons.mp (getLastD_mem rest b) with hlb | hlb
      · rw [hlb, Heap.set_same, hb]; rfl
      · have hlbb : rest.getLastD b ≠ b := by
          intro he
          exact (List.nodup_cons.mp hnd').1 (he ▸ hlb)
        have hlba : rest.getLastD b ≠ a := by
          intro he
          exact hanotin (he ▸ List.mem_cons_of_mem _ hlb)
        rw [Heap.set_ne _ hlbb, Heap.set_ne _ hlba]

/-- `sort()` succeeds on every valid list: it relinks the chain following
a permutation of the original nodes (each value stays attached to its
node), preserves the structural invariant with the meta unchanged,
allocates and destroys nothing, and changes no address outside the
original chain. -/
theorem sortOp_spec [LT T] [DecidableRel (α := T) (· < ·)] {s : State T} {L : LMeta}
    {l : List (Nat × T)} (hI : InvWith s L l) :
    ∃ s' l', sortOp s L = some s' ∧ List.Perm l' l ∧ InvWith s' L l' ∧
      s'.fresh = s.fresh ∧
      ∀ j, j ∉ ptrList L l → s'.heap j = s.heap j := by
  obtain ⟨hnd, hch, hhp, hhv, htn, htv, hvals, hsz, hfr⟩ := hI
  have hImk : InvWith s L l := ⟨hnd, hch, hhp, hhv, htn, htv, hvals, hsz, hfr⟩
  by_cases hsz1 : L.sz ≤ 1
  · refine ⟨s, l, ?_, List.Perm.refl _, hImk, rfl, fun j _ => rfl⟩
    simp [sortOp, hsz1]
  · have hI0 : InvWith s L ([] ++ l) := hImk
    obtain ⟨hn0, hh0, hnext0⟩ :=
      bind_next_some (invWith_links_at [] l hI0).1
    have hcol : collectLoop (L.sz + 1) s.heap L.tail (some (frontPtr l L.tail)) =
        some (l.map Prod.fst) :=
      collectLoop_spec l [] (L.sz + 1) hI0 (by rw [hsz]; omega)
    have hlen' : (l.map Prod.fst).length = L.sz := by rw [List.length_map, hsz]
    have htot : ∀ a ∈ l.map Prod.fst, ∀ b ∈ l.map Prod.fst,
        ∃ r, nodeLt s.heap a b = some r := by
      intro a ha b hb
      obtain ⟨ra, hra, hra1⟩ := List.mem_map.mp ha
      obtain ⟨rb, hrb, hrb1⟩ := List.mem_map.mp hb
      obtain ⟨na, hna, hnav⟩ := map_val_some (hvals ra hra)
      obtain ⟨nb, hnb, hnbv⟩ := map_val_some (hvals rb hrb)
      subst hra1
      subst hrb1
      exact ⟨decide (ra.2 < rb.2), by simp [nodeLt, hna, hnb, hnav, hnbv]⟩
    obtain ⟨arr, hsort, hparr⟩ := sortIds_perm (l.map Prod.fst) htot
    have harrlen : arr.length = L.sz := by rw [hparr.length_eq, hlen']
    obtain ⟨a0, rest, rfl⟩ : ∃ a0 rest, arr = a0 :: rest := by
      cases arr with
      | nil => exfalso; rw [List.length_nil] at harrlen; omega
      | cons a0 rest => exact ⟨a0, rest, rfl⟩
    have hndP := List.nodup_append.mp hnd
    have hndHI : (L.head :: l.map Prod.fst).Nodup := hndP.1
    have hmemHA : ∀ x, x ∈ L.head :: a0 :: rest ↔ x ∈ L.head :: l.map Prod.fst :=
      fun x => (hparr.cons L.head).mem_iff
    have hndarr : (L.head :: a0 :: rest).Nodup := (hparr.cons L.head).nodup_iff.mpr hndHI
    have htailni : L.tail ∉ L.head :: l.map Prod.fst :=
      fun he => hndP.2.2 he (List.mem_singleton_self _)
    have htailarr : L.tail ∉ L.head :: a0 :: rest := fun he => htailni ((hmemHA _).mp he)
    have hliveAll : ∀ x ∈ L.head :: l.map Prod.fst, ∃ nd, s.heap x = some nd := by
      intro x hx
      rcases List.mem_cons.mp hx with h | h
      · exact ⟨hn0, h ▸ hh0⟩
      · obtain ⟨r, hr, hr1⟩ := List.mem_map.mp h
        obtain ⟨nd, hnd2, -⟩ := map_val_some (hvals r hr)
        exact ⟨nd, hr1 ▸ hnd2⟩
    have hlive : ∀ x ∈ a0 :: rest, ∃ nd, s.heap x = some nd :=
      fun x hx => hliveAll x ((hmemHA x).mp (List.mem_cons_of_mem _ hx))
    obtain ⟨s1, hrel, hfr1, hchain1, hframe1, hvals1, hprevh, hlastn⟩ :=
      relinkLoop_spec (a0 :: rest) s L.head hn0 hh0 hlive hndarr
    have hlgc : (a0 :: rest).getLastD L.head = rest.getLastD a0 := List.getLastD_cons _ _ _
    rw [hlgc] at hlastn
    have hlastmem : rest.getLastD a0 ∈ a0 :: rest := getLastD_mem rest a0
    have hheadni : L.head ∉ a0 :: rest := (List.nodup_cons.mp hndarr).1
    have hlastmemI : rest.getLastD a0 ∈ l.map Prod.fst := by
      have hm := (hmemHA _).mp (List.mem_cons_of_mem _ hlastmem)
      rcases List.mem_cons.mp hm with h | h
      · exact absurd (h ▸ hlastmem) hheadni
      · exact h
    obtain ⟨rL, hrL, hrL1⟩ := List.mem_map.mp hlastmemI
    have hvLs : (s.heap (rest.getLastD a0)).map Node.val = some (some rL.2) := by
      rw [← hrL1]; exact hvals rL hrL
    obtain ⟨ln, hln, hlnv⟩ := map_val_some
      (show (s1.heap (rest.getLastD a0)).map Node.val = some (some rL.2) from by
        rw [hvals1]; exact hvLs)
    obtain ⟨tn, htl, htnval⟩ := map_val_some htv
    have htnn : tn.next = none := by
      have h := htn; rw [htl] at h; simpa using h
    have hlastnh : rest.getLastD a0 ≠ L.head := fun he => hheadni (he ▸ hlastmem)
    have hlasttail : rest.getLastD a0 ≠ L.tail :=
      fun he => htailarr (he ▸ List.mem_cons_of_mem _ hlastmem)
    have htails1 : s1.heap L.tail = some tn := by rw [hframe1 _ htailarr]; exact htl
    set h3 : Heap T := (s1.heap.set (rest.getLastD a0)
        { ln with next := some L.tail }).set L.tail
        { tn with prev := some (rest.getLastD a0) } with hh3
    have hS3last : h3 (rest.getLastD a0) = some { ln with next := some L.tail } := by
      rw [hh3, Heap.set_ne _ hlasttail, Heap.set_same]
    have hS3tail : h3 L.tail = some { tn with prev := some (rest.getLastD a0) } :=
      Heap.set_same _ _ _
    have hS3other : ∀ j, j ≠ L.tail → j ≠ rest.getLastD a0 → h3 j = s1.heap j := by
      intro j h1 h2
      rw [hh3, Heap.set_ne _ h1, Heap.set_ne _ h2]
    have hNA3 : ∀ i, i ≠ rest.getLastD a0 → nextAgrees s1.heap h3 i := by
      intro i hi
      by_cases hit : i = L.tail
      · subst hit
        unfold nextAgrees
        rw [hS3tail, htails1]
        rfl
      · unfold nextAgrees
        rw [hS3other i hit hi]
    have hPA3 : ∀ i, i ≠ L.tail → prevAgrees s1.heap h3 i := by
      intro i hit
      by_cases hi : i = rest.getLastD a0
      · subst hi
        unfold prevAgrees
        rw [hS3last, hln]
        rfl
      · unfold prevAgrees
        rw [hS3other i hit hi]
    have hval3 : ∀ j, j ≠ L.tail → (h3 j).map Node.val = (s.heap j).map Node.val := by
      intro j hjt
      by_cases hjl : j = rest.getLastD a0
      · subst hjl
        rw [hS3last, ← hvals1, hln]
        rfl
      · rw [hS3other j hjt hjl]
        exact hvals1 j
    have hgl : (L.head :: a0 :: rest).getLast (by simp) = rest.getLastD a0 := by
      have h2 := List.getLast?_eq_getLast_of_ne_nil
        (l := L.head :: a0 :: rest) (by simp)
      rw [getLast?_cons_eq] at h2
      have h4 : (a0 :: rest).getLastD L.head = (L.head :: a0 :: rest).getLast (by simp) :=
        Option.some_injective _ h2
      rw [← h4, List.getLastD_cons]
    have hlastdrop : rest.getLastD a0 ∉ (L.head :: a0 :: rest).dropLast := by
      rw [← hgl]
      exact getLast_not_mem_dropLast (by simp) hndarr
    obtain ⟨l', hl'perm, hl'map⟩ := perm_map_fst_lift (a0 :: rest) l hparr
    refine ⟨⟨h3, s1.fresh⟩, l', ?_, hl'perm, ?_, hfr1, ?_⟩
    · -- evaluation
      have hh0' : s.heap L.head = some hn0 := hh0
      have htlk : ({ s1 with
          heap := s1.heap.set (rest.getLastD a0) { ln with next := some L.tail } } :
            State T).heap L.tail = some tn := by
        show (s1.heap.set (rest.getLastD a0) { ln with next := some L.tail }) L.tail =
          some tn
        rw [Heap.set_ne _ (Ne.symm hlasttail)]
        exact htails1
      simp only [sortOp]
      rw [if_neg hsz1]
      simp only [hh0', hnext0, hcol]
      rw [if_pos hlen']
      simp only [hsort, hrel, Option.bind_eq_bind, Option.some_bind, List.getLastD_cons]
      rw [writeNext_eq s1 hln]
      simp only [Option.some_bind]
      rw [writePrev_eq _ htlk]
      simp only [Option.some_bind, Option.pure_def]
    · -- the invariant for the relinked content
      refine ⟨?_, ?_, ?_, ?_, ?_, ?_, ?_, ?_, ?_⟩
      · show (ptrList L l').Nodup
        rw [ptrList, hl'map]
        refine List.nodup_append.mpr ⟨hndarr, by simp, ?_⟩
        intro x hx hx2
        rw [List.mem_singleton] at hx2
        exact htailarr (hx2 ▸ hx)
      · show List.Chain' (links h3) (ptrList L l')
        rw [ptrList, hl'map]
        refine List.chain'_append.mpr ⟨?_, List.chain'_singleton _, ?_⟩
        · refine chain'_links_step (fun i hi => ?_) (fun i hi => ?_) hchain1
          · exact hNA3 i (fun he => hlastdrop (he ▸ hi))
          · exact hPA3 i (fun he => htailarr (he ▸ List.mem_cons_of_mem _ hi))
        · intro x hx y hy
          rw [getLast?_cons_eq, Option.mem_some_iff] at hx
          simp only [List.head?_cons, Option.mem_some_iff] at hy
          subst hy
          rw [List.getLastD_cons] at hx
          subst hx
          constructor
          · rw [hS3last]; rfl
          · rw [hS3tail]; rfl
      · show (h3 L.head).map Node.prev = some none
        rw [hS3other L.head (invWith_head_ne_tail hImk) (Ne.symm hlastnh), hprevh]
        exact hhp
      · show (h3 L.head).map Node.val = some none
        rw [hval3 L.head (invWith_head_ne_tail hImk)]
        exact hhv
      · show (h3 L.tail).map Node.next = some none
        rw [hS3tail]
        simp [htnn]
      · show (h3 L.tail).map Node.val = some none
        rw [hS3tail]
        simp [htnval]
      · intro q hq
        have hql : q ∈ l := hl'perm.subset hq
        have hqt : q.1 ≠ L.tail := (invWith_mem_ne hImk hql).2
        show (h3 q.1).map Node.val = some (some q.2)
        rw [hval3 q.1 hqt]
        exact hvals q hql
      · show L.sz = l'.length
        rw [hl'perm.length_eq, hsz]
      · intro i hi
        show i < s1.fresh
        rw [hfr1]
        rw [ptrList, hl'map] at hi
        rcases List.mem_append.mp hi with h | h
        · have h2 := (hmemHA i).mp h
          rcases List.mem_cons.mp h2 with h3x | h3x
          · exact hfr i (h3x ▸ mem_ptrList_head L l)
          · refine hfr i ?_
            exact List.mem_append_left _ (List.mem_cons_of_mem _ h3x)
        · rw [List.mem_singleton] at h
          exact hfr i (h ▸ mem_ptrList_tail L l)
    · -- frame
      intro j hj
      have hjt : j ≠ L.tail := fun he => hj (he ▸ mem_ptrList_tail L l)
      have hjha : j ∉ L.head :: a0 :: rest := by
        intro hmem
        have h2 := (hmemHA j).mp hmem
        rcases List.mem_cons.mp h2 with h3x | h3x
        · exact hj (h3x ▸ mem_ptrList_head L l)
        · exact hj (List.mem_append_left _ (List.mem_cons_of_mem _ h3x))
      have hjl : j ≠ rest.getLastD a0 :=
        fun he => hjha (he ▸ List.mem_cons_of_mem _ hlastmem)
      show h3 j = s.heap j
      rw [hS3other j hjt hjl]
      exact hframe1 j hjha

/-! ## `merge()`: content-level lemmas -/

theorem mergeLeft_nil_right [LT T] [DecidableRel (α := T) (· < ·)] (la : List (Nat × T)) :
    mergeLeft la [] = [] := by
  cases la <;> simp [mergeLeft]

theorem mergeLeft_nil_left [LT T] [DecidableRel (α := T) (· < ·)] (lb : List (Nat × T)) :
    mergeLeft [] lb = lb := by
  simp [mergeLeft]

theorem mergeLoopAbs_nil_left [LT T] [DecidableRel (α := T) (· < ·)]
    (lb : List (Nat × T)) : mergeLoopAbs [] lb = [] := by
  simp [mergeLoopAbs]

theorem mergeLoopAbs_nil_right [LT T] [DecidableRel (α := T) (· < ·)]
    (la : List (Nat × T)) : mergeLoopAbs la [] = la := by
  cases la <;> simp [mergeLoopAbs]

theorem mergeAbs_decomp [LT T] [DecidableRel (α := T) (· < ·)] :
    ∀ la lb : List (Nat × T), mergeAbs la lb = mergeLoopAbs la lb ++ mergeLeft la lb := by
  intro la lb
  induction la, lb using mergeAbs.induct with
  | case1 lb => simp [mergeAbs, mergeLoopAbs, mergeLeft]
  | case2 a la => simp [mergeAbs, mergeLoopAbs, mergeLeft]
  | case3 a la b lb hlt ih =>
    simp only [mergeAbs, mergeLoopAbs, mergeLeft, if_pos hlt, ih, List.cons_append]
  | case4 a la b lb hlt ih =>
    simp only [mergeAbs, mergeLoopAbs, mergeLeft, if_neg hlt, ih, List.cons_append]

theorem mergeLeft_length_le [LT T] [DecidableRel (α := T) (· < ·)] :
    ∀ la lb : List (Nat × T), (mergeLeft la lb).length ≤ lb.length := by
  intro la lb
  induction la, lb using mergeLeft.induct with
  | case1 lb => simp [mergeLeft]
  | case2 a la => simp [mergeLeft]
  | case3 a la b lb hlt ih =>
    simp only [mergeLeft, if_pos hlt]
    exact le_trans ih (by simp)
  | case4 a la b lb hlt ih =>
    simp only [mergeLeft, if_neg hlt]
    exact ih

theorem mergeAbs_perm [LT T] [DecidableRel (α := T) (· < ·)] :
    ∀ la lb : List (Nat × T), (mergeAbs la lb).Perm (la ++ lb) := by
  intro la lb
  induction la, lb using mergeAbs.induct with
  | case1 lb => simp [mergeAbs]
  | case2 a la => simp [mergeAbs]
  | case3 a la b lb hlt ih =>
    rw [show mergeAbs (a :: la) (b :: lb) = b :: mergeAbs (a :: la) lb from by
      simp only [mergeAbs, if_pos hlt]]
    exact (ih.cons b).trans List.perm_middle.symm
  | case4 a la b lb hlt ih =>
    rw [show mergeAbs (a :: la) (b :: lb) = a :: mergeAbs la (b :: lb) from by
      simp only [mergeAbs, if_neg hlt]]
    exact ih.cons a

/-- Merging two ascending contents yields an ascending content. -/
theorem mergeAbs_pairwise [LinearOrder T] :
    ∀ la lb : List (Nat × T),
    List.Pairwise (fun x y : Nat × T => x.2 ≤ y.2) la →
    List.Pairwise (fun x y : Nat × T => x.2 ≤ y.2) lb →
    List.Pairwise (fun x y : Nat × T => x.2 ≤ y.2) (mergeAbs la lb) := by
  intro la lb
  induction la, lb using mergeAbs.induct with
  | case1 lb => intro _ h; simpa [mergeAbs] using h
  | case2 a la => intro h _; simpa [mergeAbs] using h
  | case3 a la b lb hlt ih =>
    intro ha hb
    rw [show mergeAbs (a :: la) (b :: lb) = b :: mergeAbs (a :: la) lb from by
      simp only [mergeAbs, if_pos hlt]]
    refine List.pairwise_cons.mpr ⟨?_, ih ha (List.pairwise_cons.mp hb).2⟩
    intro y hy
    have hy2 := (mergeAbs_perm (a :: la) lb).subset hy
    rcases List.mem_append.mp hy2 with h | h
    · rcases List.mem_cons.mp h with h | h
      · rw [h]; exact le_of_lt hlt
      · exact le_of_lt (lt_of_lt_of_le hlt ((List.pairwise_cons.mp ha).1 y h))
    · exact (List.pairwise_cons.mp hb).1 y h
  | case4 a la b lb hlt ih =>
    intro ha hb
    have hab : a.2 ≤ b.2 := le_of_not_lt hlt
    rw [show mergeAbs (a :: la) (b :: lb) = a :: mergeAbs la (b :: lb) from by
      simp only [mergeAbs, if_neg hlt]]
    refine List.pairwise_cons.mpr ⟨?_, ih (List.pairwise_cons.mp ha).2 hb⟩
    intro y hy
    have hy2 := (mergeAbs_perm la (b :: lb)).subset hy
    rcases List.mem_append.mp hy2 with h | h
    · exact (List.pairwise_cons.mp ha).1 y h
    · rcases List.mem_cons.mp h with h | h
      · rw [h]; exact hab
      · exact le_trans hab ((List.pairwise_cons.mp hb).1 y h)

/-- Stability of the merge: an element of `other` ends up in front of an
element of `this` only when its value is strictly less — on ties the
`this`-side element comes first. -/
theorem mergeAbs_stable [LinearOrder T] :
    ∀ la lb : List (Nat × T),
    List.Pairwise (fun x y : Nat × T => x.2 ≤ y.2) la →
    la.Nodup → lb.Nodup →
    (∀ x ∈ la, x ∉ lb) →
    ∀ u b v, mergeAbs la lb = u ++ b :: v → b ∈ lb →
    ∀ a ∈ v, a ∈ la → b.2 < a.2 := by
  intro la lb
  induction la, lb using mergeAbs.induct with
  | case1 lb =>
    intro _ _ _ _ u b v hsplit hbin a hav hala
    exact absurd hala (List.not_mem_nil _)
  | case2 a0 la =>
    intro _ _ _ _ u b v hsplit hbin a hav hala
    exact absurd hbin (List.not_mem_nil _)
  | case3 a0 la b0 lb hlt ih =>
    intro hsorted hna hnb hdisj u b v hsplit hbin a hav hala
    rw [show mergeAbs (a0 :: la) (b0 :: lb) = b0 :: mergeAbs (a0 :: la) lb from by
      simp only [mergeAbs, if_pos hlt]] at hsplit
    cases u with
    | nil =>
      simp only [List.nil_append] at hsplit
      injection hsplit with h1 h2
      subst h1
      subst h2
      rcases List.mem_cons.mp hala with h | h
      · rw [h]; exact hlt
      · exact lt_of_lt_of_le hlt ((List.pairwise_cons.mp hsorted).1 a h)
    | cons u0 u' =>
      simp only [List.cons_append] at hsplit
      injection hsplit with h1 h2
      have hbM : b ∈ mergeAbs (a0 :: la) lb := by
        rw [h2]; exact List.mem_append_right _ (List.mem_cons_self _ _)
      have hsub := (mergeAbs_perm (a0 :: la) lb).subset hbM
      have hbinlb : b ∈ lb := by
        rcases List.mem_append.mp hsub with h | h
        · exact absurd hbin (hdisj b h)
        · exact h
      exact ih hsorted hna (List.nodup_cons.mp hnb).2
        (fun x hx hxin => hdisj x hx (List.mem_cons_of_mem _ hxin))
        u' b v h2 hbinlb a hav hala
  | case4 a0 la b0 lb hlt ih =>
    intro hsorted hna hnb hdisj u b v hsplit hbin a hav hala
    rw [show mergeAbs (a0 :: la) (b0 :: lb) = a0 :: mergeAbs la (b0 :: lb) from by
      simp only [mergeAbs, if_neg hlt]] at hsplit
    cases u with
    | nil =>
      simp only [List.nil_append] at hsplit
      injection hsplit with h1 h2
      exact absurd hbin (h1 ▸ hdisj a0 (List.mem_cons_self _ _))
    | cons u0 u' =>
      simp only [List.cons_append] at hsplit
      injection hsplit with h1 h2
      rcases List.mem_cons.mp hala with haa | haa
      · exfalso
        have haM : a ∈ mergeAbs la (b0 :: lb) := by
          rw [h2]; exact List.mem_append_right _ (List.mem_cons_of_mem _ hav)
        have hsub := (mergeAbs_perm la (b0 :: lb)).subset haM
        rcases List.mem_append.mp hsub with h | h
        · exact (List.nodup_cons.mp hna).1 (haa ▸ h)
        · exact hdisj a (by rw [haa]; exact List.mem_cons_self _ _) h
      · exact ih (List.pairwise_cons.mp hsorted).2 (List.nodup_cons.mp hna).2 hnb
          (fun x hx => hdisj x (List.mem_cons_of_mem _ hx)) u' b v h2 hbin a hav haa

/-- The counting loop of `merge`'s remainder splice walks the forward
chain from `first` and counts the nodes up to and including `last`. -/
theorem countLoop_spec : ∀ (ids : List Nat) (x : Nat) (acc fuel : Nat) {h : Heap T},
    List.Chain' (nextLink h) (x :: ids) → (x :: ids).Nodup → ids.length < fuel →
    countLoop fuel h (some x) (some (ids.getLastD x)) acc =
      some (acc + ids.length + 1) := by
  intro ids
  induction ids with
  | nil =>
    intro x acc fuel h hch hnd hf
    obtain ⟨f, rfl⟩ : ∃ f, fuel = f + 1 := ⟨fuel - 1, by omega⟩
    simp [countLoop]
  | cons y ys ih =>
    intro x acc fuel h hch hnd hf
    obtain ⟨f, rfl⟩ : ∃ f, fuel = f + 1 := ⟨fuel - 1, by omega⟩
    have hmem : (y :: ys).getLastD x ∈ y :: ys := by
      rw [List.getLastD_cons]
      exact getLastD_mem ys y
    have hxl : x ≠ (y :: ys).getLastD x :=
      fun he => (List.nodup_cons.mp hnd).1 (he ▸ hmem)
    have hlink : nextLink h x y := (List.chain'_cons.mp hch).1
    obtain ⟨xn, hx, hxn⟩ := bind_next_some hlink
    have hrec := ih y (acc + 1) f (List.chain'_cons.mp hch).2
      (List.nodup_cons.mp hnd).2 (by simp at hf; omega)
    simp only [countLoop]
    rw [if_neg (by simpa using hxl)]
    simp only [hx, hxn, List.getLastD_cons]
    rw [hrec]
    simp only [List.length_cons]
    congr 1
    omega

/-- One splice step of `merge`'s main loop: the head `b` of `other`'s
remaining content is detached from `other` and linked in between the
already-merged part `da` and the remaining part `ra` of `this`.  Both
invariants survive (with counts adjusted), the chains stay disjoint, and
no other address changes. -/
theorem spliceStep_spec {s : State T} {A B : LMeta} (da ra rb2 : List (Nat × T))
    {b : Nat × T} {hB nF nb pnP nQ : Node T}
    (hIA : InvWith s A (da ++ ra)) (hIB : InvWith s B (b :: rb2))
    (hdisj : List.Disjoint (ptrList A (da ++ ra)) (ptrList B (b :: rb2)))
    (hhB : s.heap B.head = some hB)
    (hnF : s.heap (frontPtr rb2 B.tail) = some nF)
    (hnb : s.heap b.1 = some nb)
    (hpnP : s.heap (backPtr A.head da) = some pnP)
    (hnQ : s.heap (frontPtr ra A.tail) = some nQ) :
    InvWith ⟨spliceHeap s.heap B.head (frontPtr rb2 B.tail) b.1 (backPtr A.head da)
        (frontPtr ra A.tail) hB nF nb pnP nQ, s.fresh⟩
      { A with sz := A.sz + 1 } (da ++ b :: ra) ∧
    InvWith ⟨spliceHeap s.heap B.head (frontPtr rb2 B.tail) b.1 (backPtr A.head da)
        (frontPtr ra A.tail) hB nF nb pnP nQ, s.fresh⟩
      { B with sz := B.sz - 1 } rb2 ∧
    List.Disjoint (ptrList A (da ++ b :: ra)) (ptrList B rb2) ∧
    ∀ j, j ∉ ptrList A (da ++ ra) → j ∉ ptrList B (b :: rb2) →
      spliceHeap s.heap B.head (frontPtr rb2 B.tail) b.1 (backPtr A.head da)
        (frontPtr ra A.tail) hB nF nb pnP nQ j = s.heap j := by
  obtain ⟨hndA, hchA, hhpA, hhvA, htnA, htvA, hvalsA, hszA, hfrA⟩ := hIA
  obtain ⟨hndB, hchB, hhpB, hhvB, htnB, htvB, hvalsB, hszB, hfrB⟩ := hIB
  have hIAmk : InvWith s A (da ++ ra) :=
    ⟨hndA, hchA, hhpA, hhvA, htnA, htvA, hvalsA, hszA, hfrA⟩
  have hIBmk : InvWith s B (b :: rb2) :=
    ⟨hndB, hchB, hhpB, hhvB, htnB, htvB, hvalsB, hszB, hfrB⟩
  -- seams
  have hseamA : links s.heap (backPtr A.head da) (frontPtr ra A.tail) :=
    invWith_links_at da ra hIAmk
  have hseamB1 : links s.heap B.head b.1 :=
    invWith_links_at [] (b :: rb2)
      (show InvWith s B ([] ++ b :: rb2) from hIBmk)
  have hseamB2 : links s.heap b.1 (frontPtr rb2 B.tail) :=
    invWith_links_at [b] rb2
      (show InvWith s B ([b] ++ rb2) from hIBmk)
  -- link fields of the five nodes
  have hPn : pnP.next = some (frontPtr ra A.tail) := by
    have h := hseamA.1; rw [hpnP] at h; simpa using h
  have hQp : nQ.prev = some (backPtr A.head da) := by
    have h := hseamA.2; rw [hnQ] at h; simpa using h
  have hHn : hB.next = some b.1 := by
    have h := hseamB1.1; rw [hhB] at h; simpa using h
  have hbp : nb.prev = some B.head := by
    have h := hseamB1.2; rw [hnb] at h; simpa using h
  have hbn : nb.next = some (frontPtr rb2 B.tail) := by
    have h := hseamB2.1; rw [hnb] at h; simpa using h
  have hFp : nF.prev = some b.1 := by
    have h := hseamB2.2; rw [hnF] at h; simpa using h
  -- memberships
  have hPmem : backPtr A.head da ∈ ptrList A (da ++ ra) := backPtr_mem A da ra
  have hQmem : frontPtr ra A.tail ∈ ptrList A (da ++ ra) := frontPtr_mem A da ra
  have hHmem : B.head ∈ ptrList B (b :: rb2) := mem_ptrList_head B _
  have hbmem : b.1 ∈ ptrList B (b :: rb2) :=
    mem_ptrList_of_mem B (List.mem_cons_self _ _)
  have hFmem : frontPtr rb2 B.tail ∈ ptrList B (b :: rb2) := frontPtr_mem B [b] rb2
  have htailBmem : B.tail ∈ ptrList B (b :: rb2) := mem_ptrList_tail B _
  have htailAmem : A.tail ∈ ptrList A (da ++ ra) := mem_ptrList_tail A _
  have hheadAmem : A.head ∈ ptrList A (da ++ ra) := mem_ptrList_head A _
  -- cross-list distinctness
  have hPH : backPtr A.head da ≠ B.head := fun he => hdisj hPmem (he ▸ hHmem)
  have hPb : backPtr A.head da ≠ b.1 := fun he => hdisj hPmem (he ▸ hbmem)
  have hPF : backPtr A.head da ≠ frontPtr rb2 B.tail := fun he => hdisj hPmem (he ▸ hFmem)
  have hQH : frontPtr ra A.tail ≠ B.head := fun he => hdisj hQmem (he ▸ hHmem)
  have hQb : frontPtr ra A.tail ≠ b.1 := fun he => hdisj hQmem (he ▸ hbmem)
  have hQF : frontPtr ra A.tail ≠ frontPtr rb2 B.tail := fun he => hdisj hQmem (he ▸ hFmem)
  -- A-internal split and distinctness
  have hsplitA : ptrList A (da ++ ra) =
      (A.head :: da.map Prod.fst) ++ (ra.map Prod.fst ++ [A.tail]) := by
    simp [ptrList]
  have hndsA : (A.head :: da.map Prod.fst).Nodup ∧ (ra.map Prod.fst ++ [A.tail]).Nodup ∧
      (A.head :: da.map Prod.fst).Disjoint (ra.map Prod.fst ++ [A.tail]) := by
    rw [hsplitA] at hndA; exact List.nodup_append.mp hndA
  have hPpre : backPtr A.head da ∈ A.head :: da.map Prod.fst := getLastD_mem _ _
  have hQpost : frontPtr ra A.tail ∈ ra.map Prod.fst ++ [A.tail] := by
    cases ra with
    | nil => simp [frontPtr]
    | cons q t => simp [frontPtr]
  have hPQ : backPtr A.head da ≠ frontPtr ra A.tail :=
    fun he => hndsA.2.2 hPpre (he ▸ hQpost)
  have hpreglA : (A.head :: da.map Prod.fst).getLast? = some (backPtr A.head da) := by
    rw [getLast?_cons_eq]; rfl
  have hposthdA : (ra.map Prod.fst ++ [A.tail]).head? = some (frontPtr ra A.tail) := by
    cases ra <;> rfl
  have hpremA : ∀ x ∈ A.head :: da.map Prod.fst, x ∈ ptrList A (da ++ ra) := by
    intro x hx; rw [hsplitA]; exact List.mem_append_left _ hx
  have hpostmA : ∀ x ∈ ra.map Prod.fst ++ [A.tail], x ∈ ptrList A (da ++ ra) := by
    intro x hx; rw [hsplitA]; exact List.mem_append_right _ hx
  -- B-internal split and distinctness
  have hsplitB : ptrList B (b :: rb2) =
      B.head :: b.1 :: (rb2.map Prod.fst ++ [B.tail]) := by
    simp [ptrList]
  have hndBE : (B.head :: b.1 :: (rb2.map Prod.fst ++ [B.tail])).Nodup := hsplitB ▸ hndB
  have hHnotrest : B.head ∉ b.1 :: (rb2.map Prod.fst ++ [B.tail]) :=
    (List.nodup_cons.mp hndBE).1
  have hbnotrest : b.1 ∉ rb2.map Prod.fst ++ [B.tail] :=
    (List.nodup_cons.mp (List.nodup_cons.mp hndBE).2).1
  have hndpostB : (rb2.map Prod.fst ++ [B.tail]).Nodup :=
    (List.nodup_cons.mp (List.nodup_cons.mp hndBE).2).2
  have hFpostB : frontPtr rb2 B.tail ∈ rb2.map Prod.fst ++ [B.tail] := by
    cases rb2 with
    | nil => simp [frontPtr]
    | cons q t => simp [frontPtr]
  have hHb : B.head ≠ b.1 := fun he => hHnotrest (he ▸ List.mem_cons_self _ _)
  have hHF : B.head ≠ frontPtr rb2 B.tail :=
    fun he => hHnotrest (he ▸ List.mem_cons_of_mem _ hFpostB)
  have hbF : b.1 ≠ frontPtr rb2 B.tail := fun he => hbnotrest (he ▸ hFpostB)
  have hposthdB : (rb2.map Prod.fst ++ [B.tail]).head? = some (frontPtr rb2 B.tail) := by
    cases rb2 <;> rfl
  have hpostmB : ∀ x ∈ rb2.map Prod.fst ++ [B.tail], x ∈ ptrList B (b :: rb2) := by
    intro x hx; rw [hsplitB]
    exact List.mem_cons_of_mem _ (List.mem_cons_of_mem _ hx)
  -- the final heap and its lookups
  set h6 : Heap T := spliceHeap s.heap B.head (frontPtr rb2 B.tail) b.1
    (backPtr A.head da) (frontPtr ra A.tail) hB nF nb pnP nQ with hh6
  have hS6Q : h6 (frontPtr ra A.tail) = some { nQ with prev := some b.1 } := by
    rw [hh6, spliceHeap, Heap.set_same]
  have hS6P : h6 (backPtr A.head da) = some { pnP with next := some b.1 } := by
    rw [hh6, spliceHeap, Heap.set_ne _ hPQ, Heap.set_same]
  have hS6b : h6 b.1 = some { nb with
      prev := some (backPtr A.head da), next := some (frontPtr ra A.tail) } := by
    rw [hh6, spliceHeap, Heap.set_ne _ (Ne.symm hQb), Heap.set_ne _ (Ne.symm hPb),
      Heap.set_same]
  have hS6F : h6 (frontPtr rb2 B.tail) = some { nF with prev := some B.head } := by
    rw [hh6, spliceHeap, Heap.set_ne _ (Ne.symm hQF), Heap.set_ne _ (Ne.symm hPF),
      Heap.set_ne _ (Ne.symm hbF), Heap.set_ne _ (Ne.symm hbF), Heap.set_same]
  have hS6H : h6 B.head = some { hB with next := some (frontPtr rb2 B.tail) } := by
    rw [hh6, spliceHeap, Heap.set_ne _ (Ne.symm hQH), Heap.set_ne _ (Ne.symm hPH),
      Heap.set_ne _ hHb, Heap.set_ne _ hHb, Heap.set_ne _ hHF, Heap.set_same]
  have hS6other : ∀ j, j ≠ frontPtr ra A.tail → j ≠ backPtr A.head da → j ≠ b.1 →
      j ≠ frontPtr rb2 B.tail → j ≠ B.head → h6 j = s.heap j := by
    intro j h1 h2 h3 h4 h5
    rw [hh6, spliceHeap, Heap.set_ne _ h1, Heap.set_ne _ h2, Heap.set_ne _ h3,
      Heap.set_ne _ h3, Heap.set_ne _ h4, Heap.set_ne _ h5]
  -- field-level agreements with the original heap
  have hNA : ∀ i, i ≠ backPtr A.head da → i ≠ b.1 → i ≠ B.head →
      nextAgrees s.heap h6 i := by
    intro i h1 h2 h3
    by_cases h4 : i = frontPtr ra A.tail
    · subst h4; unfold nextAgrees; rw [hS6Q, hnQ]; rfl
    · by_cases h5 : i = frontPtr rb2 B.tail
      · subst h5; unfold nextAgrees; rw [hS6F, hnF]; rfl
      · exact (agrees_of_heap_eq (hS6other i h4 h1 h2 h5 h3)).1
  have hPA : ∀ i, i ≠ frontPtr ra A.tail → i ≠ b.1 → i ≠ frontPtr rb2 B.tail →
      prevAgrees s.heap h6 i := by
    intro i h1 h2 h3
    by_cases h4 : i = backPtr A.head da
    · subst h4; unfold prevAgrees; rw [hS6P, hpnP]; rfl
    · by_cases h5 : i = B.head
      · subst h5; unfold prevAgrees; rw [hS6H, hhB]; rfl
      · exact (agrees_of_heap_eq (hS6other i h1 h4 h2 h3 h5)).2.1
  have hVA : ∀ i, valAgrees s.heap h6 i := by
    intro i
    by_cases h1 : i = frontPtr ra A.tail
    · subst h1; unfold valAgrees; rw [hS6Q, hnQ]; rfl
    · by_cases h2 : i = backPtr A.head da
      · subst h2; unfold valAgrees; rw [hS6P, hpnP]; rfl
      · by_cases h3 : i = b.1
        · subst h3; unfold valAgrees; rw [hS6b, hnb]; rfl
        · by_cases h4 : i = frontPtr rb2 B.tail
          · subst h4; unfold valAgrees; rw [hS6F, hnF]; rfl
          · by_cases h5 : i = B.head
            · subst h5; unfold valAgrees; rw [hS6H, hhB]; rfl
            · exact (agrees_of_heap_eq (hS6other i h1 h2 h3 h4 h5)).2.2
  -- chain part decompositions
  have hchpartsA := List.chain'_append.mp (by rw [hsplitA] at hchA; exact hchA)
  have hsplitB2 : ptrList B (b :: rb2) =
      [B.head] ++ b.1 :: (rb2.map Prod.fst ++ [B.tail]) := by
    simp [ptrList]
  have hchpartsB := List.chain'_split.mp (by rw [hsplitB2] at hchB; exact hchB)
  have hchpostB : List.Chain' (links s.heap) (rb2.map Prod.fst ++ [B.tail]) :=
    (List.chain'_cons'.mp hchpartsB.2).2
  have hbplastA : backPtr A.head da ∉ (A.head :: da.map Prod.fst).dropLast := by
    have hne : (A.head :: da.map Prod.fst) ≠ [] := by simp
    have heq : (A.head :: da.map Prod.fst).getLast hne = backPtr A.head da := by
      have h := List.getLast?_eq_getLast_of_ne_nil hne
      rw [hpreglA] at h
      exact (Option.some_injective _ h.symm)
    rw [← heq]
    exact getLast_not_mem_dropLast hne hndsA.1
  have hQfirstA : frontPtr ra A.tail ∉ (ra.map Prod.fst ++ [A.tail]).tail := by
    have hcons := List.cons_head?_tail (by rw [hposthdA]; exact rfl)
    intro hmem
    have h := hndsA.2.1
    rw [← hcons] at h
    exact (List.nodup_cons.mp h).1 hmem
  have hFfirstB : frontPtr rb2 B.tail ∉ (rb2.map Prod.fst ++ [B.tail]).tail := by
    have hcons := List.cons_head?_tail (by rw [hposthdB]; exact rfl)
    intro hmem
    have h := hndpostB
    rw [← hcons] at h
    exact (List.nodup_cons.mp h).1 hmem
  -- the B-membership transfer for the shrunk list
  have hBsub : ∀ x, x ∈ ptrList { B with sz := B.sz - 1 } rb2 →
      x ∈ ptrList B (b :: rb2) := by
    intro x hx
    rcases mem_ptrList.mp hx with h | ⟨r, hr, he⟩ | h
    · exact mem_ptrList.mpr (Or.inl h)
    · exact mem_ptrList.mpr (Or.inr (Or.inl ⟨r, List.mem_cons_of_mem _ hr, he⟩))
    · exact mem_ptrList.mpr (Or.inr (Or.inr h))
  refine ⟨?_, ?_, ?_, ?_⟩
  · -- A's invariant on the grown content
    have hsplitA2 : ptrList { A with sz := A.sz + 1 } (da ++ b :: ra) =
        (A.head :: da.map Prod.fst) ++ b.1 :: (ra.map Prod.fst ++ [A.tail]) := by
      simp [ptrList]
    refine ⟨?_, ?_, ?_, ?_, ?_, ?_, ?_, ?_, ?_⟩
    · -- Nodup
      rw [hsplitA2, List.nodup_middle, List.nodup_cons]
      constructor
      · intro hmem
        exact hdisj (by rw [hsplitA]; exact hmem) hbmem
      · rw [← hsplitA]; exact hndA
    · -- Chain'
      show List.Chain' (links h6)
        (ptrList { A with sz := A.sz + 1 } (da ++ b :: ra))
      rw [hsplitA2]
      refine List.chain'_split.mpr ⟨?_, ?_⟩
      · refine List.chain'_append.mpr ⟨?_, List.chain'_singleton _, ?_⟩
        · refine chain'_links_step (fun i hi => ?_) (fun i hi => ?_) hchpartsA.1
          · refine hNA i (fun he => hbplastA (he ▸ hi)) ?_ ?_
            · exact fun he => hdisj (hpremA _ (List.dropLast_subset _ hi)) (he ▸ hbmem)
            · exact fun he => hdisj (hpremA _ (List.dropLast_subset _ hi)) (he ▸ hHmem)
          · have him : i ∈ A.head :: da.map Prod.fst := List.tail_subset _ hi
            refine hPA i (fun he => hndsA.2.2 him (he ▸ hQpost)) ?_ ?_
            · exact fun he => hdisj (hpremA _ him) (he ▸ hbmem)
            · exact fun he => hdisj (hpremA _ him) (he ▸ hFmem)
        · intro x hx y hy
          rw [hpreglA, Option.mem_some_iff] at hx
          simp only [List.head?_cons, Option.mem_some_iff] at hy
          subst hx
          subst hy
          constructor
          · rw [hS6P]; rfl
          · rw [hS6b]; rfl
      · refine List.chain'_cons'.mpr ⟨?_, ?_⟩
        · intro y hy
          rw [hposthdA, Option.mem_some_iff] at hy
          subst hy
          constructor
          · rw [hS6b]; rfl
          · rw [hS6Q]; rfl
        · refine chain'_links_step (fun i hi => ?_) (fun i hi => ?_) hchpartsA.2.1
          · have him : i ∈ ra.map Prod.fst ++ [A.tail] := List.dropLast_subset _ hi
            refine hNA i (fun he => hndsA.2.2 hPpre (he ▸ him)) ?_ ?_
            · exact fun he => hdisj (hpostmA _ him) (he ▸ hbmem)
            · exact fun he => hdisj (hpostmA _ him) (he ▸ hHmem)
          · have him : i ∈ ra.map Prod.fst ++ [A.tail] := List.tail_subset _ hi
            refine hPA i (fun he => hQfirstA (he ▸ hi)) ?_ ?_
            · exact fun he => hdisj (hpostmA _ him) (he ▸ hbmem)
            · exact fun he => hdisj (hpostmA _ him) (he ▸ hFmem)
    · -- head.prev
      have h1 : A.head ≠ frontPtr ra A.tail :=
        fun he => hndsA.2.2 (List.mem_cons_self _ _) (he ▸ hQpost)
      have h2 : A.head ≠ b.1 := fun he => hdisj hheadAmem (he ▸ hbmem)
      have h3 : A.head ≠ frontPtr rb2 B.tail := fun he => hdisj hheadAmem (he ▸ hFmem)
      show (h6 A.head).map Node.prev = some none
      rw [hPA A.head h1 h2 h3]; exact hhpA
    · -- head.val
      show (h6 A.head).map Node.val = some none
      rw [hVA A.head]; exact hhvA
    · -- tail.next
      have h1 : A.tail ≠ backPtr A.head da := by
        intro he
        exact hndsA.2.2 (he ▸ hPpre)
          (List.mem_append_right _ (List.mem_singleton_self _))
      have h2 : A.tail ≠ b.1 := fun he => hdisj htailAmem (he ▸ hbmem)
      have h3 : A.tail ≠ B.head := fun he => hdisj htailAmem (he ▸ hHmem)
      show (h6 A.tail).map Node.next = some none
      rw [hNA A.tail h1 h2 h3]; exact htnA
    · -- tail.val
      show (h6 A.tail).map Node.val = some none
      rw [hVA A.tail]; exact htvA
    · -- values
      intro q hq
      rcases List.mem_append.mp hq with hq1 | hq2
      · show (h6 q.1).map Node.val = some (some q.2)
        rw [hVA q.1]; exact hvalsA q (List.mem_append_left _ hq1)
      · rcases List.mem_cons.mp hq2 with hq3 | hq4
        · subst hq3
          show (h6 q.1).map Node.val = some (some q.2)
          rw [hVA q.1]; exact hvalsB q (List.mem_cons_self _ _)
        · show (h6 q.1).map Node.val = some (some q.2)
          rw [hVA q.1]; exact hvalsA q (List.mem_append_right _ hq4)
    · -- count
      show A.sz + 1 = (da ++ b :: ra).length
      simp only [hszA, List.length_append, List.length_cons]
      omega
    · -- freshness
      intro i hi
      rw [hsplitA2] at hi
      show i < s.fresh
      rcases List.mem_append.mp hi with hi1 | hi2
      · exact hfrA _ (hpremA _ hi1)
      · rcases List.mem_cons.mp hi2 with hi3 | hi4
        · exact hi3 ▸ hfrB _ hbmem
        · exact hfrA _ (hpostmA _ hi4)
  · -- B's invariant on the shrunk content
    have hsplitB3 : ptrList { B with sz := B.sz - 1 } rb2 =
        [B.head] ++ (rb2.map Prod.fst ++ [B.tail]) := by
      simp [ptrList]
    refine ⟨?_, ?_, ?_, ?_, ?_, ?_, ?_, ?_, ?_⟩
    · -- Nodup
      rw [hsplitB3]
      have hsub : List.Sublist ([B.head] ++ (rb2.map Prod.fst ++ [B.tail]))
          ([B.head] ++ b.1 :: (rb2.map Prod.fst ++ [B.tail])) :=
        List.Sublist.append_left (List.sublist_cons_self _ _) _
      exact ((hsplitB2 ▸ hndB).sublist hsub)
    · -- Chain'
      show List.Chain' (links h6) (ptrList { B with sz := B.sz - 1 } rb2)
      rw [hsplitB3]
      refine List.chain'_append.mpr ⟨List.chain'_singleton _, ?_, ?_⟩
      · refine chain'_links_step (fun i hi => ?_) (fun i hi => ?_) hchpostB
        · have him : i ∈ rb2.map Prod.fst ++ [B.tail] := List.dropLast_subset _ hi
          refine hNA i ?_ (fun he => hbnotrest (he ▸ him)) ?_
          · exact fun he => hdisj hPmem (he ▸ hpostmB _ him)
          · exact fun he => hHnotrest (he ▸ List.mem_cons_of_mem _ him)
        · have him : i ∈ rb2.map Prod.fst ++ [B.tail] := List.tail_subset _ hi
          refine hPA i ?_ (fun he => hbnotrest (he ▸ him)) (fun he => hFfirstB (he ▸ hi))
          · exact fun he => hdisj hQmem (he ▸ hpostmB _ him)
      · intro x hx y hy
        simp only [List.getLast?_singleton, Option.mem_some_iff] at hx
        rw [hposthdB, Option.mem_some_iff] at hy
        subst hx
        subst hy
        constructor
        · rw [hS6H]; rfl
        · rw [hS6F]; rfl
    · -- head.prev
      have h1 : B.head ≠ frontPtr ra A.tail := Ne.symm hQH
      have h2 : B.head ≠ b.1 := hHb
      have h3 : B.head ≠ frontPtr rb2 B.tail := hHF
      show (h6 B.head).map Node.prev = some none
      rw [hPA B.head h1 h2 h3]; exact hhpB
    · -- head.val
      show (h6 B.head).map Node.val = some none
      rw [hVA B.head]; exact hhvB
    · -- tail.next
      have h1 : B.tail ≠ backPtr A.head da := fun he => hdisj hPmem (he ▸ htailBmem)
      have h2 : B.tail ≠ b.1 := by
        intro he
        refine hbnotrest ?_
        rw [← he]
        exact List.mem_append_right _ (List.mem_singleton_self _)
      have h3 : B.tail ≠ B.head := Ne.symm (invWith_head_ne_tail hIBmk)
      show (h6 B.tail).map Node.next = some none
      rw [hNA B.tail h1 h2 h3]; exact htnB
    · -- tail.val
      show (h6 B.tail).map Node.val = some none
      rw [hVA B.tail]; exact htvB
    · -- values
      intro q hq
      show (h6 q.1).map Node.val = some (some q.2)
      rw [hVA q.1]; exact hvalsB q (List.mem_cons_of_mem _ hq)
    · -- count
      show B.sz - 1 = rb2.length
      simp only [hszB, List.length_cons]
      omega
    · -- freshness
      intro i hi
      show i < s.fresh
      exact hfrB i (hBsub i hi)
  · -- disjointness of the two new chains
    intro x hxA hxB
    have hxBold : x ∈ ptrList B (b :: rb2) := hBsub x hxB
    rcases mem_ptrList.mp hxA with h | ⟨r, hr, he⟩ | h
    · exact hdisj (h ▸ mem_ptrList_head A _) hxBold
    · rcases List.mem_append.mp hr with h1 | h1
      · exact hdisj (he ▸ mem_ptrList_of_mem A (List.mem_append_left _ h1)) hxBold
      · rcases List.mem_cons.mp h1 with h2 | h2
        · -- r = b: its address is not in the shrunk B-chain
          have he' : b.1 = x := h2 ▸ he
          rcases mem_ptrList.mp hxB with hb1 | ⟨r2, hr2, he2⟩ | hb1
          · exact hHb ((hb1 ▸ he').symm)
          · -- b.1 equals some rb2 address: contradicts B's Nodup
            have heq : b.1 = r2.1 := he'.trans he2.symm
            refine hbnotrest ?_
            rw [heq]
            exact List.mem_append_left _ (List.mem_map_of_mem _ hr2)
          · have heq : b.1 = B.tail := he'.trans hb1
            refine hbnotrest ?_
            rw [heq]
            exact List.mem_append_right _ (List.mem_singleton_self _)
        · exact hdisj (he ▸ mem_ptrList_of_mem A (List.mem_append_right _ h2)) hxBold
    · exact hdisj (h ▸ mem_ptrList_tail A _) hxBold
  · -- frame
    intro j hjA hjB
    refine hS6other j ?_ ?_ ?_ ?_ ?_
    · exact fun he => hjA (he ▸ hQmem)
    · exact fun he => hjA (he ▸ hPmem)
    · exact fun he => hjB (he ▸ hbmem)
    · exact fun he => hjB (he ▸ hFmem)
    · exact fun he => hjB (he ▸ hHmem)

/-- The main loop of `merge`: splices a node of `other` in before the
current `this`-node exactly when its value is strictly smaller, otherwise
advances on `this`; it stops when either side is exhausted.  `this`
accumulates `mergeLoopAbs ra rb` behind the processed prefix `da` and
`other` retains `mergeLeft ra rb`, with the running counts in sync. -/
theorem mergeLoop_spec [LT T] [DecidableRel (α := T) (· < ·)] :
    ∀ (fuel : Nat) (ra rb da : List (Nat × T)) {s : State T} {A B : LMeta},
    InvWith s A (da ++ ra) → InvWith s B rb →
    List.Disjoint (ptrList A (da ++ ra)) (ptrList B rb) →
    ra.length + rb.length < fuel →
    ∃ s' p1', mergeLoop fuel s A.tail B.tail A.sz B.sz
        (some (frontPtr ra A.tail)) (some (frontPtr rb B.tail)) =
        some (s', (A.sz + (rb.length - (mergeLeft ra rb).length),
          B.sz - (rb.length - (mergeLeft ra rb).length), p1',
          some (frontPtr (mergeLeft ra rb) B.tail))) ∧
      InvWith s' { A with sz := A.sz + (rb.length - (mergeLeft ra rb).length) }
        (da ++ mergeLoopAbs ra rb) ∧
      InvWith s' { B with sz := B.sz - (rb.length - (mergeLeft ra rb).length) }
        (mergeLeft ra rb) ∧
      List.Disjoint (ptrList A (da ++ mergeLoopAbs ra rb))
        (ptrList B (mergeLeft ra rb)) ∧
      s'.fresh = s.fresh ∧
      ∀ j, j ∉ ptrList A (da ++ ra) → j ∉ ptrList B rb → s'.heap j = s.heap j := by
  intro fuel
  induction fuel with
  | zero =>
    intro ra rb da s A B hIA hIB hdisj hf
    exact absurd hf (Nat.not_lt_zero _)
  | succ f ihf =>
    intro ra rb da s A B hIA hIB hdisj hf
    cases rb with
    | nil =>
      refine ⟨s, some (frontPtr ra A.tail), ?_, ?_, ?_, ?_, rfl, fun j _ _ => rfl⟩
      · rw [mergeLeft_nil_right]
        simp [mergeLoop, frontPtr]
      · rw [mergeLeft_nil_right, mergeLoopAbs_nil_right]
        simpa using hIA
      · rw [mergeLeft_nil_right]
        simpa using hIB
      · rw [mergeLeft_nil_right, mergeLoopAbs_nil_right]
        exact hdisj
    | cons bq rb2 =>
      cases ra with
      | nil =>
        refine ⟨s, some A.tail, ?_, ?_, ?_, ?_, rfl, fun j _ _ => rfl⟩
        · rw [mergeLeft_nil_left]
          simp [mergeLoop, frontPtr]
        · rw [mergeLeft_nil_left, mergeLoopAbs_nil_left]
          simpa using hIA
        · rw [mergeLeft_nil_left]
          simpa using hIB
        · rw [mergeLeft_nil_left, mergeLoopAbs_nil_left]
          exact hdisj
      | cons aq ra2 =>
        obtain ⟨hndA, hchA, hhpA, hhvA, htnA, htvA, hvalsA, hszA, hfrA⟩ := hIA
        obtain ⟨hndB, hchB, hhpB, hhvB, htnB, htvB, hvalsB, hszB, hfrB⟩ := hIB
        have hIAmk : InvWith s A (da ++ aq :: ra2) :=
          ⟨hndA, hchA, hhpA, hhvA, htnA, htvA, hvalsA, hszA, hfrA⟩
        have hIBmk : InvWith s B (bq :: rb2) :=
          ⟨hndB, hchB, hhpB, hhvB, htnB, htvB, hvalsB, hszB, hfrB⟩
        have haqtail : aq.1 ≠ A.tail :=
          (invWith_mem_ne hIAmk (List.mem_append_right _ (List.mem_cons_self _ _))).2
        have hbqtail : bq.1 ≠ B.tail :=
          (invWith_mem_ne hIBmk (List.mem_cons_self _ _)).2
        -- seams and node reads
        have hseamA1 : links s.heap (backPtr A.head da) aq.1 :=
          invWith_links_at da (aq :: ra2) hIAmk
        have hseamA2 : links s.heap aq.1 (frontPtr ra2 A.tail) := by
          have hassoc : da ++ aq :: ra2 = (da ++ [aq]) ++ ra2 := by simp
          have h := invWith_links_at (da ++ [aq]) ra2 (hassoc ▸ hIAmk)
          rwa [backPtr_concat] at h
        have hseamB1 : links s.heap B.head bq.1 :=
          invWith_links_at [] (bq :: rb2)
            (show InvWith s B ([] ++ bq :: rb2) from hIBmk)
        have hseamB2 : links s.heap bq.1 (frontPtr rb2 B.tail) :=
          invWith_links_at [bq] rb2
            (show InvWith s B ([bq] ++ rb2) from hIBmk)
        obtain ⟨pnP, hpnP, hpnPn⟩ := bind_next_some hseamA1.1
        obtain ⟨n1, hn1, hn1p⟩ := bind_prev_some hseamA1.2
        have hn1n : n1.next = some (frontPtr ra2 A.tail) := by
          have h := hseamA2.1; rw [hn1] at h; simpa using h
        obtain ⟨hB, hhB, hhBn⟩ := bind_next_some hseamB1.1
        obtain ⟨n2, hn2, hn2p⟩ := bind_prev_some hseamB1.2
        have hn2n : n2.next = some (frontPtr rb2 B.tail) := by
          have h := hseamB2.1; rw [hn2] at h; simpa using h
        obtain ⟨nF, hnF, hnFp⟩ := bind_prev_some hseamB2.2
        have hn1v : n1.val = some aq.2 := by
          have h := hvalsA aq (List.mem_append_right _ (List.mem_cons_self _ _))
          rw [hn1] at h; simpa using h
        have hn2v : n2.val = some bq.2 := by
          have h := hvalsB bq (List.mem_cons_self _ _)
          rw [hn2] at h; simpa using h
        -- memberships and distinctness
        have hPmem : backPtr A.head da ∈ ptrList A (da ++ aq :: ra2) :=
          backPtr_mem A da (aq :: ra2)
        have haqmem : aq.1 ∈ ptrList A (da ++ aq :: ra2) :=
          mem_ptrList_of_mem A (List.mem_append_right _ (List.mem_cons_self _ _))
        have hHmem : B.head ∈ ptrList B (bq :: rb2) := mem_ptrList_head B _
        have hbqmem : bq.1 ∈ ptrList B (bq :: rb2) :=
          mem_ptrList_of_mem B (List.mem_cons_self _ _)
        have hFmem : frontPtr rb2 B.tail ∈ ptrList B (bq :: rb2) :=
          frontPtr_mem B [bq] rb2
        have haqH : aq.1 ≠ B.head := fun he => hdisj haqmem (he ▸ hHmem)
        have haqb : aq.1 ≠ bq.1 := fun he => hdisj haqmem (he ▸ hbqmem)
        have haqF : aq.1 ≠ frontPtr rb2 B.tail := fun he => hdisj haqmem (he ▸ hFmem)
        have hPH : backPtr A.head da ≠ B.head := fun he => hdisj hPmem (he ▸ hHmem)
        have hPb : backPtr A.head da ≠ bq.1 := fun he => hdisj hPmem (he ▸ hbqmem)
        have hPF : backPtr A.head da ≠ frontPtr rb2 B.tail :=
          fun he => hdisj hPmem (he ▸ hFmem)
        have hsplitA : ptrList A (da ++ aq :: ra2) =
            (A.head :: da.map Prod.fst) ++ ((aq :: ra2).map Prod.fst ++ [A.tail]) := by
          simp [ptrList]
        have hndsA := List.nodup_append.mp (hsplitA ▸ hndA)
        have hPpre : backPtr A.head da ∈ A.head :: da.map Prod.fst := getLastD_mem _ _
        have haqpost : aq.1 ∈ (aq :: ra2).map Prod.fst ++ [A.tail] := by simp
        have haqP : aq.1 ≠ backPtr A.head da :=
          fun he => hndsA.2.2 (he ▸ hPpre) haqpost
        have hsplitB : ptrList B (bq :: rb2) =
            B.head :: bq.1 :: (rb2.map Prod.fst ++ [B.tail]) := by
          simp [ptrList]
        have hndBE : (B.head :: bq.1 :: (rb2.map Prod.fst ++ [B.tail])).Nodup :=
          hsplitB ▸ hndB
        have hHnotrest : B.head ∉ bq.1 :: (rb2.map Prod.fst ++ [B.tail]) :=
          (List.nodup_cons.mp hndBE).1
        have hbqnotrest : bq.1 ∉ rb2.map Prod.fst ++ [B.tail] :=
          (List.nodup_cons.mp (List.nodup_cons.mp hndBE).2).1
        have hFpostB : frontPtr rb2 B.tail ∈ rb2.map Prod.fst ++ [B.tail] := by
          cases rb2 with
          | nil => simp [frontPtr]
          | cons q t => simp [frontPtr]
        have hbqH : bq.1 ≠ B.head :=
          fun he => hHnotrest (he ▸ List.mem_cons_self _ _)
        have hbqF : bq.1 ≠ frontPtr rb2 B.tail := fun he => hbqnotrest (he ▸ hFpostB)
        have hFH : frontPtr rb2 B.tail ≠ B.head :=
          fun he => hHnotrest (he ▸ List.mem_cons_of_mem _ hFpostB)
        have hfa : frontPtr (aq :: ra2) A.tail = aq.1 := rfl
        have hfb : frontPtr (bq :: rb2) B.tail = bq.1 := rfl
        have hcond : ¬(some aq.1 = some A.tail ∨ some bq.1 = some B.tail) := by
          rintro (h | h)
          · exact haqtail (Option.some_injective _ h)
          · exact hbqtail (Option.some_injective _ h)
        by_cases hlt : bq.2 < aq.2
        · -- splice branch
          have hml : mergeLeft (aq :: ra2) (bq :: rb2) = mergeLeft (aq :: ra2) rb2 := by
            simp only [mergeLeft, if_pos hlt]
          have hla : mergeLoopAbs (aq :: ra2) (bq :: rb2) =
              bq :: mergeLoopAbs (aq :: ra2) rb2 := by
            simp only [mergeLoopAbs, if_pos hlt]
          obtain ⟨hinvA6, hinvB6, hdisj6, hframe6⟩ :=
            spliceStep_spec da (aq :: ra2) rb2 (b := bq)
              hIAmk hIBmk hdisj hhB hnF hn2 hpnP
              (show s.heap (frontPtr (aq :: ra2) A.tail) = some n1 from hn1)
          have hassoc6 : da ++ bq :: aq :: ra2 = (da ++ [bq]) ++ aq :: ra2 := by simp
          rw [hassoc6] at hinvA6
          obtain ⟨s', p1', heq, hinvA', hinvB', hdisj', hfr', hframe'⟩ :=
            ihf (aq :: ra2) rb2 (da ++ [bq])
              (s := ⟨spliceHeap s.heap B.head (frontPtr rb2 B.tail) bq.1
                (backPtr A.head da) (frontPtr (aq :: ra2) A.tail) hB nF n2 pnP n1,
                s.fresh⟩)
              (A := { A with sz := A.sz + 1 }) (B := { B with sz := B.sz - 1 })
              hinvA6 hinvB6
              (by
                intro x hxA hxB
                have hxA2 : x ∈ ptrList A ((da ++ [bq]) ++ aq :: ra2) := hxA
                have hxB2 : x ∈ ptrList B rb2 := hxB
                exact hdisj6 (by rw [hassoc6]; exact hxA2) hxB2)
              (by simp only [List.length_cons] at hf ⊢; omega)
          have hL2 := mergeLeft_length_le (aq :: ra2) rb2
          have hszBpos : B.sz = rb2.length + 1 := by rw [hszB]; simp
          -- restated IH components over the explicit heap expression
          have heq2 : mergeLoop f
              ⟨spliceHeap s.heap B.head (frontPtr rb2 B.tail) bq.1
                (backPtr A.head da) (frontPtr (aq :: ra2) A.tail) hB nF n2 pnP n1,
                s.fresh⟩
              A.tail B.tail (A.sz + 1) (B.sz - 1) (some aq.1)
              (some (frontPtr rb2 B.tail)) =
              some (s', ((A.sz + 1) + (rb2.length - (mergeLeft (aq :: ra2) rb2).length),
                (B.sz - 1) - (rb2.length - (mergeLeft (aq :: ra2) rb2).length), p1',
                some (frontPtr (mergeLeft (aq :: ra2) rb2) B.tail))) := heq
          have hinvA2 : InvWith s'
              { A with sz := (A.sz + 1) + (rb2.length - (mergeLeft (aq :: ra2) rb2).length) }
              ((da ++ [bq]) ++ mergeLoopAbs (aq :: ra2) rb2) := hinvA'
          have hinvB2 : InvWith s'
              { B with sz := (B.sz - 1) - (rb2.length - (mergeLeft (aq :: ra2) rb2).length) }
              (mergeLeft (aq :: ra2) rb2) := hinvB'
          have hdisj2 : List.Disjoint
              (ptrList A ((da ++ [bq]) ++ mergeLoopAbs (aq :: ra2) rb2))
              (ptrList B (mergeLeft (aq :: ra2) rb2)) := hdisj'
          have hframe2 : ∀ j, j ∉ ptrList A ((da ++ [bq]) ++ aq :: ra2) →
              j ∉ ptrList B rb2 → s'.heap j =
              spliceHeap s.heap B.head (frontPtr rb2 B.tail) bq.1
                (backPtr A.head da) (frontPtr (aq :: ra2) A.tail) hB nF n2 pnP n1 j :=
            hframe'
          have harithA : A.sz + ((bq :: rb2).length -
              (mergeLeft (aq :: ra2) (bq :: rb2)).length) =
              (A.sz + 1) + (rb2.length - (mergeLeft (aq :: ra2) rb2).length) := by
            rw [hml]; simp only [List.length_cons]; omega
          have harithB : B.sz - ((bq :: rb2).length -
              (mergeLeft (aq :: ra2) (bq :: rb2)).length) =
              (B.sz - 1) - (rb2.length - (mergeLeft (aq :: ra2) rb2).length) := by
            rw [hml]; simp only [List.length_cons]; omega
          have hcontA : (da ++ [bq]) ++ mergeLoopAbs (aq :: ra2) rb2 =
              da ++ mergeLoopAbs (aq :: ra2) (bq :: rb2) := by
            rw [hla]; simp
          refine ⟨s', p1', ?_, ?_, ?_, ?_, hfr', ?_⟩
          · -- evaluation
            have e1 : (s.heap.set B.head { hB with next := some (frontPtr rb2 B.tail) })
                bq.1 = some n2 := by
              rw [Heap.set_ne _ hbqH, hn2]
            have e2 : (s.heap.set B.head { hB with next := some (frontPtr rb2 B.tail) })
                (frontPtr rb2 B.tail) = some nF := by
              rw [Heap.set_ne _ hFH, hnF]
            have e3 : ((s.heap.set B.head
                  { hB with next := some (frontPtr rb2 B.tail) }).set
                  (frontPtr rb2 B.tail) { nF with prev := some B.head }) aq.1 =
                some n1 := by
              rw [Heap.set_ne _ haqF, Heap.set_ne _ haqH, hn1]
            have e4 : ((s.heap.set B.head
                  { hB with next := some (frontPtr rb2 B.tail) }).set
                  (frontPtr rb2 B.tail) { nF with prev := some B.head }) bq.1 =
                some n2 := by
              rw [Heap.set_ne _ hbqF, e1]
            have e5 : (((s.heap.set B.head
                  { hB with next := some (frontPtr rb2 B.tail) }).set
                  (frontPtr rb2 B.tail) { nF with prev := some B.head }).set bq.1
                  (Node.mk (some (backPtr A.head da)) (some (frontPtr rb2 B.tail)) n2.val)) bq.1 =
                some (Node.mk (some (backPtr A.head da)) (some (frontPtr rb2 B.tail)) n2.val) := Heap.set_same _ _ _
            have e6 : ((((s.heap.set B.head
                  { hB with next := some (frontPtr rb2 B.tail) }).set
                  (frontPtr rb2 B.tail) { nF with prev := some B.head }).set bq.1
                  (Node.mk (some (backPtr A.head da)) (some (frontPtr rb2 B.tail)) n2.val)).set bq.1
                  (Node.mk (some (backPtr A.head da)) (some aq.1) n2.val)) aq.1 = some n1 := by
              rw [Heap.set_ne _ haqb, Heap.set_ne _ haqb, e3]
            have e8 : ((((s.heap.set B.head
                  { hB with next := some (frontPtr rb2 B.tail) }).set
                  (frontPtr rb2 B.tail) { nF with prev := some B.head }).set bq.1
                  (Node.mk (some (backPtr A.head da)) (some (frontPtr rb2 B.tail)) n2.val)).set bq.1
                  (Node.mk (some (backPtr A.head da)) (some aq.1) n2.val)) (backPtr A.head da) = some pnP := by
              rw [Heap.set_ne _ hPb, Heap.set_ne _ hPb, Heap.set_ne _ hPF,
                Heap.set_ne _ hPH, hpnP]
            have e7 : (((((s.heap.set B.head
                  { hB with next := some (frontPtr rb2 B.tail) }).set
                  (frontPtr rb2 B.tail) { nF with prev := some B.head }).set bq.1
                  (Node.mk (some (backPtr A.head da)) (some (frontPtr rb2 B.tail)) n2.val)).set bq.1
                  (Node.mk (some (backPtr A.head da)) (some aq.1) n2.val)).set (backPtr A.head da)
                  { pnP with next := some bq.1 }) aq.1 = some n1 := by
              rw [Heap.set_ne _ haqP, e6]
            have hsteq : (⟨spliceHeap s.heap B.head (frontPtr rb2 B.tail) bq.1
                (backPtr A.head da) (frontPtr (aq :: ra2) A.tail) hB nF n2 pnP n1,
                s.fresh⟩ : State T) =
                ⟨((((((s.heap.set B.head
                    { hB with next := some (frontPtr rb2 B.tail) }).set
                    (frontPtr rb2 B.tail) { nF with prev := some B.head }).set bq.1
                    (Node.mk (some (backPtr A.head da)) (some (frontPtr rb2 B.tail)) n2.val)).set bq.1
                    (Node.mk (some (backPtr A.head da)) (some aq.1) n2.val)).set (backPtr A.head da)
                    { pnP with next := some bq.1 }).set aq.1
                    { n1 with prev := some bq.1 }), s.fresh⟩ := by
              show (⟨((((((s.heap.set B.head
                    { hB with next := some (frontPtr rb2 B.tail) }).set
                    (frontPtr rb2 B.tail) { nF with prev := some B.head }).set bq.1
                    { n2 with prev := some (backPtr A.head da) }).set bq.1
                    (Node.mk (some (backPtr A.head da)) (some aq.1) n2.val)).set (backPtr A.head da)
                    { pnP with next := some bq.1 }).set aq.1
                    { n1 with prev := some bq.1 }), s.fresh⟩ : State T) = _
              rw [show ({ n2 with prev := some (backPtr A.head da) } : Node T) =
                Node.mk (some (backPtr A.head da)) (some (frontPtr rb2 B.tail)) n2.val from by rw [← hn2n]]
            rw [hsteq] at heq2
            rw [hml]
            simp only [mergeLoop, hfa, hfb]
            rw [if_neg hcond]
            simp only [hn1, hn2, hn1v, hn2v]
            rw [if_pos (show decide (bq.2 < aq.2) = true from by simp [hlt])]
            simp only [hn2p, hn2n, hn1p, writeNext, writePrev, hhB, e1, e2, e3, e4,
              e5, e6, e7, e8, Option.bind_eq_bind, Option.some_bind,
              Option.map_some', Option.pure_def]
            rw [show A.sz + ((bq :: rb2).length -
                  (mergeLeft (aq :: ra2) rb2).length) =
                (A.sz + 1) + (rb2.length - (mergeLeft (aq :: ra2) rb2).length) from by
                simp only [List.length_cons]; omega,
              show B.sz - ((bq :: rb2).length -
                  (mergeLeft (aq :: ra2) rb2).length) =
                (B.sz - 1) - (rb2.length - (mergeLeft (aq :: ra2) rb2).length) from by
                simp only [List.length_cons]; omega]
            exact heq2
          · rw [harithA, ← hcontA]
            exact hinvA2
          · rw [harithB, hml]
            exact hinvB2
          · rw [hml, ← hcontA]
            exact hdisj2
          · -- frame
            intro j hjA hjB
            have hjB2 : j ∉ ptrList B rb2 := by
              intro hmem
              refine hjB ?_
              rcases mem_ptrList.mp hmem with h | ⟨r, hr, he⟩ | h
              · exact mem_ptrList.mpr (Or.inl h)
              · exact mem_ptrList.mpr (Or.inr (Or.inl
                  ⟨r, List.mem_cons_of_mem _ hr, he⟩))
              · exact mem_ptrList.mpr (Or.inr (Or.inr h))
            have hjA2 : j ∉ ptrList A ((da ++ [bq]) ++ aq :: ra2) := by
              intro hmem
              rcases mem_ptrList.mp hmem with h | ⟨r, hr, he⟩ | h
              · exact hjA (mem_ptrList.mpr (Or.inl h))
              · rcases List.mem_append.mp hr with h1 | h1
                · rcases List.mem_append.mp h1 with h2 | h2
                  · exact hjA (mem_ptrList.mpr (Or.inr (Or.inl
                      ⟨r, List.mem_append_left _ h2, he⟩)))
                  · have hrbq : r = bq := List.mem_singleton.mp h2
                    refine hjB (he ▸ ?_)
                    rw [hrbq]
                    exact hbqmem
                · exact hjA (mem_ptrList.mpr (Or.inr (Or.inl
                    ⟨r, List.mem_append_right _ h1, he⟩)))
              · exact hjA (mem_ptrList.mpr (Or.inr (Or.inr h)))
            rw [hframe2 j hjA2 hjB2]
            exact hframe6 j hjA hjB
        · -- advance branch
          have hml : mergeLeft (aq :: ra2) (bq :: rb2) = mergeLeft ra2 (bq :: rb2) := by
            simp only [mergeLeft, if_neg hlt]
          have hla : mergeLoopAbs (aq :: ra2) (bq :: rb2) =
              aq :: mergeLoopAbs ra2 (bq :: rb2) := by
            simp only [mergeLoopAbs, if_neg hlt]
          have hassocA : da ++ aq :: ra2 = (da ++ [aq]) ++ ra2 := by simp
          obtain ⟨s', p1', heq, hinvA', hinvB', hdisj', hfr', hframe'⟩ :=
            ihf ra2 (bq :: rb2) (da ++ [aq]) (s := s) (A := A) (B := B)
              (hassocA ▸ hIAmk) hIBmk
              (by rw [← hassocA]; exact hdisj)
              (by simp only [List.length_cons] at hf ⊢; omega)
          have hcontA : (da ++ [aq]) ++ mergeLoopAbs ra2 (bq :: rb2) =
              da ++ mergeLoopAbs (aq :: ra2) (bq :: rb2) := by
            rw [hla]; simp
          refine ⟨s', p1', ?_, ?_, ?_, ?_, hfr', ?_⟩
          · rw [hml]
            simp only [mergeLoop, hfa, hfb]
            rw [if_neg hcond]
            simp only [hn1, hn2, hn1v, hn2v]
            rw [if_neg (show ¬decide (bq.2 < aq.2) = true from by simp [hlt])]
            rw [hn1n]
            exact heq
          · rw [hml, ← hcontA]
            exact hinvA'
          · rw [hml]
            exact hinvB'
          · rw [hml, ← hcontA]
            exact hdisj'
          · intro j hjA hjB
            refine hframe' j ?_ hjB
            rw [← hassocA]
            exact hjA

/-- The remainder splice of `merge`: `other`'s non-empty leftover segment
is detached (leaving `other` empty) and attached in one piece between the
last node of `this` and `this`'s tail sentinel.  The writes are the six
of the source, in order; `m4` is the node read back at `first` after the
detach writes. -/
theorem spliceTail_spec {s1 : State T} {A B : LMeta} {ma : List (Nat × T)}
    {fq : Nat × T} {lrest : List (Nat × T)}
    {hb1 tb nli m4 pnPA tanA : Node T}
    (hIA : InvWith s1 A ma) (hIB : InvWith s1 B (fq :: lrest))
    (hdisj : List.Disjoint (ptrList A ma) (ptrList B (fq :: lrest)))
    (hhb1 : s1.heap B.head = some hb1)
    (htb : s1.heap B.tail = some tb)
    (hnli : s1.heap (backPtr B.head (fq :: lrest)) = some nli)
    (hm4 : (((s1.heap.set B.head { hb1 with next := some B.tail }).set B.tail
        { tb with prev := some B.head }).set (backPtr B.head (fq :: lrest))
        { nli with next := some A.tail }) fq.1 = some m4)
    (hpnPA : s1.heap (backPtr A.head ma) = some pnPA)
    (htanA : s1.heap A.tail = some tanA) :
    InvWith ⟨(((((s1.heap.set B.head { hb1 with next := some B.tail }).set B.tail
          { tb with prev := some B.head }).set (backPtr B.head (fq :: lrest))
          { nli with next := some A.tail }).set fq.1
          { m4 with prev := some (backPtr A.head ma) }).set (backPtr A.head ma)
          { pnPA with next := some fq.1 }).set A.tail
          { tanA with prev := some (backPtr B.head (fq :: lrest)) }, s1.fresh⟩
      { A with sz := A.sz + (fq :: lrest).length } (ma ++ fq :: lrest) ∧
    InvWith ⟨(((((s1.heap.set B.head { hb1 with next := some B.tail }).set B.tail
          { tb with prev := some B.head }).set (backPtr B.head (fq :: lrest))
          { nli with next := some A.tail }).set fq.1
          { m4 with prev := some (backPtr A.head ma) }).set (backPtr A.head ma)
          { pnPA with next := some fq.1 }).set A.tail
          { tanA with prev := some (backPtr B.head (fq :: lrest)) }, s1.fresh⟩
      { B with sz := 0 } [] ∧
    ∀ j, j ∉ ptrList A ma → j ∉ ptrList B (fq :: lrest) →
      ((((((s1.heap.set B.head { hb1 with next := some B.tail }).set B.tail
          { tb with prev := some B.head }).set (backPtr B.head (fq :: lrest))
          { nli with next := some A.tail }).set fq.1
          { m4 with prev := some (backPtr A.head ma) }).set (backPtr A.head ma)
          { pnPA with next := some fq.1 }).set A.tail
          { tanA with prev := some (backPtr B.head (fq :: lrest)) }) j = s1.heap j := by
  obtain ⟨hndA, hchA, hhpA, hhvA, htnA, htvA, hvalsA, hszA, hfrA⟩ := hIA
  obtain ⟨hndB, hchB, hhpB, hhvB, htnB, htvB, hvalsB, hszB, hfrB⟩ := hIB
  have hIAmk : InvWith s1 A ma :=
    ⟨hndA, hchA, hhpA, hhvA, htnA, htvA, hvalsA, hszA, hfrA⟩
  have hIBmk : InvWith s1 B (fq :: lrest) :=
    ⟨hndB, hchB, hhpB, hhvB, htnB, htvB, hvalsB, hszB, hfrB⟩
  -- seams
  have hseamA : links s1.heap (backPtr A.head ma) A.tail := by
    have h := invWith_links_at ma []
      (show InvWith s1 A (ma ++ []) from by rw [List.append_nil]; exact hIAmk)
    exact h
  have hseamB0 : links s1.heap B.head fq.1 :=
    invWith_links_at [] (fq :: lrest)
      (show InvWith s1 B ([] ++ fq :: lrest) from hIBmk)
  have hseamBL : links s1.heap (backPtr B.head (fq :: lrest)) B.tail := by
    have h := invWith_links_at (fq :: lrest) []
      (show InvWith s1 B ((fq :: lrest) ++ []) from by rw [List.append_nil]; exact hIBmk)
    exact h
  obtain ⟨nfq, hnfq, hnfqp⟩ := bind_prev_some hseamB0.2
  have hpnPAn : pnPA.next = some A.tail := by
    have h := hseamA.1; rw [hpnPA] at h; simpa using h
  have htanAp : tanA.prev = some (backPtr A.head ma) := by
    have h := hseamA.2; rw [htanA] at h; simpa using h
  have hnlin : nli.next = some B.tail := by
    have h := hseamBL.1; rw [hnli] at h; simpa using h
  have htbp : tb.prev = some (backPtr B.head (fq :: lrest)) := by
    have h := hseamBL.2; rw [htb] at h; simpa using h
  -- memberships
  have hPAmem : backPtr A.head ma ∈ ptrList A ma := by
    have h := backPtr_mem A ma []
    rwa [List.append_nil] at h
  have hAtmem : A.tail ∈ ptrList A ma := mem_ptrList_tail A _
  have hAhmem : A.head ∈ ptrList A ma := mem_ptrList_head A _
  have hBhmem : B.head ∈ ptrList B (fq :: lrest) := mem_ptrList_head B _
  have hBtmem : B.tail ∈ ptrList B (fq :: lrest) := mem_ptrList_tail B _
  have hfqmem : fq.1 ∈ ptrList B (fq :: lrest) :=
    mem_ptrList_of_mem B (List.mem_cons_self _ _)
  -- `li` is the last address of the segment
  have hsplitB : ptrList B (fq :: lrest) =
      (B.head :: (fq :: lrest).map Prod.fst) ++ [B.tail] := by
    simp [ptrList]
  have hndsB := List.nodup_append.mp (hsplitB ▸ hndB)
  have hlipre : backPtr B.head (fq :: lrest) ∈ B.head :: (fq :: lrest).map Prod.fst :=
    getLastD_mem _ _
  have hliids : backPtr B.head (fq :: lrest) ∈ (fq :: lrest).map Prod.fst := by
    rcases List.mem_cons.mp hlipre with h | h
    · -- the last of a non-empty id list cannot be the default
      rw [backPtr, List.map_cons, List.getLastD_cons] at h
      exfalso
      have hm : (lrest.map Prod.fst).getLastD fq.1 ∈ fq.1 :: lrest.map Prod.fst :=
        getLastD_mem _ _
      rw [h] at hm
      exact (List.nodup_cons.mp hndsB.1).1 hm
    · exact h
  have hlimem : backPtr B.head (fq :: lrest) ∈ ptrList B (fq :: lrest) := by
    rw [hsplitB]
    exact List.mem_append_left _ (List.mem_cons_of_mem _ hliids)
  -- distinctness
  have hBht : B.head ≠ B.tail := invWith_head_ne_tail hIBmk
  have hliH : backPtr B.head (fq :: lrest) ≠ B.head := by
    intro he
    exact (List.nodup_cons.mp hndsB.1).1 (he ▸ hliids)
  have hliT : backPtr B.head (fq :: lrest) ≠ B.tail := by
    intro he
    exact hndsB.2.2 (he ▸ hlipre) (List.mem_singleton_self _)
  have hfqH : fq.1 ≠ B.head := by
    intro he
    exact (List.nodup_cons.mp hndsB.1).1 (he ▸ by simp)
  have hfqT : fq.1 ≠ B.tail := (invWith_mem_ne hIBmk (List.mem_cons_self _ _)).2
  have hPAH : backPtr A.head ma ≠ B.head := fun he => hdisj hPAmem (he ▸ hBhmem)
  have hPAT : backPtr A.head ma ≠ B.tail := fun he => hdisj hPAmem (he ▸ hBtmem)
  have hPAli : backPtr A.head ma ≠ backPtr B.head (fq :: lrest) :=
    fun he => hdisj hPAmem (he ▸ hlimem)
  have hPAfq : backPtr A.head ma ≠ fq.1 := fun he => hdisj hPAmem (he ▸ hfqmem)
  have hAtH : A.tail ≠ B.head := fun he => hdisj hAtmem (he ▸ hBhmem)
  have hAtT : A.tail ≠ B.tail := fun he => hdisj hAtmem (he ▸ hBtmem)
  have hAtli : A.tail ≠ backPtr B.head (fq :: lrest) :=
    fun he => hdisj hAtmem (he ▸ hlimem)
  have hAtfq : A.tail ≠ fq.1 := fun he => hdisj hAtmem (he ▸ hfqmem)
  have hsplitA : ptrList A ma = (A.head :: ma.map Prod.fst) ++ [A.tail] := by
    simp [ptrList]
  have hndsA := List.nodup_append.mp (hsplitA ▸ hndA)
  have hPApre : backPtr A.head ma ∈ A.head :: ma.map Prod.fst := getLastD_mem _ _
  have hPAAt : backPtr A.head ma ≠ A.tail :=
    fun he => hndsA.2.2 hPApre (he ▸ List.mem_singleton_self _)
  -- the fields of the read-back node `m4`
  have hm4fields : m4.prev = nfq.prev ∧ m4.val = nfq.val ∧
      ((fq.1 = backPtr B.head (fq :: lrest) ∧ m4.next = some A.tail) ∨
       (fq.1 ≠ backPtr B.head (fq :: lrest) ∧ m4.next = nfq.next)) := by
    by_cases hfl : fq.1 = backPtr B.head (fq :: lrest)
    · rw [← hfl, Heap.set_same] at hm4
      have hnn : nli = nfq := by
        rw [← hfl] at hnli
        rw [hnli] at hnfq
        exact Option.some_injective _ hnfq
      have hm4e : m4 = { nli with next := some A.tail } :=
        (Option.some_injective _ hm4).symm
      rw [hm4e, hnn]
      exact ⟨rfl, rfl, Or.inl ⟨hfl, rfl⟩⟩
    · rw [Heap.set_ne _ hfl, Heap.set_ne _ hfqT, Heap.set_ne _ hfqH, hnfq] at hm4
      have hm4e : m4 = nfq := (Option.some_injective _ hm4).symm
      rw [hm4e]
      exact ⟨rfl, rfl, Or.inr ⟨hfl, rfl⟩⟩
  -- the final heap and its per-address characterization
  set h7 : Heap T :=
    (((((s1.heap.set B.head { hb1 with next := some B.tail }).set B.tail
        { tb with prev := some B.head }).set (backPtr B.head (fq :: lrest))
        { nli with next := some A.tail }).set fq.1
        { m4 with prev := some (backPtr A.head ma) }).set (backPtr A.head ma)
        { pnPA with next := some fq.1 }).set A.tail
        { tanA with prev := some (backPtr B.head (fq :: lrest)) } with hh7
  have hS7At : h7 A.tail =
      some { tanA with prev := some (backPtr B.head (fq :: lrest)) } :=
    Heap.set_same _ _ _
  have hS7PA : h7 (backPtr A.head ma) = some { pnPA with next := some fq.1 } := by
    rw [hh7, Heap.set_ne _ hPAAt, Heap.set_same]
  have hS7fq : h7 fq.1 = some { m4 with prev := some (backPtr A.head ma) } := by
    rw [hh7, Heap.set_ne _ (Ne.symm hAtfq), Heap.set_ne _ (Ne.symm hPAfq),
      Heap.set_same]
  have hS7T : h7 B.tail = some { tb with prev := some B.head } := by
    rw [hh7, Heap.set_ne _ (Ne.symm hAtT), Heap.set_ne _ (Ne.symm hPAT),
      Heap.set_ne _ (Ne.symm hfqT), Heap.set_ne _ (Ne.symm hliT), Heap.set_same]
  have hS7H : h7 B.head = some { hb1 with next := some B.tail } := by
    rw [hh7, Heap.set_ne _ (Ne.symm hAtH), Heap.set_ne _ (Ne.symm hPAH),
      Heap.set_ne _ (Ne.symm hfqH), Heap.set_ne _ (Ne.symm hliH),
      Heap.set_ne _ hBht, Heap.set_same]
  have hS7other : ∀ j, j ≠ A.tail → j ≠ backPtr A.head ma → j ≠ fq.1 →
      j ≠ backPtr B.head (fq :: lrest) → j ≠ B.tail → j ≠ B.head →
      h7 j = s1.heap j := by
    intro j h1 h2 h3 h4 h5 h6
    rw [hh7, Heap.set_ne _ h1, Heap.set_ne _ h2, Heap.set_ne _ h3, Heap.set_ne _ h4,
      Heap.set_ne _ h5, Heap.set_ne _ h6]
  -- the forward link at the last segment node
  have hS7li : (h7 (backPtr B.head (fq :: lrest))).map Node.next =
      some (some A.tail) := by
    by_cases hfl : fq.1 = backPtr B.head (fq :: lrest)
    · rw [← hfl, hS7fq]
      rcases hm4fields.2.2 with ⟨-, hn⟩ | ⟨hne, -⟩
      · simp [hn]
      · exact absurd hfl hne
    · rw [hh7, Heap.set_ne _ (Ne.symm hAtli), Heap.set_ne _ (Ne.symm hPAli),
        Heap.set_ne _ (fun he => hfl he.symm), Heap.set_same]
      rfl
  have hS7liV : (h7 (backPtr B.head (fq :: lrest))).map Node.val =
      (s1.heap (backPtr B.head (fq :: lrest))).map Node.val := by
    by_cases hfl : fq.1 = backPtr B.head (fq :: lrest)
    · rw [← hfl, hS7fq, hnfq]
      simp [hm4fields.2.1]
    · rw [hh7, Heap.set_ne _ (Ne.symm hAtli), Heap.set_ne _ (Ne.symm hPAli),
        Heap.set_ne _ (fun he => hfl he.symm), Heap.set_same, hnli]
      rfl
  -- field-level agreements with `s1`
  have hNAg : ∀ i, i ≠ backPtr B.head (fq :: lrest) → i ≠ B.head →
      i ≠ backPtr A.head ma → nextAgrees s1.heap h7 i := by
    intro i h1 h2 h3
    by_cases h4 : i = A.tail
    · subst h4; unfold nextAgrees; rw [hS7At, htanA]; rfl
    · by_cases h5 : i = B.tail
      · subst h5; unfold nextAgrees; rw [hS7T, htb]; rfl
      · by_cases h6 : i = fq.1
        · subst h6
          unfold nextAgrees
          rw [hS7fq, hnfq]
          rcases hm4fields.2.2 with ⟨hfl, -⟩ | ⟨-, hn⟩
          · exact absurd hfl h1
          · simp [hn]
        · unfold nextAgrees
          rw [hS7other i h4 h3 h6 h1 h5 h2]
  have hPAg : ∀ i, i ≠ B.tail → i ≠ fq.1 → i ≠ A.tail →
      prevAgrees s1.heap h7 i := by
    intro i h1 h2 h3
    by_cases h4 : i = backPtr B.head (fq :: lrest)
    · subst h4
      unfold prevAgrees
      rw [hh7, Heap.set_ne _ (Ne.symm hAtli), Heap.set_ne _ (Ne.symm hPAli),
        Heap.set_ne _ h2, Heap.set_same, hnli]
      rfl
    · by_cases h5 : i = backPtr A.head ma
      · subst h5; unfold prevAgrees; rw [hS7PA, hpnPA]; rfl
      · by_cases h6 : i = B.head
        · subst h6; unfold prevAgrees; rw [hS7H, hhb1]; rfl
        · unfold prevAgrees
          rw [hS7other i h3 h5 h2 h4 h1 h6]
  have hVAg : ∀ i, valAgrees s1.heap h7 i := by
    intro i
    by_cases h1 : i = A.tail
    · subst h1; unfold valAgrees; rw [hS7At, htanA]; rfl
    · by_cases h2 : i = backPtr A.head ma
      · subst h2; unfold valAgrees; rw [hS7PA, hpnPA]; rfl
      · by_cases h3 : i = fq.1
        · subst h3
          unfold valAgrees
          rw [hS7fq, hnfq]
          simp [hm4fields.2.1]
        · by_cases h4 : i = backPtr B.head (fq :: lrest)
          · subst h4; unfold valAgrees; rw [hS7liV]
          · by_cases h5 : i = B.tail
            · subst h5; unfold valAgrees; rw [hS7T, htb]; rfl
            · by_cases h6 : i = B.head
              · subst h6; unfold valAgrees; rw [hS7H, hhb1]; rfl
              · unfold valAgrees
                rw [hS7other i h1 h2 h3 h4 h5 h6]
  -- chain decompositions of the two old lists
  have hchpartsA := List.chain'_append.mp (by rw [hsplitA] at hchA; exact hchA)
  have hchpartsB := List.chain'_append.mp (by rw [hsplitB] at hchB; exact hchB)
  have hchsegB : List.Chain' (links s1.heap) ((fq :: lrest).map Prod.fst) :=
    (List.chain'_cons'.mp hchpartsB.1).2
  have hpreglA2 : (A.head :: ma.map Prod.fst).getLast? = some (backPtr A.head ma) := by
    rw [getLast?_cons_eq]; rfl
  have hPAlast : backPtr A.head ma ∉ (A.head :: ma.map Prod.fst).dropLast := by
    have hne : (A.head :: ma.map Prod.fst) ≠ [] := by simp
    have heq : (A.head :: ma.map Prod.fst).getLast hne = backPtr A.head ma := by
      have h := List.getLast?_eq_getLast_of_ne_nil hne
      rw [hpreglA2] at h
      exact (Option.some_injective _ h.symm)
    rw [← heq]
    exact getLast_not_mem_dropLast hne hndsA.1
  have hlig : ((fq :: lrest).map Prod.fst).getLast? =
      some (backPtr B.head (fq :: lrest)) := by
    rw [List.map_cons, getLast?_cons_eq, backPtr, List.map_cons, List.getLastD_cons]
  have hlilast : backPtr B.head (fq :: lrest) ∉
      ((fq :: lrest).map Prod.fst).dropLast := by
    have hne : ((fq :: lrest).map Prod.fst) ≠ [] := by simp
    have heq : ((fq :: lrest).map Prod.fst).getLast hne =
        backPtr B.head (fq :: lrest) := by
      have h := List.getLast?_eq_getLast_of_ne_nil hne
      rw [hlig] at h
      exact (Option.some_injective _ h.symm)
    rw [← heq]
    exact getLast_not_mem_dropLast hne (List.nodup_cons.mp hndsB.1).2
  have hfqtail : fq.1 ∉ ((fq :: lrest).map Prod.fst).tail := by
    rw [List.map_cons]
    exact (List.nodup_cons.mp (by
      have := (List.nodup_cons.mp hndsB.1).2
      rwa [List.map_cons] at this)).1
  have hsegsubB : ∀ x ∈ (fq :: lrest).map Prod.fst, x ∈ ptrList B (fq :: lrest) := by
    intro x hx
    rw [hsplitB]
    exact List.mem_append_left _ (List.mem_cons_of_mem _ hx)
  have hpresubA : ∀ x ∈ A.head :: ma.map Prod.fst, x ∈ ptrList A ma := by
    intro x hx
    rw [hsplitA]
    exact List.mem_append_left _ hx
  refine ⟨?_, ?_, ?_⟩
  · -- A's invariant on the extended content
    have hsplitA2 : ptrList { A with sz := A.sz + (fq :: lrest).length }
        (ma ++ fq :: lrest) =
        (A.head :: ma.map Prod.fst) ++ ((fq :: lrest).map Prod.fst ++ [A.tail]) := by
      simp [ptrList]
    refine ⟨?_, ?_, ?_, ?_, ?_, ?_, ?_, ?_, ?_⟩
    · -- Nodup
      rw [hsplitA2]
      refine List.nodup_append.mpr ⟨hndsA.1, ?_, ?_⟩
      · refine List.nodup_append.mpr ⟨(List.nodup_cons.mp hndsB.1).2, by simp, ?_⟩
        intro x hx hx2
        rw [List.mem_singleton] at hx2
        subst hx2
        exact hdisj hAtmem (hsegsubB _ hx)
      · intro x hx hx2
        rcases List.mem_append.mp hx2 with h | h
        · exact hdisj (hpresubA _ hx) (hsegsubB _ h)
        · rw [List.mem_singleton] at h
          subst h
          exact hndsA.2.2 hx (List.mem_singleton_self _)
    · -- Chain'
      show List.Chain' (links h7)
        (ptrList { A with sz := A.sz + (fq :: lrest).length } (ma ++ fq :: lrest))
      rw [hsplitA2]
      refine List.chain'_append.mpr ⟨?_, ?_, ?_⟩
      · -- the old `this`-part
        refine chain'_links_step (fun i hi => ?_) (fun i hi => ?_) hchpartsA.1
        · have him : i ∈ A.head :: ma.map Prod.fst := List.dropLast_subset _ hi
          refine hNAg i ?_ ?_ (fun he => hPAlast (he ▸ hi))
          · exact fun he => hdisj (hpresubA _ him) (he ▸ hlimem)
          · exact fun he => hdisj (hpresubA _ him) (he ▸ hBhmem)
        · have him : i ∈ A.head :: ma.map Prod.fst := List.tail_subset _ hi
          refine hPAg i ?_ ?_ ?_
          · exact fun he => hdisj (hpresubA _ him) (he ▸ hBtmem)
          · exact fun he => hdisj (hpresubA _ him) (he ▸ hfqmem)
          · exact fun he => hndsA.2.2 (he ▸ him) (List.mem_singleton_self _)
      · -- the spliced segment followed by the tail sentinel
        refine List.chain'_append.mpr ⟨?_, List.chain'_singleton _, ?_⟩
        · refine chain'_links_step (fun i hi => ?_) (fun i hi => ?_) hchsegB
          · have him : i ∈ (fq :: lrest).map Prod.fst := List.dropLast_subset _ hi
            refine hNAg i (fun he => hlilast (he ▸ hi)) ?_ ?_
            · exact fun he => (List.nodup_cons.mp hndsB.1).1 (he ▸ him)
            · exact fun he => hdisj hPAmem (he ▸ hsegsubB _ him)
          · have him : i ∈ (fq :: lrest).map Prod.fst := List.tail_subset _ hi
            refine hPAg i ?_ (fun he => hfqtail (he ▸ hi)) ?_
            · exact fun he => hndsB.2.2 (List.mem_cons_of_mem _ (he ▸ him))
                (List.mem_singleton_self _)
            · exact fun he => hdisj hAtmem (he ▸ hsegsubB _ him)
        · -- seam: last segment node links to `this`'s tail
          intro x hx y hy
          rw [hlig, Option.mem_some_iff] at hx
          simp only [List.head?_cons, Option.mem_some_iff] at hy
          subst hx
          subst hy
          constructor
          · exact bind_next_of_map hS7li
          · refine bind_prev_of_map ?_
            rw [hS7At]
            rfl
      · -- seam: last of `this` links to the first segment node
        intro x hx y hy
        rw [hpreglA2, Option.mem_some_iff] at hx
        rw [show ((fq :: lrest).map Prod.fst ++ [A.tail]).head? = some fq.1 from rfl,
          Option.mem_some_iff] at hy
        subst hx
        subst hy
        constructor
        · refine bind_next_of_map ?_
          rw [hS7PA]
          rfl
        · refine bind_prev_of_map ?_
          rw [hS7fq]
          rfl
    · -- head.prev
      have h1 : A.head ≠ B.tail := fun he => hdisj hAhmem (he ▸ hBtmem)
      have h2 : A.head ≠ fq.1 := fun he => hdisj hAhmem (he ▸ hfqmem)
      have h3 : A.head ≠ A.tail := invWith_head_ne_tail hIAmk
      show (h7 A.head).map Node.prev = some none
      rw [hPAg A.head h1 h2 h3]
      exact hhpA
    · show (h7 A.head).map Node.val = some none
      rw [hVAg A.head]
      exact hhvA
    · -- tail.next
      show (h7 A.tail).map Node.next = some none
      rw [hNAg A.tail hAtli hAtH (Ne.symm hPAAt)]
      exact htnA
    · show (h7 A.tail).map Node.val = some none
      rw [hVAg A.tail]
      exact htvA
    · -- values
      intro q hq
      show (h7 q.1).map Node.val = some (some q.2)
      rw [hVAg q.1]
      rcases List.mem_append.mp hq with h | h
      · exact hvalsA q h
      · exact hvalsB q h
    · -- count
      show A.sz + (fq :: lrest).length = (ma ++ fq :: lrest).length
      simp only [hszA, List.length_append]
    · -- freshness
      intro i hi
      rw [hsplitA2] at hi
      show i < s1.fresh
      rcases List.mem_append.mp hi with h | h
      · exact hfrA _ (hpresubA _ h)
      · rcases List.mem_append.mp h with h2 | h2
        · exact hfrB _ (hsegsubB _ h2)
        · rw [List.mem_singleton] at h2
          exact h2 ▸ hfrA _ hAtmem
  · -- B's invariant on the emptied content
    have hsplitB0 : ptrList { B with sz := 0 } ([] : List (Nat × T)) =
        [B.head, B.tail] := by
      simp [ptrList]
    refine ⟨?_, ?_, ?_, ?_, ?_, ?_, ?_, rfl, ?_⟩
    · rw [hsplitB0]
      simp [hBht]
    · show List.Chain' (links h7) (ptrList { B with sz := 0 } [])
      rw [hsplitB0]
      refine List.chain'_cons.mpr ⟨?_, List.chain'_singleton _⟩
      constructor
      · refine bind_next_of_map ?_
        rw [hS7H]
        rfl
      · refine bind_prev_of_map ?_
        rw [hS7T]
        rfl
    · show (h7 B.head).map Node.prev = some none
      rw [hPAg B.head hBht (Ne.symm hfqH) (Ne.symm hAtH)]
      exact hhpB
    · show (h7 B.head).map Node.val = some none
      rw [hVAg B.head]
      exact hhvB
    · show (h7 B.tail).map Node.next = some none
      rw [hNAg B.tail (Ne.symm hliT) (Ne.symm hBht) (Ne.symm hPAT)]
      exact htnB
    · show (h7 B.tail).map Node.val = some none
      rw [hVAg B.tail]
      exact htvB
    · intro q hq
      exact absurd hq (List.not_mem_nil _)
    · intro i hi
      rw [hsplitB0] at hi
      show i < s1.fresh
      rcases List.mem_cons.mp hi with h | h
      · exact h ▸ hfrB _ hBhmem
      · rw [List.mem_singleton] at h
        exact h ▸ hfrB _ hBtmem
  · -- frame
    intro j hjA hjB
    refine hS7other j ?_ ?_ ?_ ?_ ?_ ?_
    · exact fun he => hjA (he ▸ hAtmem)
    · exact fun he => hjA (he ▸ hPAmem)
    · exact fun he => hjB (he ▸ hfqmem)
    · exact fun he => hjB (he ▸ hlimem)
    · exact fun he => hjB (he ▸ hBtmem)
    · exact fun he => hjB (he ▸ hBhmem)

/-- `this == &other`: merging a list with itself returns immediately and
changes nothing. -/
theorem mergeOp_self [LT T] [DecidableRel (α := T) (· < ·)] (s : State T) (A : LMeta) :
    mergeOp s A A = some (s, A, A) := by
  simp [mergeOp]

/-- Full specification of `merge` on two distinct lists with disjoint
chains: the operation succeeds, `this` ends with the two contents merged
by `<` (an `other` node is spliced in only when strictly smaller), with
the matching count; `other` ends empty with count zero; nothing is
allocated; no address outside the two chains changes. -/
theorem mergeOp_spec [LT T] [DecidableRel (α := T) (· < ·)] {s : State T}
    {A B : LMeta} {la lb : List (Nat × T)}
    (hIA : InvWith s A la) (hIB : InvWith s B lb) (hid : A.id ≠ B.id)
    (hdisj : List.Disjoint (ptrList A la) (ptrList B lb)) :
    ∃ s', mergeOp s A B =
        some (s', { A with sz := (mergeAbs la lb).length }, { B with sz := 0 }) ∧
      InvWith s' { A with sz := (mergeAbs la lb).length } (mergeAbs la lb) ∧
      InvWith s' { B with sz := 0 } [] ∧
      s'.fresh = s.fresh ∧
      ∀ j, j ∉ ptrList A la → j ∉ ptrList B lb → s'.heap j = s.heap j := by
  obtain ⟨hndA, hchA, hhpA, hhvA, htnA, htvA, hvalsA, hszA, hfrA⟩ := hIA
  obtain ⟨hndB, hchB, hhpB, hhvB, htnB, htvB, hvalsB, hszB, hfrB⟩ := hIB
  have hIAmk : InvWith s A la := ⟨hndA, hchA, hhpA, hhvA, htnA, htvA, hvalsA, hszA, hfrA⟩
  have hIBmk : InvWith s B lb := ⟨hndB, hchB, hhpB, hhvB, htnB, htvB, hvalsB, hszB, hfrB⟩
  by_cases hB0 : B.sz = 0
  · -- `other.sz == 0`: immediate return
    have hlb : lb = [] := List.eq_nil_of_length_eq_zero (by omega)
    subst hlb
    have hma : mergeAbs la ([] : List (Nat × T)) = la := by
      cases la <;> simp [mergeAbs]
    have hA' : ({ A with sz := (mergeAbs la ([] : List (Nat × T))).length } : LMeta) = A := by
      rw [hma, ← hszA]
    have hB' : ({ B with sz := 0 } : LMeta) = B := by rw [← hB0]
    refine ⟨s, ?_, ?_, ?_, rfl, fun j _ _ => rfl⟩
    · rw [hA', hB']
      simp [mergeOp, hB0]
    · rw [hA', hma]
      exact hIAmk
    · rw [hB']
      exact hIBmk
  · -- the main loop runs
    obtain ⟨han, hhaH, hhanext⟩ := bind_next_some (invWith_links_at [] la hIAmk).1
    have hhaH' : s.heap A.head = some han := hhaH
    obtain ⟨hbn, hhbH, hhbnext⟩ := bind_next_some (invWith_links_at [] lb hIBmk).1
    have hhbH' : s.heap B.head = some hbn := hhbH
    obtain ⟨s1, p1', heq1, hinvA1, hinvB1, hdisj1, hfr1, hframe1⟩ :=
      mergeLoop_spec (A.sz + B.sz + 1) la lb []
        (show InvWith s A ([] ++ la) from hIAmk) hIBmk
        (show List.Disjoint (ptrList A ([] ++ la)) (ptrList B lb) from hdisj)
        (by rw [hszA, hszB]; omega)
    cases hml : mergeLeft la lb with
    | nil =>
      rw [hml] at heq1 hinvA1 hinvB1 hdisj1
      rw [show frontPtr ([] : List (Nat × T)) B.tail = B.tail from rfl] at heq1
      simp only [List.length_nil, Nat.sub_zero] at heq1 hinvA1 hinvB1
      simp only [List.nil_append] at hinvA1 hdisj1
      have hsz1 : A.sz + lb.length = (mergeLoopAbs la lb).length :=
        hinvA1.2.2.2.2.2.2.2.1
      have hAm : ({ A with sz := A.sz + lb.length } : LMeta) =
          { A with sz := (mergeAbs la lb).length } := by
        rw [mergeAbs_decomp, hml, List.append_nil, ← hsz1]
      have hBm : ({ B with sz := B.sz - lb.length } : LMeta) = { B with sz := 0 } := by
        rw [hszB]
        simp
      refine ⟨s1, ?_, ?_, ?_, hfr1, ?_⟩
      · unfold mergeOp
        rw [if_neg (by push_neg; exact ⟨hid, hB0⟩)]
        simp only [hhaH', hhbH', hhanext, hhbnext]
        rw [heq1]
        simp only [ne_eq, not_true_eq_false, Bool.false_eq_true, if_false, ite_false]
        rw [hAm, hBm]
      · rw [mergeAbs_decomp, hml, List.append_nil, ← hsz1]
        exact hinvA1
      · have h0 : ({ B with sz := 0 } : LMeta) = { B with sz := B.sz - lb.length } := by
          rw [hszB]; simp
        rw [h0]
        exact hinvB1
      · intro j hjA hjB
        exact hframe1 j hjA hjB
    | cons fq lf =>
      rw [hml] at heq1 hinvA1 hinvB1 hdisj1
      simp only [List.nil_append] at hinvA1 hdisj1
      have hfpfq : frontPtr (fq :: lf) B.tail = fq.1 := rfl
      rw [hfpfq] at heq1
      have hszA1 : A.sz + (lb.length - (fq :: lf).length) = (mergeLoopAbs la lb).length :=
        hinvA1.2.2.2.2.2.2.2.1
      have hszB1 : B.sz - (lb.length - (fq :: lf).length) = (fq :: lf).length :=
        hinvB1.2.2.2.2.2.2.2.1
      have hIA2 : InvWith s1 { A with sz := A.sz + (lb.length - (fq :: lf).length) }
          (mergeLoopAbs la lb) := hinvA1
      have hIB2 : InvWith s1 { B with sz := B.sz - (lb.length - (fq :: lf).length) }
          (fq :: lf) := hinvB1
      have hIB2app : InvWith s1 { B with sz := B.sz - (lb.length - (fq :: lf).length) }
          ((fq :: lf) ++ []) := by rw [List.append_nil]; exact hIB2
      have hIA2app : InvWith s1 { A with sz := A.sz + (lb.length - (fq :: lf).length) }
          (mergeLoopAbs la lb ++ []) := by rw [List.append_nil]; exact hIA2
      obtain ⟨hb1, hhb1, hhb1next⟩ := bind_next_some (invWith_links_at [] (fq :: lf) hIB2).1
      have hhb1' : s1.heap B.head = some hb1 := hhb1
      obtain ⟨tb, htb, htbprev⟩ := bind_prev_some (invWith_links_at (fq :: lf) [] hIB2app).2
      have htb' : s1.heap B.tail = some tb := htb
      have htbprev' : tb.prev = some (backPtr B.head (fq :: lf)) := htbprev
      obtain ⟨nli, hnli, hnlinext⟩ :=
        bind_next_some (invWith_links_at (fq :: lf) [] hIB2app).1
      have hnli' : s1.heap (backPtr B.head (fq :: lf)) = some nli := hnli
      obtain ⟨pnPA, hpnPA, hpnPAnext⟩ :=
        bind_next_some (invWith_links_at (mergeLoopAbs la lb) [] hIA2app).1
      have hpnPA' : s1.heap (backPtr A.head (mergeLoopAbs la lb)) = some pnPA := hpnPA
      obtain ⟨tanA, htanA, htanAprev⟩ :=
        bind_prev_some (invWith_links_at (mergeLoopAbs la lb) [] hIA2app).2
      have htanA' : s1.heap A.tail = some tanA := htanA
      have htanAprev' : tanA.prev = some (backPtr A.head (mergeLoopAbs la lb)) := htanAprev
      have hfqne : fq.1 ≠ B.head ∧ fq.1 ≠ B.tail :=
        invWith_mem_ne hIB2 (List.mem_cons_self fq lf)
      have hfqBh : fq.1 ≠ B.head := hfqne.1
      have hfqBt : fq.1 ≠ B.tail := hfqne.2
      have hBhBt0 := invWith_head_ne_tail hIB2
      have hBtBh : B.tail ≠ B.head := Ne.symm hBhBt0
      have hlastPB : (lf.map Prod.fst).getLastD fq.1 = backPtr B.head (fq :: lf) := by
        rw [backPtr, List.map_cons, List.getLastD_cons]
      have hPBmem : backPtr B.head (fq :: lf) ∈ (fq :: lf).map Prod.fst := by
        rw [← hlastPB, List.map_cons]
        exact getLastD_mem _ _
      have hPBne : backPtr B.head (fq :: lf) ≠ B.head ∧
          backPtr B.head (fq :: lf) ≠ B.tail := by
        obtain ⟨r, hr, he⟩ := List.mem_map.mp hPBmem
        have h := invWith_mem_ne hIB2 hr
        exact ⟨he ▸ h.1, he ▸ h.2⟩
      have hPBptr : backPtr B.head (fq :: lf) ∈ ptrList B (fq :: lf) := by
        obtain ⟨r, hr, he⟩ := List.mem_map.mp hPBmem
        exact mem_ptrList.mpr (Or.inr (Or.inl ⟨r, hr, he⟩))
      have hfqptr : fq.1 ∈ ptrList B (fq :: lf) :=
        mem_ptrList.mpr (Or.inr (Or.inl ⟨fq, List.mem_cons_self _ _, rfl⟩))
      have hPAmem : backPtr A.head (mergeLoopAbs la lb) ∈ ptrList A (mergeLoopAbs la lb) := by
        have h := backPtr_mem A (mergeLoopAbs la lb) []
        rwa [List.append_nil] at h
      have hAtPB : A.tail ∉ ptrList B (fq :: lf) := fun hm =>
        hdisj1 (mem_ptrList_tail A (mergeLoopAbs la lb)) hm
      have hPAinB : backPtr A.head (mergeLoopAbs la lb) ∉ ptrList B (fq :: lf) := fun hm =>
        hdisj1 hPAmem hm
      have hAtBh : A.tail ≠ B.head := fun he => hAtPB (he ▸ mem_ptrList_head B _)
      have hAtBt : A.tail ≠ B.tail := fun he => hAtPB (he ▸ mem_ptrList_tail B _)
      have hAtPBne : A.tail ≠ backPtr B.head (fq :: lf) := fun he => hAtPB (he ▸ hPBptr)
      have hAtfq : A.tail ≠ fq.1 := fun he => hAtPB (he ▸ hfqptr)
      have hPABh : backPtr A.head (mergeLoopAbs la lb) ≠ B.head :=
        fun he => hPAinB (he ▸ mem_ptrList_head B _)
      have hPABt : backPtr A.head (mergeLoopAbs la lb) ≠ B.tail :=
        fun he => hPAinB (he ▸ mem_ptrList_tail B _)
      have hPAPB : backPtr A.head (mergeLoopAbs la lb) ≠ backPtr B.head (fq :: lf) :=
        fun he => hPAinB (he ▸ hPBptr)
      have hPAfq : backPtr A.head (mergeLoopAbs la lb) ≠ fq.1 :=
        fun he => hPAinB (he ▸ hfqptr)
      have hAtPA : A.tail ≠ backPtr A.head (mergeLoopAbs la lb) := by
        have hsplit : ((A.head :: (mergeLoopAbs la lb).map Prod.fst) ++ [A.tail]).Nodup :=
          hIA2.1
        have hparts := List.nodup_append.mp hsplit
        intro he
        exact hparts.2.2 (getLastD_mem _ _) (he ▸ List.mem_singleton_self A.tail)
      obtain ⟨m4, hm4⟩ : ∃ m4, (((s1.heap.set B.head
          { hb1 with next := some B.tail }).set B.tail
          { tb with prev := some B.head }).set (backPtr B.head (fq :: lf))
          { nli with next := some A.tail }) fq.1 = some m4 := by
        by_cases hfqPB : fq.1 = backPtr B.head (fq :: lf)
        · rw [hfqPB, Heap.set_same]
          exact ⟨_, rfl⟩
        · obtain ⟨nf, hnf, -⟩ :=
            map_val_some (hIB2.2.2.2.2.2.2.1 fq (List.mem_cons_self _ _))
          have hnf' : s1.heap fq.1 = some nf := hnf
          rw [Heap.set_ne _ hfqPB, Heap.set_ne _ hfqBt, Heap.set_ne _ hfqBh, hnf']
          exact ⟨nf, rfl⟩
      obtain ⟨hinvA7, hinvB7, hframe7⟩ :=
        spliceTail_spec hIA2 hIB2 hdisj1 hhb1' htb' hnli' hm4 hpnPA' htanA'
      have hinvA7' : InvWith
          ⟨(((((s1.heap.set B.head { hb1 with next := some B.tail }).set B.tail
          { tb with prev := some B.head }).set (backPtr B.head (fq :: lf))
          { nli with next := some A.tail }).set fq.1
          { m4 with prev := some (backPtr A.head (mergeLoopAbs la lb)) }).set
          (backPtr A.head (mergeLoopAbs la lb)) { pnPA with next := some fq.1 }).set A.tail
          { tanA with prev := some (backPtr B.head (fq :: lf)) }, s1.fresh⟩
          { A with sz := A.sz + (lb.length - (fq :: lf).length) + (fq :: lf).length }
          (mergeLoopAbs la lb ++ fq :: lf) := hinvA7
      have hinvB7' : InvWith
          ⟨(((((s1.heap.set B.head { hb1 with next := some B.tail }).set B.tail
          { tb with prev := some B.head }).set (backPtr B.head (fq :: lf))
          { nli with next := some A.tail }).set fq.1
          { m4 with prev := some (backPtr A.head (mergeLoopAbs la lb)) }).set
          (backPtr A.head (mergeLoopAbs la lb)) { pnPA with next := some fq.1 }).set A.tail
          { tanA with prev := some (backPtr B.head (fq :: lf)) }, s1.fresh⟩
          { B with sz := 0 } [] := hinvB7
      have hframe7' : ∀ j, j ∉ ptrList A (mergeLoopAbs la lb) →
          j ∉ ptrList B (fq :: lf) →
          ((((((s1.heap.set B.head { hb1 with next := some B.tail }).set B.tail
          { tb with prev := some B.head }).set (backPtr B.head (fq :: lf))
          { nli with next := some A.tail }).set fq.1
          { m4 with prev := some (backPtr A.head (mergeLoopAbs la lb)) }).set
          (backPtr A.head (mergeLoopAbs la lb)) { pnPA with next := some fq.1 }).set A.tail
          { tanA with prev := some (backPtr B.head (fq :: lf)) }) j = s1.heap j := hframe7
      have hchB2 : List.Chain' (links s1.heap)
          ((B.head :: (fq :: lf).map Prod.fst) ++ [B.tail]) := hIB2.2.1
      have hndB2 : ((B.head :: (fq :: lf).map Prod.fst) ++ [B.tail]).Nodup := hIB2.1
      have hchint : List.Chain' (links s1.heap) ((fq :: lf).map Prod.fst) :=
        (List.chain'_cons'.mp (List.chain'_append.mp hchB2).1).2
      have hndint : ((fq :: lf).map Prod.fst).Nodup :=
        (List.nodup_cons.mp (List.nodup_append.mp hndB2).1).2
      have hchain3 : List.Chain' (nextLink ((s1.heap.set B.head
          { hb1 with next := some B.tail }).set B.tail { tb with prev := some B.head }))
          ((fq :: lf).map Prod.fst) := by
        refine chain'_mono_mem (fun a b ha hb hl => ?_) hchint
        obtain ⟨r, hr, he⟩ := List.mem_map.mp ha
        have hane : a ≠ B.head ∧ a ≠ B.tail := he ▸ invWith_mem_ne hIB2 hr
        show (((s1.heap.set B.head { hb1 with next := some B.tail }).set B.tail
          { tb with prev := some B.head }) a).bind Node.next = some b
        rw [Heap.set_ne _ hane.2, Heap.set_ne _ hane.1]
        exact hl.1
      have hcount : countLoop (B.sz - (lb.length - (fq :: lf).length) + 1)
          ((s1.heap.set B.head { hb1 with next := some B.tail }).set B.tail
            { tb with prev := some B.head })
          (some fq.1) (some ((lf.map Prod.fst).getLastD fq.1)) 0 =
          some (0 + (lf.map Prod.fst).length + 1) :=
        countLoop_spec (lf.map Prod.fst) fq.1 0
          (B.sz - (lb.length - (fq :: lf).length) + 1) hchain3 hndint
          (by
            simp only [List.length_cons] at hszB1
            simp only [List.length_map, List.length_cons]
            omega)
      have hcount' : countLoop (B.sz - (lb.length - (fq :: lf).length) + 1)
          ((s1.heap.set B.head { hb1 with next := some B.tail }).set B.tail
            { tb with prev := some B.head })
          (some fq.1) (some (backPtr B.head (fq :: lf))) 0 = some (lf.length + 1) := by
        rw [← hlastPB, hcount]
        simp
      have e2 : (s1.heap.set B.head { hb1 with next := some B.tail }) B.tail = some tb := by
        rw [Heap.set_ne _ hBtBh, htb']
      have e3 : ((s1.heap.set B.head { hb1 with next := some B.tail }).set B.tail
          { tb with prev := some B.head }) (backPtr B.head (fq :: lf)) = some nli := by
        rw [Heap.set_ne _ hPBne.2, Heap.set_ne _ hPBne.1, hnli']
      have e5 : (((s1.heap.set B.head { hb1 with next := some B.tail }).set B.tail
          { tb with prev := some B.head }).set (backPtr B.head (fq :: lf))
          { nli with next := some A.tail }) A.tail = some tanA := by
        rw [Heap.set_ne _ hAtPBne, Heap.set_ne _ hAtBt, Heap.set_ne _ hAtBh, htanA']
      have e6 : ((((s1.heap.set B.head { hb1 with next := some B.tail }).set B.tail
          { tb with prev := some B.head }).set (backPtr B.head (fq :: lf))
          { nli with next := some A.tail }).set fq.1
          { m4 with prev := some (backPtr A.head (mergeLoopAbs la lb)) }) A.tail =
          some tanA := by
        rw [Heap.set_ne _ hAtfq, e5]
      have e7 : ((((s1.heap.set B.head { hb1 with next := some B.tail }).set B.tail
          { tb with prev := some B.head }).set (backPtr B.head (fq :: lf))
          { nli with next := some A.tail }).set fq.1
          { m4 with prev := some (backPtr A.head (mergeLoopAbs la lb)) })
          (backPtr A.head (mergeLoopAbs la lb)) = some pnPA := by
        rw [Heap.set_ne _ hPAfq, Heap.set_ne _ hPAPB, Heap.set_ne _ hPABt,
          Heap.set_ne _ hPABh, hpnPA']
      have e8 : (((((s1.heap.set B.head { hb1 with next := some B.tail }).set B.tail
          { tb with prev := some B.head }).set (backPtr B.head (fq :: lf))
          { nli with next := some A.tail }).set fq.1
          { m4 with prev := some (backPtr A.head (mergeLoopAbs la lb)) }).set
          (backPtr A.head (mergeLoopAbs la lb)) { pnPA with next := some fq.1 }) A.tail =
          some tanA := by
        rw [Heap.set_ne _ hAtPA, e6]
      refine ⟨⟨(((((s1.heap.set B.head { hb1 with next := some B.tail }).set B.tail
          { tb with prev := some B.head }).set (backPtr B.head (fq :: lf))
          { nli with next := some A.tail }).set fq.1
          { m4 with prev := some (backPtr A.head (mergeLoopAbs la lb)) }).set
          (backPtr A.head (mergeLoopAbs la lb)) { pnPA with next := some fq.1 }).set A.tail
          { tanA with prev := some (backPtr B.head (fq :: lf)) }, s1.fresh⟩, ?_, ?_, ?_, ?_, ?_⟩
      · unfold mergeOp
        rw [if_neg (by push_neg; exact ⟨hid, hB0⟩)]
        simp only [hhaH', hhbH', hhanext, hhbnext]
        rw [heq1]
        simp only []
        rw [if_pos (show some fq.1 ≠ some B.tail from by simpa using hfqBt)]
        simp only [htb', htbprev', writeNext, writePrev, hhb1', e2, e3, hm4, e5, e6, e7, e8,
          htanAprev', hcount', Option.bind_eq_bind, Option.some_bind, Option.map_some',
          Option.pure_def]
        rw [show B.sz - (lb.length - (fq :: lf).length) - (lf.length + 1) = 0 from by
            simp only [List.length_cons] at hszB1 ⊢
            omega,
          show A.sz + (lb.length - (fq :: lf).length) + (lf.length + 1) =
              (mergeAbs la lb).length from by
            rw [mergeAbs_decomp, hml, List.length_append, ← hszA1]
            simp]
      · rw [show (mergeAbs la lb).length =
            A.sz + (lb.length - (fq :: lf).length) + (fq :: lf).length from by
          rw [mergeAbs_decomp, hml, List.length_append, ← hszA1]]
        rw [mergeAbs_decomp, hml]
        exact hinvA7'
      · exact hinvB7'
      · exact hfr1
      · intro j hjA hjB
        have hjsub : ∀ r : Nat × T, r ∈ mergeLoopAbs la lb ∨ r ∈ fq :: lf →
            r ∈ la ∨ r ∈ lb := by
          intro r hr
          have hr2 : r ∈ mergeAbs la lb := by
            rw [mergeAbs_decomp, hml]
            rcases hr with h | h
            · exact List.mem_append_left _ h
            · exact List.mem_append_right _ h
          exact List.mem_append.mp ((mergeAbs_perm la lb).mem_iff.mp hr2)
        have hjA' : j ∉ ptrList A (mergeLoopAbs la lb) := by
          intro hm
          rcases mem_ptrList.mp hm with h | ⟨r, hr, he⟩ | h
          · exact hjA (mem_ptrList.mpr (Or.inl h))
          · rcases hjsub r (Or.inl hr) with h1 | h1
            · exact hjA (mem_ptrList.mpr (Or.inr (Or.inl ⟨r, h1, he⟩)))
            · exact hjB (mem_ptrList.mpr (Or.inr (Or.inl ⟨r, h1, he⟩)))
          · exact hjA (mem_ptrList.mpr (Or.inr (Or.inr h)))
        have hjB' : j ∉ ptrList B (fq :: lf) := by
          intro hm
          rcases mem_ptrList.mp hm with h | ⟨r, hr, he⟩ | h
          · exact hjB (mem_ptrList.mpr (Or.inl h))
          · rcases hjsub r (Or.inr hr) with h1 | h1
            · exact hjA (mem_ptrList.mpr (Or.inr (Or.inl ⟨r, h1, he⟩)))
            · exact hjB (mem_ptrList.mpr (Or.inr (Or.inl ⟨r, h1, he⟩)))
          · exact hjB (mem_ptrList.mpr (Or.inr (Or.inr h)))
        exact (hframe7' j hjA' hjB').trans (hframe1 j hjA hjB)


/-! ## The claims -/

/-- The concrete two-node store satisfies the invariant. -/
theorem exListInv : InvWith exState exList [(2, 5), (3, 5)] := by
  refine ⟨by decide, ?_, rfl, rfl, rfl, rfl, by unfold HasVals; decide, rfl, by decide⟩
  exact List.chain'_cons.mpr ⟨⟨rfl, rfl⟩, List.chain'_cons.mpr ⟨⟨rfl, rfl⟩,
    List.chain'_cons.mpr ⟨⟨rfl, rfl⟩, List.chain'_singleton _⟩⟩⟩

/-- The concrete empty store satisfies the invariant. -/
theorem exEmptyInv : InvWith exEmptyState exEmptyList ([] : List (Nat × Nat)) := by
  refine ⟨by decide, ?_, rfl, rfl, rfl, rfl, by unfold HasVals; decide, rfl, by decide⟩
  exact List.chain'_cons.mpr ⟨⟨rfl, rfl⟩, List.chain'_singleton _⟩

/-- List A of the concrete merge store satisfies the invariant. -/
theorem exListAInv : InvWith exMergeState exListA [(2, 1)] := by
  refine ⟨by decide, ?_, rfl, rfl, rfl, rfl, by unfold HasVals; decide, rfl, by decide⟩
  exact List.chain'_cons.mpr ⟨⟨rfl, rfl⟩, List.chain'_cons.mpr ⟨⟨rfl, rfl⟩,
    List.chain'_singleton _⟩⟩

/-- List B of the concrete merge store satisfies the invariant. -/
theorem exListBInv : InvWith exMergeState exListB [(6, 2)] := by
  refine ⟨by decide, ?_, rfl, rfl, rfl, rfl, by unfold HasVals; decide, rfl, by decide⟩
  exact List.chain'_cons.mpr ⟨⟨rfl, rfl⟩, List.chain'_cons.mpr ⟨⟨rfl, rfl⟩,
    List.chain'_singleton _⟩⟩

/-- C1: Every public operation of the list (construction, copy,
assignment, insert, erase, push_back, pop_back, push_front, pop_front,
clear, sort, merge, reverse, unique) preserves the structural invariant
`InvWith`: the chain from the head sentinel to the tail sentinel is a
single doubly-linked sequence with mirrored back-links, `head.prev` and
`tail.next` are absent, and the stored count equals the number of
interior nodes. -/
theorem C1_all_ops_preserve_invariant [LinearOrder T] :
    (∀ (s : State T) (lid : Nat), InvWith (mkList s lid).1 (mkList s lid).2 []) ∧
    (∀ (s : State T) (src : LMeta) (ls : List (Nat × T)) (lid : Nat), InvWith s src ls →
      ∃ s' dst pl, copyList s lid src = some (.ok (s', dst)) ∧
        InvWith s' dst pl ∧ InvWith s' src ls) ∧
    (∀ (s : State T) (dst src : LMeta) (ldst lsrc : List (Nat × T)),
      InvWith s dst ldst → InvWith s src lsrc → dst.id ≠ src.id →
      List.Disjoint (ptrList src lsrc) (ptrList dst ldst) →
      ∃ s' pl, assignOp s dst src = some (.ok (s', { dst with sz := lsrc.length })) ∧
        InvWith s' { dst with sz := lsrc.length } pl ∧ InvWith s' src lsrc) ∧
    (∀ (s : State T) (L : LMeta) (l1 l2 : List (Nat × T)) (v : T),
      InvWith s L (l1 ++ l2) →
      ∃ s', listInsert s L ⟨some (frontPtr l2 L.tail), some L.id⟩ v =
          some (.ok (s', { L with sz := L.sz + 1 }, ⟨some s.fresh, some L.id⟩)) ∧
        InvWith s' { L with sz := L.sz + 1 } (l1 ++ (s.fresh, v) :: l2)) ∧
    (∀ (s : State T) (L : LMeta) (l1 l2 : List (Nat × T)) (p : Nat) (w : T),
      InvWith s L (l1 ++ (p, w) :: l2) →
      ∃ s', listErase s L ⟨some p, some L.id⟩ =
          some (.ok (s', { L with sz := L.sz - 1 },
            ⟨some (frontPtr l2 L.tail), some L.id⟩)) ∧
        InvWith s' { L with sz := L.sz - 1 } (l1 ++ l2)) ∧
    (∀ (s : State T) (L : LMeta) (l : List (Nat × T)) (v : T), InvWith s L l →
      ∃ s', pushBack s L v = some (.ok (s', { L with sz := L.sz + 1 })) ∧
        InvWith s' { L with sz := L.sz + 1 } (l ++ [(s.fresh, v)])) ∧
    (∀ (s : State T) (L : LMeta) (l : List (Nat × T)) (q : Nat × T),
      InvWith s L (l ++ [q]) →
      ∃ s', popBack s L = some (.ok (s', { L with sz := L.sz - 1 })) ∧
        InvWith s' { L with sz := L.sz - 1 } l) ∧
    (∀ (s : State T) (L : LMeta) (l : List (Nat × T)) (v : T), InvWith s L l →
      ∃ s', pushFront s L v = some (.ok (s', { L with sz := L.sz + 1 })) ∧
        InvWith s' { L with sz := L.sz + 1 } ((s.fresh, v) :: l)) ∧
    (∀ (s : State T) (L : LMeta) (l : List (Nat × T)) (q : Nat × T),
      InvWith s L (q :: l) →
      ∃ s', popFront s L = some (.ok (s', { L with sz := L.sz - 1 })) ∧
        InvWith s' { L with sz := L.sz - 1 } l) ∧
    (∀ (s : State T) (L : LMeta) (l : List (Nat × T)), InvWith s L l →
      ∃ s', clearOp s L = some (s', { L with sz := 0 }) ∧
        InvWith s' { L with sz := 0 } []) ∧
    (∀ (s : State T) (L : LMeta) (l : List (Nat × T)), InvWith s L l →
      ∃ s' l', sortOp s L = some s' ∧ List.Perm l' l ∧ InvWith s' L l') ∧
    (∀ (s : State T) (A B : LMeta) (la lb : List (Nat × T)),
      InvWith s A la → InvWith s B lb → A.id ≠ B.id →
      List.Disjoint (ptrList A la) (ptrList B lb) →
      ∃ s', mergeOp s A B =
          some (s', { A with sz := (mergeAbs la lb).length }, { B with sz := 0 }) ∧
        InvWith s' { A with sz := (mergeAbs la lb).length } (mergeAbs la lb) ∧
        InvWith s' { B with sz := 0 } []) ∧
    (∀ (s : State T) (L : LMeta) (l : List (Nat × T)), InvWith s L l →
      ∃ s', reverseOp s L = some s' ∧
        InvWith s' L ((l.map Prod.fst).zip ((l.map Prod.snd).reverse))) ∧
    (∀ (s : State T) (L : LMeta) (l : List (Nat × T)), InvWith s L l →
      ∃ s', uniqueOp s L = some (s', { L with sz := (uniqueScan l).length }) ∧
        InvWith s' { L with sz := (uniqueScan l).length } (uniqueScan l)) := by
  refine ⟨fun s lid => (mkList_spec s lid).1,
    ?_, ?_, ?_, ?_, ?_, ?_, ?_, ?_, ?_, ?_, ?_, ?_, ?_⟩
  · intro s src ls lid hI
    obtain ⟨s', dst, pl, heq, -, -, hinv, -, hsrc, -⟩ := copyList_spec lid hI
    exact ⟨s', dst, pl, heq, hinv, hsrc⟩
  · intro s dst src ldst lsrc hI hJ hid hdisj
    obtain ⟨s', pl, heq, hinv, -, hsrc⟩ := assignOp_spec hI hJ hid hdisj
    exact ⟨s', pl, heq, hinv, hsrc⟩
  · intro s L l1 l2 v hI
    obtain ⟨s', heq, hinv, -, -⟩ := listInsert_spec l1 l2 hI
    exact ⟨s', heq, hinv⟩
  · intro s L l1 l2 p w hI
    obtain ⟨s', heq, hinv, -, -, -⟩ := listErase_spec l1 l2 hI
    exact ⟨s', heq, hinv⟩
  · intro s L l v hI
    obtain ⟨s', heq, hinv, -, -⟩ := pushBack_spec hI
    exact ⟨s', heq, hinv⟩
  · intro s L l q hI
    obtain ⟨s', heq, hinv, -, -⟩ := popBack_spec hI
    exact ⟨s', heq, hinv⟩
  · intro s L l v hI
    obtain ⟨s', heq, hinv, -⟩ := pushFront_spec hI
    exact ⟨s', heq, hinv⟩
  · intro s L l q hI
    obtain ⟨s', heq, hinv, -, -⟩ := popFront_spec hI
    exact ⟨s', heq, hinv⟩
  · intro s L l hI
    obtain ⟨s', heq, hinv, -, -, -⟩ := clearOp_spec hI
    exact ⟨s', heq, hinv⟩
  · intro s L l hI
    obtain ⟨s', l', heq, hperm, hinv, -, -⟩ := sortOp_spec hI
    exact ⟨s', l', heq, hperm, hinv⟩
  · intro s A B la lb hA hB hid hdisj
    obtain ⟨s', heq, hinvA, hinvB, -, -⟩ := mergeOp_spec hA hB hid hdisj
    exact ⟨s', heq, hinvA, hinvB⟩
  · intro s L l hI
    obtain ⟨s', heq, hinv, -, -, -⟩ := reverseOp_spec hI
    exact ⟨s', heq, hinv⟩
  · intro s L l hI
    obtain ⟨s', heq, hinv, -, -, -⟩ := uniqueOp_spec hI
    exact ⟨s', heq, hinv⟩

/-- C1 exercised at a concrete two-node store: `push_back` keeps the
invariant. -/
theorem C1_witness : ∃ s', pushBack exState exList 9 =
    some (.ok (s', { exList with sz := exList.sz + 1 })) ∧
    InvWith s' { exList with sz := exList.sz + 1 }
      ([(2, 5), (3, 5)] ++ [(exState.fresh, 9)]) :=
  C1_all_ops_preserve_invariant.2.2.2.2.2.1 exState exList [(2, 5), (3, 5)] 9 exListInv

/-- C2: `merge` of two ascending lists leaves `this` ascending with every
(node, value) pair of both lists (nodes moved, no values copied), splices
an `other` node before remaining `this` elements only when strictly
smaller — on ties all `this` elements precede; `other` ends empty with
count zero; self-merge and merging an empty `other` are no-ops. -/
theorem C2_merge [LinearOrder T] :
    (∀ (s : State T) (A B : LMeta) (la lb : List (Nat × T)),
      InvWith s A la → InvWith s B lb → A.id ≠ B.id →
      List.Disjoint (ptrList A la) (ptrList B lb) →
      List.Pairwise (fun x y : Nat × T => x.2 ≤ y.2) la →
      List.Pairwise (fun x y : Nat × T => x.2 ≤ y.2) lb →
      ∃ s', mergeOp s A B =
          some (s', { A with sz := (mergeAbs la lb).length }, { B with sz := 0 }) ∧
        InvWith s' { A with sz := (mergeAbs la lb).length } (mergeAbs la lb) ∧
        InvWith s' { B with sz := 0 } [] ∧
        List.Pairwise (fun x y : Nat × T => x.2 ≤ y.2) (mergeAbs la lb) ∧
        (mergeAbs la lb).Perm (la ++ lb)) ∧
    (∀ la lb : List (Nat × T),
      List.Pairwise (fun x y : Nat × T => x.2 ≤ y.2) la →
      la.Nodup → lb.Nodup → (∀ x ∈ la, x ∉ lb) →
      ∀ u b v, mergeAbs la lb = u ++ b :: v → b ∈ lb →
      ∀ a ∈ v, a ∈ la → b.2 < a.2) ∧
    (∀ (s : State T) (A : LMeta), mergeOp s A A = some (s, A, A)) ∧
    (∀ (s : State T) (A B : LMeta), B.sz = 0 → mergeOp s A B = some (s, A, B)) := by
  refine ⟨?_, mergeAbs_stable, mergeOp_self, ?_⟩
  · intro s A B la lb hA hB hid hdisj hla hlb
    obtain ⟨s', heq, hinvA, hinvB, -, -⟩ := mergeOp_spec hA hB hid hdisj
    exact ⟨s', heq, hinvA, hinvB, mergeAbs_pairwise la lb hla hlb, mergeAbs_perm la lb⟩
  · intro s A B h0
    simp [mergeOp, h0]

/-- C2 exercised at a concrete store holding A = [1] and B = [2]. -/
theorem C2_witness : ∃ s', mergeOp exMergeState exListA exListB =
    some (s', { exListA with sz := (mergeAbs [(2, 1)] [(6, 2)]).length },
      { exListB with sz := 0 }) ∧
    InvWith s' { exListA with sz := (mergeAbs [(2, 1)] [(6, 2)]).length }
      (mergeAbs [(2, 1)] [(6, 2)]) ∧
    InvWith s' { exListB with sz := 0 } [] ∧
    List.Pairwise (fun x y : Nat × Nat => x.2 ≤ y.2) (mergeAbs [(2, 1)] [(6, 2)]) ∧
    (mergeAbs [(2, 1)] [(6, 2)]).Perm ([(2, 1)] ++ [(6, 2)]) :=
  C2_merge.1 exMergeState exListA exListB [(2, 1)] [(6, 2)]
    exListAInv exListBInv
    (by decide)
    (by show ∀ a ∈ ptrList exListA [(2, 1)], a ∉ ptrList exListB [(6, 2)]; decide)
    (by decide) (by decide)

/-- C3 (amended): `erase` first validates ownership and non-nullness
(InvalidIterator, even on an empty list), then emptiness (EmptyContainer),
then rejects the sentinels (InvalidIterator); on a valid element position
it unlinks and destroys the node, decrements the count and returns an
iterator to the following node — the tail sentinel, `end()`, when the
erased node was the last element. -/
theorem C3_erase :
    (∀ (s : State T) (L : LMeta) (l1 l2 : List (Nat × T)) (p : Nat) (w : T),
      InvWith s L (l1 ++ (p, w) :: l2) →
      ∃ s', listErase s L ⟨some p, some L.id⟩ =
          some (.ok (s', { L with sz := L.sz - 1 },
            ⟨some (frontPtr l2 L.tail), some L.id⟩)) ∧
        InvWith s' { L with sz := L.sz - 1 } (l1 ++ l2) ∧ s'.heap p = none) ∧
    (∀ L : LMeta,
      (⟨some (frontPtr ([] : List (Nat × T)) L.tail), some L.id⟩ : Iter) = endIter L) ∧
    (∀ (s : State T) (L : LMeta) (pos : Iter), pos.owner ≠ some L.id →
      listErase s L pos = some (.error .invalidIterator)) ∧
    (∀ (s : State T) (L : LMeta) (pos : Iter), pos.cur = none →
      listErase s L pos = some (.error .invalidIterator)) ∧
    (∀ (s : State T) (L : LMeta) (pos : Iter) (c : Nat), pos.owner = some L.id →
      pos.cur = some c → L.sz = 0 →
      listErase s L pos = some (.error .containerIsEmpty)) ∧
    (∀ (s : State T) (L : LMeta), L.sz ≠ 0 →
      listErase s L ⟨some L.tail, some L.id⟩ = some (.error .invalidIterator)) ∧
    (∀ (s : State T) (L : LMeta) (hn : Node T), L.sz ≠ 0 → L.head ≠ L.tail →
      s.heap L.head = some hn → hn.val = none →
      listErase s L ⟨some L.head, some L.id⟩ = some (.error .invalidIterator)) := by
  refine ⟨?_, fun L => rfl, fun s L pos ho => listErase_err_owner ho,
    fun s L pos hc => listErase_err_null hc,
    fun s L pos c ho hc hsz => listErase_err_empty ho hc hsz,
    fun s L hsz => listErase_err_tail hsz,
    fun s L hn hsz hht hh hv => listErase_err_head hsz hht hh hv⟩
  intro s L l1 l2 p w hI
  obtain ⟨s', heq, hinv, -, hnone, -⟩ := listErase_spec l1 l2 hI
  exact ⟨s', heq, hinv, hnone⟩

/-- C3 exercised: erasing the first of two nodes returns an iterator to
the remaining one. -/
theorem C3_witness : ∃ s', listErase exState exList ⟨some 2, some exList.id⟩ =
    some (.ok (s', { exList with sz := exList.sz - 1 },
      ⟨some (frontPtr [(3, 5)] exList.tail), some exList.id⟩)) ∧
    InvWith s' { exList with sz := exList.sz - 1 } ([] ++ [(3, 5)]) ∧
    s'.heap 2 = none :=
  C3_erase.1 exState exList [] [(3, 5)] 2 5 exListInv

/-- C3 counterexample to the frozen wording: on an empty list, `erase`
through an iterator with the wrong owner fails with InvalidIterator, not
EmptyContainer — the ownership check precedes the emptiness check. -/
theorem C3_counterexample :
    exEmptyList.sz = 0 ∧
    listErase exEmptyState exEmptyList ⟨some 1, some 99⟩ =
      some (.error .invalidIterator) :=
  ⟨rfl, rfl⟩

/-- C4: decrement (the transition shared by pre- and post-decrement of
both iterator kinds, whose bodies are identical): on `end()` it succeeds
exactly when the list is non-empty, yielding the last element; from the
first element, from the head sentinel, or unattached it fails with
InvalidIterator; the post-form differs only in returning the old value. -/
theorem C4_decrement :
    (∀ (s : State T) (L : LMeta) (l : List (Nat × T)) (hI : InvWith s L l)
      (hne : l ≠ []),
      decr s.heap L (endIter L) = some (.ok ⟨some (l.getLast hne).1, some L.id⟩)) ∧
    (∀ (h : Heap T) (L : LMeta) (o : Nat), L.tail ≠ L.head → L.sz = 0 →
      decr h L ⟨some L.tail, some o⟩ = some (.error .invalidIterator)) ∧
    (∀ (s : State T) (L : LMeta) (q : Nat × T) (l' : List (Nat × T)),
      InvWith s L (q :: l') → ∀ o : Nat,
      decr s.heap L ⟨some q.1, some o⟩ = some (.error .invalidIterator)) ∧
    (∀ (h : Heap T) (L : LMeta) (o : Nat),
      decr h L ⟨some L.head, some o⟩ = some (.error .invalidIterator)) ∧
    (∀ (h : Heap T) (L : LMeta) (it : Iter), it.owner = none →
      decr h L it = some (.error .invalidIterator)) ∧
    (∀ (h : Heap T) (L : LMeta) (it : Iter),
      decrPost h L it = (decr h L it).map fun r => r.map fun it2 => (it, it2)) :=
  ⟨fun s L l hI hne => decr_end_ok hI hne,
   fun h L o hth hsz => decr_err_end_empty h o hth hsz,
   fun s L q l2 hI o => decr_err_first hI o,
   decr_err_head,
   fun h L it ho => decr_err_unattached h L ho,
   fun h L it => rfl⟩

/-- C4 exercised: decrement of `end()` on the concrete two-node list
yields its last node. -/
theorem C4_witness :
    decr exState.heap exList (endIter exList) = some (.ok ⟨some 3, some exList.id⟩) :=
  C4_decrement.1 exState exList [(2, 5), (3, 5)] exListInv (by decide)

/-- C5 (amended): `insert` checks only ownership and non-nullness — a
wrong owner or a null node fails with InvalidIterator; a valid seam
position (the tail sentinel included) inserts a copy of the value right
before it, increments the count and returns an iterator to the new node;
but a non-null position of the right owner whose node is NOT linked into
the list is not detected: the code dereferences the dead node — undefined
behavior, modelled as `none`. -/
theorem C5_insert :
    (∀ (s : State T) (L : LMeta) (pos : Iter) (v : T), pos.owner ≠ some L.id →
      listInsert s L pos v = some (.error .invalidIterator)) ∧
    (∀ (s : State T) (L : LMeta) (pos : Iter) (v : T), pos.cur = none →
      listInsert s L pos v = some (.error .invalidIterator)) ∧
    (∀ (s : State T) (L : LMeta) (l1 l2 : List (Nat × T)) (v : T),
      InvWith s L (l1 ++ l2) →
      ∃ s', listInsert s L ⟨some (frontPtr l2 L.tail), some L.id⟩ v =
          some (.ok (s', { L with sz := L.sz + 1 }, ⟨some s.fresh, some L.id⟩)) ∧
        InvWith s' { L with sz := L.sz + 1 } (l1 ++ (s.fresh, v) :: l2)) ∧
    (∀ (s : State T) (L : LMeta) (c : Nat) (v : T), s.heap c = none → c ≠ s.fresh →
      listInsert s L ⟨some c, some L.id⟩ v = none) := by
  refine ⟨fun s L pos v ho => listInsert_err_owner ho,
    fun s L pos v hc => listInsert_err_null hc, ?_,
    fun s L c v hh hcf => listInsert_ub hh hcf⟩
  intro s L l1 l2 v hI
  obtain ⟨s', heq, hinv, -, -⟩ := listInsert_spec l1 l2 hI
  exact ⟨s', heq, hinv⟩

/-- C5 exercised: appending through the tail sentinel of the empty list. -/
theorem C5_witness : ∃ s', listInsert exEmptyState exEmptyList
      ⟨some (frontPtr ([] : List (Nat × Nat)) exEmptyList.tail),
        some exEmptyList.id⟩ 3 =
    some (.ok (s', { exEmptyList with sz := exEmptyList.sz + 1 },
      ⟨some exEmptyState.fresh, some exEmptyList.id⟩)) ∧
    InvWith s' { exEmptyList with sz := exEmptyList.sz + 1 }
      ([] ++ (exEmptyState.fresh, 3) :: []) :=
  C5_insert.2.2.1 exEmptyState exEmptyList [] [] 3 exEmptyInv

/-- C5 counterexample to the frozen wording: a position with the right
owner whose node is not linked into the list (a dangling address) is not
rejected with InvalidIterator — the insert dereferences the dead node
(undefined behavior, `none` in the model). -/
theorem C5_counterexample :
    exEmptyState.heap 7 = none ∧
    listInsert exEmptyState exEmptyList ⟨some 7, some 0⟩ 3 = none ∧
    listInsert exEmptyState exEmptyList ⟨some 7, some 0⟩ 3 ≠
      some (.error .invalidIterator) :=
  ⟨rfl, rfl, fun h => Option.noConfusion h⟩

/-- C6 (amended): `erase` deallocates the removed node without clearing
its links (`delete p`; the link-clearing private `erase(node*)` helper is
not on this path), so an increment or decrement on an iterator still
referencing the erased node reads freed memory — undefined behavior
(`none` in the model), not a detected InvalidIterator failure. -/
theorem C6_erased_node :
    ∀ (s : State T) (L : LMeta) (l1 l2 : List (Nat × T)) (p : Nat) (w : T),
      InvWith s L (l1 ++ (p, w) :: l2) →
      ∃ s', listErase s L ⟨some p, some L.id⟩ =
          some (.ok (s', { L with sz := L.sz - 1 },
            ⟨some (frontPtr l2 L.tail), some L.id⟩)) ∧
        s'.heap p = none ∧
        incr s'.heap L ⟨some p, some L.id⟩ = none ∧
        decr s'.heap L ⟨some p, some L.id⟩ = none := by
  intro s L l1 l2 p w hI
  have hne := invWith_mem_ne hI (List.mem_append_right _ (List.mem_cons_self _ _))
  obtain ⟨s', heq, -, -, hnone, -⟩ := listErase_spec l1 l2 hI
  exact ⟨s', heq, hnone, incr_ub s'.heap L L.id hne.2 hnone,
    decr_ub s'.heap L L.id hne.1 hne.2 hnone⟩

/-- C6 exercised at the concrete two-node store. -/
theorem C6_witness : ∃ s', listErase exState exList ⟨some 3, some exList.id⟩ =
    some (.ok (s', { exList with sz := exList.sz - 1 },
      ⟨some (frontPtr ([] : List (Nat × Nat)) exList.tail), some exList.id⟩)) ∧
    s'.heap 3 = none ∧
    incr s'.heap exList ⟨some 3, some exList.id⟩ = none ∧
    decr s'.heap exList ⟨some 3, some exList.id⟩ = none :=
  C6_erased_node exState exList [(2, 5)] [] 3 5 exListInv

/-- C6 counterexample to the frozen wording: after erasing node 3 its
address is freed and increment on the erased iterator is undefined
behavior (`none`), not an InvalidIterator failure. -/
theorem C6_counterexample :
    ∃ h : Heap Nat, listErase exState exList ⟨some 3, some 0⟩ =
        some (.ok (⟨h, 4⟩, { exList with sz := 1 }, ⟨some 1, some 0⟩)) ∧
      h 3 = none ∧
      incr h exList ⟨some 3, some 0⟩ = none ∧
      incr h exList ⟨some 3, some 0⟩ ≠ some (.error .invalidIterator) :=
  ⟨((exHeap.set 2 ⟨some 0, some 1, some 5⟩).set 1 ⟨some 2, none, none⟩).del 3,
    rfl, rfl, rfl, fun h => Option.noConfusion h⟩

/-- C7: `unique` keeps the first node of each run of consecutive
equal-valued nodes (equality is the negation of the value type's `!=`)
and destroys the rest, decrementing the count; the surviving value
sequence is the destutter of the original, so non-consecutive duplicates
survive — on values [1,1,2,2,1] it yields [1,2,1]; lists of 0 or 1
elements are unchanged. -/
theorem C7_unique [DecidableEq T] :
    (∀ (s : State T) (L : LMeta) (l : List (Nat × T)), InvWith s L l →
      ∃ s', uniqueOp s L = some (s', { L with sz := (uniqueScan l).length }) ∧
        InvWith s' { L with sz := (uniqueScan l).length } (uniqueScan l) ∧
        (∀ r ∈ l, r.1 ∉ (uniqueScan l).map Prod.fst → s'.heap r.1 = none)) ∧
    (∀ l : List (Nat × T),
      (uniqueScan l).map Prod.snd = (l.map Prod.snd).destutter (· ≠ ·)) ∧
    (∀ l : List (Nat × T), (uniqueScan l).Sublist l) ∧
    (∀ l : List (Nat × T), l.length ≤ 1 → uniqueScan l = l) ∧
    (([1, 1, 2, 2, 1] : List Nat).destutter (· ≠ ·) = [1, 2, 1]) := by
  refine ⟨?_, uniqueScan_map_snd, uniqueScan_sublist, uniqueScan_short, by decide⟩
  intro s L l hI
  obtain ⟨s', heq, hinv, -, hfreed, -⟩ := uniqueOp_spec hI
  exact ⟨s', heq, hinv, hfreed⟩

/-- C7 exercised: the two consecutive 5s collapse to one node. -/
theorem C7_witness : ∃ s', uniqueOp exState exList =
    some (s', { exList with sz := (uniqueScan [(2, 5), (3, 5)]).length }) ∧
    InvWith s' { exList with sz := (uniqueScan [(2, 5), (3, 5)]).length }
      (uniqueScan [(2, 5), (3, 5)]) ∧
    (∀ r ∈ [(2, 5), (3, 5)], r.1 ∉ (uniqueScan [(2, 5), (3, 5)]).map Prod.fst →
      s'.heap r.1 = none) :=
  C7_unique.1 exState exList [(2, 5), (3, 5)] exListInv

/-- C8: `reverse` swaps only held values between symmetric node pairs:
every address keeps its prev and next links (no node unlinked, relinked,
allocated or destroyed; `fresh` unchanged), the value sequence is
reversed over the same address sequence, and applying reverse twice
restores the original content. -/
theorem C8_reverse :
    (∀ (s : State T) (L : LMeta) (l : List (Nat × T)), InvWith s L l →
      ∃ s', reverseOp s L = some s' ∧
        InvWith s' L ((l.map Prod.fst).zip ((l.map Prod.snd).reverse)) ∧
        s'.fresh = s.fresh ∧
        (∀ i, (s'.heap i).map Node.prev = (s.heap i).map Node.prev ∧
              (s'.heap i).map Node.next = (s.heap i).map Node.next)) ∧
    (∀ (s : State T) (L : LMeta) (l : List (Nat × T)), InvWith s L l →
      ∃ s1 s2, reverseOp s L = some s1 ∧ reverseOp s1 L = some s2 ∧
        InvWith s2 L l) := by
  constructor
  · intro s L l hI
    obtain ⟨s', heq, hinv, hfr, hlinks, -⟩ := reverseOp_spec hI
    exact ⟨s', heq, hinv, hfr, hlinks⟩
  · intro s L l hI
    obtain ⟨s1, heq1, hinv1, -, -, -⟩ := reverseOp_spec hI
    obtain ⟨s2, heq2, hinv2, -, -, -⟩ := reverseOp_spec hinv1
    refine ⟨s1, s2, heq1, heq2, ?_⟩
    have hlen : (l.map Prod.fst).length = ((l.map Prod.snd).reverse).length := by simp
    have hm1 : ((l.map Prod.fst).zip ((l.map Prod.snd).reverse)).map Prod.fst =
        l.map Prod.fst := List.map_fst_zip _ _ (le_of_eq hlen)
    have hm2 : ((l.map Prod.fst).zip ((l.map Prod.snd).reverse)).map Prod.snd =
        (l.map Prod.snd).reverse := List.map_snd_zip _ _ (le_of_eq hlen.symm)
    have hzip : (l.map Prod.fst).zip (l.map Prod.snd) = l := by
      have h := List.zip_unzip l
      rw [List.unzip_eq_map] at h
      simpa using h
    have hcont : ((((l.map Prod.fst).zip ((l.map Prod.snd).reverse)).map Prod.fst).zip
        ((((l.map Prod.fst).zip ((l.map Prod.snd).reverse)).map Prod.snd).reverse)) =
        l := by
      rw [hm1, hm2, List.reverse_reverse, hzip]
    rw [hcont] at hinv2
    exact hinv2

/-- C8 exercised: double reverse of the concrete two-node list restores
its content. -/
theorem C8_witness : ∃ s1 s2, reverseOp exState exList = some s1 ∧
    reverseOp s1 exList = some s2 ∧ InvWith s2 exList [(2, 5), (3, 5)] :=
  C8_reverse.2 exState exList [(2, 5), (3, 5)] exListInv

/-- C9: starting from a fresh list, any sequence of `push_back` calls
yields a list whose count is the number of pushes and whose begin-to-end
client iteration (compare with `end()`, dereference, pre-increment)
produces exactly the pushed values in insertion order. -/
theorem C9_pushback_iteration :
    ∀ (vs : List T) (s : State T) (lid : Nat),
    ∃ s' L pl, pushMany (mkList s lid).1 (mkList s lid).2 vs = some (.ok (s', L)) ∧
      L.sz = vs.length ∧
      InvWith s' L pl ∧
      beginIter s' L = some ⟨some (frontPtr pl L.tail), some L.id⟩ ∧
      iterToEnd s'.heap L (vs.length + 1) ⟨some (frontPtr pl L.tail), some L.id⟩ =
        some vs := by
  intro vs s lid
  obtain ⟨hmk, -, hmeta, -⟩ := mkList_spec s lid
  obtain ⟨s', pl, heq, hinv, hmap⟩ := pushMany_spec vs hmk
  have hlen : pl.length = vs.length := by rw [← hmap, List.length_map]
  refine ⟨s', { (mkList s lid).2 with sz := (mkList s lid).2.sz + vs.length },
    pl, heq, by simp [hmeta], by simpa using hinv, beginIter_spec hinv, ?_⟩
  have h := iterToEnd_spec pl [] (vs.length + 1) hinv (by omega)
  rw [hmap] at h
  exact h

/-- C9 exercised: two pushes onto a fresh list iterate back as pushed. -/
theorem C9_witness : ∃ s' L pl,
    pushMany (mkList exEmptyState 3).1 (mkList exEmptyState 3).2 [10, 20] =
      some (.ok (s', L)) ∧
    L.sz = 2 ∧ InvWith s' L pl ∧
    beginIter s' L = some ⟨some (frontPtr pl L.tail), some L.id⟩ ∧
    iterToEnd s'.heap L 3 ⟨some (frontPtr pl L.tail), some L.id⟩ = some [10, 20] :=
  C9_pushback_iteration [10, 20] exEmptyState 3

/-- C10: iterator equality (all four const/non-const pairings share the one
body `cur == rhs.cur`) is true exactly when the two iterators reference
the same node, never consults the owner, never fails (it is a total
Boolean function), and holds between default-constructed iterators. -/
theorem C10_iter_eq :
    (∀ a b : Iter, iterEq a b = true ↔ a.cur = b.cur) ∧
    (∀ c1 c2 o1 o2 o3 o4 : Option Nat,
      iterEq ⟨c1, o1⟩ ⟨c2, o2⟩ = iterEq ⟨c1, o3⟩ ⟨c2, o4⟩) ∧
    (iterEq ⟨none, none⟩ ⟨none, none⟩ = true) := by
  refine ⟨fun a b => ?_, fun c1 c2 o1 o2 o3 o4 => rfl, rfl⟩
  simp [iterEq]

/-- C10 exercised: equal nodes under different owners compare equal. -/
theorem C10_witness : iterEq ⟨some 2, some 0⟩ ⟨some 2, some 99⟩ = true :=
  (C10_iter_eq.1 ⟨some 2, some 0⟩ ⟨some 2, some 99⟩).mpr rfl

end SjtuList
